import Mathlib

/-!
Verification development for the Scheme reader (lexer, datum parser and
numeric-literal analyzer) of the `scheme` repository.

The Go source is embedded shallowly:

* `parser/number/number.go` validates and evaluates numeric literals with
  anchored Go regular expressions.  Go's `regexp` package guarantees
  leftmost-first ("the same submatches a backtracking search would find")
  semantics, so the patterns are embedded as an explicit backtracking
  matcher (`Pat`/`run`) over `List Char`, and the concrete patterns of
  `number.go` are transcribed literally into `Pat` values.
* IEEE-754 `float64`/`complex128` values are modelled by exact rationals
  (`ℚ`).  The claims settled here depend on control flow, flags and error
  behaviour, not on rounding; places where the rational model diverges
  from IEEE arithmetic (rounding, division by zero, `math.Sin`) are noted
  at the definition site.
* Go panics (`strconv` failures, out-of-range slice indexing, nil
  dereference) are modelled by `Except`/`Option` error results.
-/

namespace Scheme

/-! ## A leftmost-first backtracking regex engine

`run p input` returns every way `p` can match a prefix of `input`, as a
pair (remaining suffix, captured groups), ordered by backtracking
preference: alternatives left to right, quantifiers greedy.  Taking the
first entry whose remainder is empty therefore yields exactly the
(sub)match that Go's `regexp.FindStringSubmatch` produces for the
anchored pattern `^(p)$`.  Starred subpatterns in `number.go` are always
single character classes, which `starCls` reflects. -/

inductive Pat where
  | cls (p : Char → Bool)
  | seq (a b : Pat)
  | alt (a b : Pat)
  | opt (a : Pat)
  | starCls (p : Char → Bool)
  | group (name : String) (a : Pat)

abbrev Caps := List (String × String)

/-- Length of the maximal run of characters satisfying `p`. -/
def maxRun (p : Char → Bool) : List Char → Nat
  | [] => 0
  | c :: rest => if p c then maxRun p rest + 1 else 0

/-- All matches of `p` against a prefix of `input`, in backtracking
preference order.  Each entry is the remaining suffix together with the
named captures produced so far, in group-index order. -/
def run : Pat → List Char → List (List Char × Caps)
  | .cls p, input =>
    match input with
    | [] => []
    | c :: rest => if p c then [(rest, [])] else []
  | .seq a b, input =>
    (run a input).flatMap fun r1 => (run b r1.1).map fun r2 => (r2.1, r1.2 ++ r2.2)
  | .alt a b, input => run a input ++ run b input
  | .opt a, input => run a input ++ [(input, [])]
  | .starCls p, input =>
    let k := maxRun p input
    (List.range (k + 1)).map fun i => (input.drop (k - i), [])
  | .group n a, input =>
    (run a input).map fun r => (r.1, (n, String.mk (input.take (input.length - r.1.length))) :: r.2)

/-- The captures of the first full (anchored) match, if any; `none`
corresponds to `FindStringSubmatch` returning `nil`. -/
def fullCaps (p : Pat) (s : List Char) : Option Caps :=
  ((run p s).find? fun r => r.1 = []).map (·.2)

def matchesB (p : Pat) (s : List Char) : Bool := (fullCaps p s).isSome

/-- `getGroupVals` in `number.go`: iterate the submatches in index order
and record each non-empty capture under its (non-empty) name.  Looking
up an absent name in the Go map yields `""`. -/
def lookupVal (caps : Caps) (n : String) : String :=
  caps.foldl (fun acc kv => if kv.1 = n && kv.2 ≠ ("") then kv.2 else acc) ("")

def groupVal (p : Pat) (s : String) (n : String) : String :=
  lookupVal ((fullCaps p s.data).getD []) n

/-! ## The `<number>` grammar of `parser/number/number.go`

Transcription of the regex constants `number2 | number8 | number10 |
number16` (and their subpatterns `prefixR`, `uintegerR`, `decimal10`,
`urealR`, `realR`, `complexR`), parameterised by the radix to avoid
copying each pattern four times.  For radix 10 the radix marker `(#d)?`
is optional and `ureal10` gains the `decimal10` alternative, exactly as
in the source. -/

def chr (c : Char) : Pat := .cls (· = c)

def plusCls (p : Char → Bool) : Pat := .seq (.cls p) (.starCls p)

def isSignCh (c : Char) : Bool := c = '+' || c = '-'

def isMarkerCh (c : Char) : Bool :=
  c = 'e' || c = 's' || c = 'f' || c = 'd' || c = 'l'

def hashCh (c : Char) : Bool := c = '#'

def digitCh (b : Nat) (c : Char) : Bool :=
  match b with
  | 2 => c = '0' || c = '1'
  | 8 => '0' ≤ c && c ≤ '7'
  | 10 => '0' ≤ c && c ≤ '9'
  | 16 => ('0' ≤ c && c ≤ '9') || ('a' ≤ c && c ≤ 'f')
  | _ => false

/-- `#[ie]` -/
def exactnessPat : Pat := .seq (chr '#') (.cls fun c => c = 'i' || c = 'e')

/-- `#b`, `#o`, `(#d)?`, `#x` -/
def radixMarkPat (b : Nat) : Pat :=
  match b with
  | 2 => .seq (chr '#') (chr 'b')
  | 8 => .seq (chr '#') (chr 'o')
  | 16 => .seq (chr '#') (chr 'x')
  | _ => .opt (.seq (chr '#') (chr 'd'))

/-- `prefixR` = radix marker and exactness flag in either order. -/
def prefixPat (b : Nat) : Pat :=
  .alt (.seq (radixMarkPat b) (.opt exactnessPat))
       (.seq (.opt exactnessPat) (radixMarkPat b))

/-- `uintegerR` = `digitR+ #*` -/
def uintegerPat (b : Nat) : Pat := .seq (plusCls (digitCh b)) (.starCls hashCh)

/-- `([esfdl][+-]?[0-9]+)?` without the outer `?`. -/
def suffixPat : Pat :=
  .seq (.cls isMarkerCh) (.seq (.opt (.cls isSignCh)) (plusCls (digitCh 10)))

/-- `\.?[0-9]+#*` -/
def mant1 : Pat := .seq (.opt (chr '.')) (uintegerPat 10)

/-- `[0-9]+\.[0-9]*#*` -/
def mant2 : Pat :=
  .seq (plusCls (digitCh 10)) (.seq (chr '.') (.seq (.starCls (digitCh 10)) (.starCls hashCh)))

/-- `[0-9]+#+\.#*` -/
def mant3 : Pat :=
  .seq (plusCls (digitCh 10)) (.seq (plusCls hashCh) (.seq (chr '.') (.starCls hashCh)))

/-- `decimal10` -/
def decimalPat : Pat := .seq (.alt mant1 (.alt mant2 mant3)) (.opt suffixPat)

/-- `(?P<dividend>uintegerR)(/(?P<divisor>uintegerR))?` -/
def dividePat (b : Nat) : Pat :=
  .seq (.group ("dividend") (uintegerPat b))
       (.opt (.seq (chr '/') (.group ("divisor") (uintegerPat b))))

/-- `urealR`; for radix 10 with the `(?P<decimal>decimal10)` alternative. -/
def urealPat (b : Nat) : Pat :=
  if b = 10 then .alt (dividePat 10) (.group ("decimal") decimalPat) else dividePat b

/-- `realR` = `(?P<realSign>[+-]?)(?P<realUreal>urealR)` -/
def realPat (b : Nat) : Pat :=
  .seq (.group ("realSign") (.opt (.cls isSignCh))) (.group ("realUreal") (urealPat b))

/-- `(?P<complexImagSign>[+-])(?P<complexImag>urealR)?i` -/
def imagTailPat (b : Nat) : Pat :=
  .seq (.group ("complexImagSign") (.cls isSignCh))
       (.seq (.opt (.group ("complexImag") (urealPat b))) (chr 'i'))

/-- `complexR` -/
def complexPat (b : Nat) : Pat :=
  .alt (.seq (.group ("complexReal") (realPat b))
             (.opt (.alt (.seq (chr '@') (.group ("complexImag") (realPat b)))
                         (imagTailPat b))))
       (imagTailPat b)

/-- `numberR` = `(?P<prefix>prefixR)(?P<complex>complexR)` -/
def numberPat (b : Nat) : Pat :=
  .seq (.group ("prefix") (prefixPat b)) (.group ("complex") (complexPat b))

/-- `number` = `number2|number8|number10|number16` -/
def numberAll : Pat :=
  .alt (numberPat 2) (.alt (numberPat 8) (.alt (numberPat 10) (numberPat 16)))

/-- Never-matching pattern; stands in for the absent entries of the
`regexps` map (`radixVal` is always one of 2, 8, 10, 16 when the map is
consulted). -/
def neverPat : Pat := .cls fun _ => false

def urealPatOf (b : Nat) : Pat :=
  match b with
  | 2 => urealPat 2 | 8 => urealPat 8 | 10 => urealPat 10 | 16 => urealPat 16
  | _ => neverPat

def realPatOf (b : Nat) : Pat :=
  match b with
  | 2 => realPat 2 | 8 => realPat 8 | 10 => realPat 10 | 16 => realPat 16
  | _ => neverPat

def complexPatOf (b : Nat) : Pat :=
  match b with
  | 2 => complexPat 2 | 8 => complexPat 8 | 10 => complexPat 10 | 16 => complexPat 16
  | _ => neverPat

/-! ## `strconv` conversions

`parseUint` calls `strconv.ParseInt(lit, radix, 0)` and `parseDecimal`
calls `strconv.ParseFloat(lit, 0)`; both panic on a non-nil error.  The
error is either a syntax error or a range error, which the model keeps
apart because reachability of each kind is exactly what claims C2 is
about.  `bitSize 0` means the 64-bit `int` of the reference targets for
`ParseInt`, and is treated as 64 by `ParseFloat`. -/

inductive ConvErr where
  | intSyntax | intRange | floatSyntax | floatRange
deriving Repr, DecidableEq

def digitVal (c : Char) : Nat :=
  if '0' ≤ c ∧ c ≤ '9' then c.toNat - '0'.toNat
  else if 'a' ≤ c ∧ c ≤ 'z' then c.toNat - 'a'.toNat + 10
  else if 'A' ≤ c ∧ c ≤ 'Z' then c.toNat - 'A'.toNat + 10
  else 99

def natOfDigits (b : Nat) (cs : List Char) : Nat :=
  cs.foldl (fun acc c => acc * b + digitVal c) 0

/-- `strconv.ParseInt(s, b, 0)` for the unsigned digit strings produced
by the number grammar (the grammar never passes a leading sign to it). -/
def strconvParseInt (s : String) (b : Nat) : Except ConvErr Int :=
  if s.data = [] ∨ ¬ s.data.all (fun c => digitVal c < b) then .error .intSyntax
  else if natOfDigits b s.data > 2 ^ 63 - 1 then .error .intRange
  else .ok (natOfDigits b s.data)

def isDigit10 (c : Char) : Bool := '0' ≤ c && c ≤ '9'

/-- `if q < 0 then -q else q`; spelled out so that concrete instances
reduce in the kernel. -/
def absQ (q : ℚ) : ℚ := if q < 0 then -q else q

/-- Largest magnitude (strictly below which) a decimal converts to a
finite `float64`: values of at least `2^1024 - 2^970` round to infinity
and `ParseFloat` reports a range error. -/
def floatOverflowBound : ℚ := ((2 ^ 1024 - 2 ^ 970 : ℕ) : ℚ)

/-- Positive magnitudes below `2^(-1075)` round to zero and `ParseFloat`
reports a range error (underflow). -/
def floatUnderflowBound : ℚ := 1 / ((2 ^ 1075 : ℕ) : ℚ)

/-- `strconv.ParseFloat(s, 0)` on plain decimal forms
`[+-]? digits [. digits] [e[+-]digits]` (the only forms the analyzer
feeds it).  The returned value is the exact decimal value as a rational;
IEEE rounding of in-range values is not modelled. -/
def strconvParseFloat (s : String) : Except ConvErr ℚ :=
  let cs := s.data
  let sign : ℚ := if cs.head? = some '-' then -1 else 1
  let cs1 := if cs.head? = some '-' ∨ cs.head? = some '+' then cs.tail else cs
  let intPart := cs1.takeWhile isDigit10
  let rest1 := cs1.dropWhile isDigit10
  let hasDot := rest1.head? = some '.'
  let fracPart := (if hasDot then rest1.tail else []).takeWhile isDigit10
  let rest2 := if hasDot then rest1.tail.dropWhile isDigit10 else rest1
  if intPart = [] ∧ fracPart = [] then .error .floatSyntax
  else
    let mant : ℚ := (natOfDigits 10 intPart : ℚ) +
      (natOfDigits 10 fracPart : ℚ) / ((10 ^ fracPart.length : ℕ) : ℚ)
    match rest2 with
    | [] =>
      let v := sign * mant
      if floatOverflowBound ≤ absQ v ∨ (v ≠ 0 ∧ absQ v < floatUnderflowBound) then
        .error .floatRange
      else .ok v
    | e :: rest3 =>
      if e = 'e' ∨ e = 'E' then
        let rest4 := if rest3.head? = some '-' ∨ rest3.head? = some '+' then rest3.tail else rest3
        let edigits := rest4.takeWhile isDigit10
        if edigits = [] ∨ rest4.dropWhile isDigit10 ≠ [] then .error .floatSyntax
        else
          let scale : ℚ := ((10 ^ natOfDigits 10 edigits : ℕ) : ℚ)
          let v := if rest3.head? = some '-' then sign * mant / scale
            else sign * mant * scale
          if floatOverflowBound ≤ absQ v ∨ (v ≠ 0 ∧ absQ v < floatUnderflowBound) then
            .error .floatRange
          else .ok v
      else .error .floatSyntax

/-! ## The `Number` analyzer pipeline -/

/-- The `Number` struct of `number.go` (`complex complex128` is split
into its rational real and imaginary components). -/
structure GoNumber where
  literal : String
  re : ℚ
  im : ℚ
  inexact : Bool
  isNumber : Bool
  radixVal : Nat
deriving Repr, DecidableEq

/-- `IsNumber` / the `isNumber` field set by `NewFromLiteral`: full match
against `^(number)$`. -/
def IsNumber (s : String) : Bool := matchesB numberAll s.data

def NewFromLiteral (s : String) : GoNumber :=
  { literal := s, re := 0, im := 0, inexact := false,
    isNumber := IsNumber s, radixVal := 0 }

/-- The mutable analyzer state threaded through `parseComplex` and
friends: the `radixVal` and `inexact` fields of the receiver. -/
structure NSt where
  radix : Nat
  inexact : Bool
deriving Repr, DecidableEq

/-- `getSign` -/
def goGetSign (l : String) : ℚ := if l = ("-") then -1 else 1

/-- `parsePrefix`: radix from the `b`/`o`/`x` marker (default 10),
inexactness from an `i` flag. -/
def parsePrefixPart (st : NSt) (lit : String) : NSt :=
  let r := if lit.data.contains 'b' then 2
    else if lit.data.contains 'o' then 8
    else if lit.data.contains 'x' then 16
    else 10
  { radix := r, inexact := st.inexact || lit.data.contains 'i' }

/-- `parseUint`: replace `#` digit placeholders by `0` (forcing
inexactness), then `strconv.ParseInt` at the current radix.  The
`float64(value)` conversion is the identity in the rational model. -/
def goParseUint (st : NSt) (lit : String) : Except ConvErr (ℚ × NSt) :=
  let has := lit.data.contains '#'
  let lit' := if has then String.mk (lit.data.map fun c => if c = '#' then '0' else c) else lit
  let st' := if has then { st with inexact := true } else st
  match strconvParseInt lit' st.radix with
  | .error e => .error e
  | .ok v => .ok ((v : ℚ), st')

/-- `parseDecimal`: map exponent markers `s f d l` to `e` and `#` to `0`
(forcing inexactness), force inexactness if the result contains `.` or
`e`, then `strconv.ParseFloat`. -/
def goParseDecimal (st : NSt) (lit : String) : Except ConvErr (ℚ × NSt) :=
  let mapped := lit.data.map fun c => if isMarkerCh c && c ≠ 'e' then 'e' else if c = '#' then '0' else c
  let st1 := if lit.data.contains '#' then { st with inexact := true } else st
  let st2 := if mapped.contains '.' || mapped.contains 'e' then { st1 with inexact := true } else st1
  match strconvParseFloat (String.mk mapped) with
  | .error e => .error e
  | .ok v => .ok (v, st2)

/-- `parseUreal`: decimal branch, else `dividend / divisor` (divisor
defaults to 1).  Note: `q / 0 = 0` in `ℚ` where IEEE gives `±Inf`/`NaN`;
no claim settled here evaluates a zero-divisor literal. -/
def goParseUreal (st : NSt) (lit : String) : Except ConvErr (ℚ × NSt) :=
  let p := urealPatOf st.radix
  let decv := groupVal p lit ("decimal")
  if decv ≠ ("") then goParseDecimal st decv
  else
    match goParseUint st (groupVal p lit ("dividend")) with
    | .error e => .error e
    | .ok (dv, st1) =>
      if lit.data.contains '/' then
        match goParseUint st1 (groupVal p lit ("divisor")) with
        | .error e => .error e
        | .ok (vv, st2) => .ok (dv / vv, st2)
      else .ok (dv / 1, st1)

/-- `parseReal`: empty literal is 0, else sign times `parseUreal` of the
`realUreal` group. -/
def goParseReal (st : NSt) (lit : String) : Except ConvErr (ℚ × NSt) :=
  if lit = ("") then .ok (0, st)
  else
    let p := realPatOf st.radix
    match goParseUreal st (groupVal p lit ("realUreal")) with
    | .error e => .error e
    | .ok (u, st1) => .ok (goGetSign (groupVal p lit ("realSign")) * u, st1)

/-- Rational stand-in for `math.Sin`: a Taylor polynomial.  The claims
proved about the polar branch depend only on the guard
`|sin θ| > 1e-52` being applied to the computed sine, not on the value
of the sine itself. -/
def goSin (x : ℚ) : ℚ :=
  x - x * x * x / 6 + x * x * x * x * x / 120 - x * x * x * x * x * x * x / 5040

/-- Rational stand-in for `math.Cos` (same caveat as `goSin`). -/
def goCos (x : ℚ) : ℚ :=
  1 - x * x / 2 + x * x * x * x / 24 - x * x * x * x * x * x / 720

/-- The Go literal `1e-52` (modelled exactly). -/
def sinEps : ℚ := 1 / ((10 ^ 52 : ℕ) : ℚ)

/-- `parseComplex`: split on `@` (polar) or `i` (rectangular). -/
def goParseComplex (st : NSt) (lit : String) : Except ConvErr (ℚ × ℚ × NSt) :=
  let p := complexPatOf st.radix
  match goParseReal st (groupVal p lit ("complexReal")) with
  | .error e => .error e
  | .ok (rVal, st1) =>
    if lit.data.contains '@' then
      match goParseReal st1 (groupVal p lit ("complexImag")) with
      | .error e => .error e
      | .ok (iRaw, st2) =>
        let sn := goSin iRaw
        let st3 := if sinEps < absQ sn then { st2 with inexact := true } else st2
        .ok (rVal * goCos iRaw, rVal * sn, st3)
    else if lit.data.contains 'i' then
      match (if groupVal p lit ("complexImag") ≠ ("") then
               goParseUreal st1 (groupVal p lit ("complexImag"))
             else .ok (1, st1)) with
      | .error e => .error e
      | .ok (iRaw, st2) =>
        .ok (rVal, goGetSign (groupVal p lit ("complexImagSign")) * iRaw, st2)
    else .ok (rVal, 0, st1)

/-- `(*Number).Parse`: prefix then complex part, mutating the receiver.
A `.error` result models the `panic(err)` calls in `parseUint` and
`parseDecimal`. -/
def Parse (n : GoNumber) : Except ConvErr GoNumber :=
  let st0 := parsePrefixPart { radix := n.radixVal, inexact := n.inexact }
    (groupVal numberAll n.literal ("prefix"))
  match goParseComplex st0 (groupVal numberAll n.literal ("complex")) with
  | .error e => .error e
  | .ok (re, im, st1) =>
    .ok { n with re := re, im := im, inexact := st1.inexact, radixVal := st1.radix }

/-- `NewFromLiteral(s).Parse()`, the composition used by the parser's
`parseNumber` and by every numeric claim. -/
def ParseLiteral (s : String) : Except ConvErr GoNumber := Parse (NewFromLiteral s)

end Scheme

namespace Scheme

/-! ## The datum parser (`parser.go`)

`Parser` walks the token vector with a cursor `index`; every access is
to `p.Tokens[p.index]`, so the embedding works on the remaining token
suffix.  `Option` results model Go runtime panics: indexing past the end
of the token slice, dereferencing a nil `previousNode`, the explicit
`panic("list end expected")`, and a panicking `Number.Parse`.  Each
successful step records that it consumed at least one token, which makes
the recursion well-founded. -/

inductive TokenType where
  | LPAREN | RPAREN | HPAREN | SQUOTE | BQUOTE | COMMA | COMMAT | DOT
  | BOOL | CHAR | IDENT | STRING | NUMBER
deriving Repr, DecidableEq

structure Token where
  type : TokenType
  literal : String
deriving Repr, DecidableEq

/-- `Sexpr` values: the `Atom` variants (tagged by `AtomType` in Go) and
`Expr` pairs, whose fields hold `nil`-able `Sexpr` interfaces (`Option`).
Vector elements are `nil`-able for the same reason. -/
inductive Sexpr where
  | atomBool (b : Bool)
  | atomNum (n : GoNumber)
  | atomChar (c : Char)
  | atomStr (s : String)
  | atomSym (s : String)
  | atomVec (elems : List (Option Sexpr))
  | cons (car cdr : Option Sexpr)
deriving Repr

/-- The `abbrevToIdent` map; a missing key yields the Go zero value. -/
def abbrevToIdent (s : String) : String :=
  if s = ("'") then ("quote")
  else if s = ("`") then ("quasiquote")
  else if s = (",") then ("unquote")
  else if s = (",@") then ("unquote-splicing")
  else ("")

/-- `parseBool`: `literal[1] == 't'`; indexing a shorter literal panics.
(Token literals are ASCII here, so byte and rune indices agree.) -/
def goParseBool (lit : String) : Option Bool :=
  match lit.data with
  | _ :: c :: _ => some (c = 't')
  | _ => none

/-- `parseChar`: decode `literal[2:]`; a literal shorter than the `#\`
prefix panics.  The default branch takes the rune at byte offset 2 and
leaves the zero rune when there is none. -/
def goParseChar (lit : String) : Option Char :=
  match lit.data with
  | _ :: _ :: rest =>
    if rest = ("space").data then some ' '
    else if rest = ("newline").data then some '\n'
    else some (rest.headD (Char.ofNat 0))
  | _ => none

/-- Result of `ParseNextNode` on a token suffix: the produced value
(`none` is a nil `Sexpr` interface, as returned for `RPAREN`/`DOT`
tokens), the remaining suffix, and the fact that at least one token was
consumed (the trailing `p.index++`). -/
structure PRes (ts : List Token) where
  val : Option Sexpr
  rest : List Token
  consumed : rest.length < ts.length

/-- Result of the `parseList` loop (including the `RPAREN` consumed by
the caller's `p.index++`): the `Car`s threaded into the still-reachable
chain, the `Cdr` spliced into it by a `DOT`, and the remaining suffix. -/
structure LRes (ts : List Token) where
  cars : List (Option Sexpr)
  tailv : Option (Option Sexpr)
  rest : List Token
  consumed : rest.length < ts.length

/-- Result of the `parseVector` loop (including the final `RPAREN`). -/
structure VRes (ts : List Token) where
  elems : List (Option Sexpr)
  rest : List Token
  consumed : rest.length < ts.length

/-- The proper chain `Pair c1 (Pair c2 … (Pair ck Empty))`; `[]` gives
the empty pair `Expr{}`. -/
def buildChain : List (Option Sexpr) → Sexpr
  | [] => .cons none none
  | c :: rest => .cons c (some (buildChain rest))

/-- The chain ending in the spliced `Cdr` `x` (reachable only when at
least one `Car` was threaded first). -/
def buildChainT : List (Option Sexpr) → Option Sexpr → Sexpr
  | [], x => .cons none x
  | [c], x => .cons c x
  | c :: rest, x => .cons c (some (buildChainT rest x))

def assembleList (cars : List (Option Sexpr)) (tailv : Option (Option Sexpr)) : Sexpr :=
  match tailv with
  | none => buildChain cars
  | some x => buildChainT cars x

mutual

/-- `ParseNextNode` on the remaining token suffix. -/
def parseNextNode : (ts : List Token) → Option (PRes ts)
  | [] => none
  | t :: tl =>
    match t.type with
    | .BOOL =>
      match goParseBool t.literal with
      | none => none
      | some b => some ⟨some (.atomBool b), tl, by simp⟩
    | .NUMBER =>
      match ParseLiteral t.literal with
      | .error _ => none
      | .ok n => some ⟨some (.atomNum n), tl, by simp⟩
    | .CHAR =>
      match goParseChar t.literal with
      | none => none
      | some c => some ⟨some (.atomChar c), tl, by simp⟩
    | .STRING => some ⟨some (.atomStr t.literal), tl, by simp⟩
    | .IDENT => some ⟨some (.atomSym t.literal), tl, by simp⟩
    | .HPAREN =>
      match vecLoop tl [] with
      | none => none
      | some r => some ⟨some (.atomVec r.elems), r.rest, by
          have := r.consumed; simp; omega⟩
    | .SQUOTE | .BQUOTE | .COMMA | .COMMAT =>
      -- parseAbbrev: the index decrement at its end cancels against the
      -- caller's increment, so the net consumption is the abbreviation
      -- token plus the following datum.
      match parseNextNode tl with
      | none => none
      | some r =>
        some ⟨some (.cons (some (.atomSym (abbrevToIdent t.literal)))
                (some (.cons r.val (some (.cons none none))))), r.rest, by
          have := r.consumed; simp; omega⟩
    | .LPAREN =>
      match listLoop tl true false [] none with
      | none => none
      | some r => some ⟨some (assembleList r.cars r.tailv), r.rest, by
          have := r.consumed; simp; omega⟩
    | _ => some ⟨none, tl, by simp⟩
termination_by ts => (ts.length, 0)
decreasing_by
  all_goals simp_wf
  all_goals try simp only [List.length_cons] at *
  all_goals first
  | (apply Prod.Lex.right; omega)
  | (apply Prod.Lex.left; omega)

/-- The `parseList` loop.  `live` records whether `currentNode` is still
reachable from the returned root (a `DOT` overwrites `previousNode.Cdr`,
detaching it), `anyIter` whether `previousNode` is non-nil. -/
def listLoop : (ts : List Token) → Bool → Bool → List (Option Sexpr) →
    Option (Option Sexpr) → Option (LRes ts)
  | [], _, _, _, _ => none
  | t :: tl, live, anyIter, cars, tailv =>
    if t.type = .RPAREN then some ⟨cars, tailv, tl, by simp⟩
    else if t.type = .DOT then
      if anyIter = false then none
      else
        match parseNextNode tl with
        | none => none
        | some ⟨x, xrest, hx⟩ =>
          match xrest, hx with
          | [], _ => none
          | u :: ur, hc =>
            if u.type ≠ .RPAREN then none
            else
              -- previousNode.Cdr is overwritten (visibly only while the
              -- chain is live); the loop body then falls through,
              -- consuming the checked RPAREN as a nil datum appended to
              -- the now-detached chain, and keeps scanning.
              match listLoop ur false true cars (if live then some x else tailv) with
              | none => none
              | some ⟨qc, qt, qrest, hq⟩ => some ⟨qc, qt, qrest, by
                  simp only [List.length_cons] at *; omega⟩
    else
      match parseNextNode (t :: tl) with
      | none => none
      | some ⟨y, yrest, hy⟩ =>
        match listLoop yrest live true (if live then cars ++ [y] else cars) tailv with
        | none => none
        | some ⟨qc, qt, qrest, hq⟩ => some ⟨qc, qt, qrest, by
            simp only [List.length_cons] at *; omega⟩
termination_by ts _ _ _ _ => (ts.length, 1)
decreasing_by
  all_goals simp_wf
  all_goals try simp only [List.length_cons] at *
  all_goals first
  | (apply Prod.Lex.right; omega)
  | (apply Prod.Lex.left; omega)

/-- The `parseVector` loop. -/
def vecLoop : (ts : List Token) → List (Option Sexpr) → Option (VRes ts)
  | [], _ => none
  | t :: tl, acc =>
    if t.type = .RPAREN then some ⟨acc, tl, by simp⟩
    else
      match parseNextNode (t :: tl) with
      | none => none
      | some ⟨y, yrest, hy⟩ =>
        match vecLoop yrest (acc ++ [y]) with
        | none => none
        | some ⟨qe, qrest, hq⟩ => some ⟨qe, qrest, by
            simp only [List.length_cons] at *; omega⟩
termination_by ts _ => (ts.length, 1)
decreasing_by
  all_goals simp_wf
  all_goals try simp only [List.length_cons] at *
  all_goals first
  | (apply Prod.Lex.right; omega)
  | (apply Prod.Lex.left; omega)

end

/-- `ParseNextNode` projected to its observable behaviour. -/
def parseNN (ts : List Token) : Option (Option Sexpr × List Token) :=
  (parseNextNode ts).map fun r => (r.val, r.rest)

/-- `Parse`: fold `ParseNextNode` over the whole token vector. -/
def parseProgram : (ts : List Token) → Option (List (Option Sexpr))
  | [] => some []
  | t :: tl =>
    match parseNextNode (t :: tl) with
    | none => none
    | some r =>
      match parseProgram r.rest with
      | none => none
      | some rest => some (r.val :: rest)
termination_by ts => ts.length
decreasing_by simp_wf; exact r.consumed

end Scheme

namespace Scheme

/-! ## Structural equality (`Equals`)

`Option Bool` results model the partiality of the Go methods: invoking
`Equals` on a nil `Sexpr` interface (possible for vector elements)
panics.  `Expr.Equals` evaluates both field comparisons before
combining them, and nil fields compare by interface identity. -/

mutual

def Equals : Sexpr → Sexpr → Option Bool
  | .atomBool b, .atomBool b2 => some (b = b2)
  | .atomChar c, .atomChar c2 => some (c = c2)
  | .atomStr s, .atomStr s2 => some (s = s2)
  | .atomSym s, .atomSym s2 => some (s = s2)
  | .atomNum n, .atomNum n2 =>
    some (n.isNumber && n2.isNumber && (n.inexact = n2.inexact) &&
      (n.re = n2.re) && (n.im = n2.im))
  | .atomVec v, .atomVec v2 =>
    if v.length = v2.length then EqualsVec v v2 else some false
  | .cons c d, .cons c2 d2 =>
    match EqualsOpt c c2 with
    | none => none
    | some bc =>
      match EqualsOpt d d2 with
      | none => none
      | some bd => some (bc && bd)
  | _, _ => some false

/-- Field comparison in `Expr.Equals`: a nil field on either side makes
the comparison an interface identity test. -/
def EqualsOpt : Option Sexpr → Option Sexpr → Option Bool
  | none, b => some b.isNone
  | some _, none => some false
  | some a, some b => Equals a b

/-- The element loop of the `VECTOR` case, which short-circuits on the
first inequality; a nil receiver element panics, a nil argument fails
the type assertion inside the callee. -/
def EqualsVec : List (Option Sexpr) → List (Option Sexpr) → Option Bool
  | [], _ => some true
  | none :: _, _ => none
  | some _ :: _, [] => some true
  | some a :: as2, b :: bs =>
    match (match b with
           | none => some false
           | some b2 => Equals a b2) with
    | none => none
    | some bb => if bb then EqualsVec as2 bs else some false

end

end Scheme

namespace Scheme

/-! ## The lexer (`lexer.go`, the version delegating to `number`)

The character source (`text/scanner` wrapping the input) is the
remaining `List Char`; `Peek` is `head?`, `Next` pops a character, and
`scanner.EOF` corresponds to the empty list.  A lexical error in Go
carries no token; end of input is reported through the sentinel `EOF`
error.  A comment that is never closed by a newline makes the Go
`skipAtmosphere` loop spin forever, which the model reports as `hang`. -/

inductive LexErr where
  | EOF | INVALID_DOT | INVALID_HASH | INVALID_IDENT | INVALID_NUMBER
  | UNEXPECTED_EOF | UNKNOWN_NCHAR
deriving Repr, DecidableEq

def isNewlineCh (c : Char) : Bool := c = '\n'

def isWhitespaceCh (c : Char) : Bool := c = ' ' || isNewlineCh c

def isCommentCh (c : Char) : Bool := c = ';'

def isAtmosphereCh (c : Char) : Bool := isWhitespaceCh c || isCommentCh c

/-- `isDelimiter` on an ordinary rune. -/
def isDelimiterCh (c : Char) : Bool :=
  isWhitespaceCh c || c = '(' || c = ')' || c = ';' || c = '"'

/-- `isDelimiter(l.Scanner.Peek())`: the `scanner.EOF` rune is *not* in
the delimiter set. -/
def isDelimiterOpt : Option Char → Bool
  | some c => isDelimiterCh c
  | none => false

/-- Result of `skipAtmosphere`: the consumed atmosphere and the rest,
with the decomposition of the input recorded. -/
structure AtmRes (ts : List Char) where
  atm : List Char
  rest : List Char
  eqn : ts = atm ++ rest

/-- `skipAtmosphere`; `none` models the non-terminating inner comment
loop when no newline follows a `;`. -/
def skipAtmosphere : (ts : List Char) → Option (AtmRes ts)
  | [] => some ⟨[], [], rfl⟩
  | c :: rest =>
    if h : isCommentCh c then
      match hd : (c :: rest).dropWhile (fun x => ¬ isNewlineCh x) with
      | [] => none
      | nl :: post =>
        match skipAtmosphere post with
        | none => none
        | some ⟨a, r, e⟩ =>
          some ⟨(c :: rest).takeWhile (fun x => ¬ isNewlineCh x) ++ nl :: a, r, by
            conv_lhs => rw [← List.takeWhile_append_dropWhile
              (p := fun x => ¬ isNewlineCh x) (l := c :: rest)]
            rw [hd, e]; simp⟩
    else if isWhitespaceCh c then
      match skipAtmosphere rest with
      | none => none
      | some ⟨a, r, e⟩ => some ⟨c :: a, r, by rw [List.cons_append, ← e]⟩
    else some ⟨[], c :: rest, rfl⟩
termination_by ts => ts.length
decreasing_by
  · have hle := (List.dropWhile_sublist (l := c :: rest)
      (p := fun x => ¬ isNewlineCh x)).length_le
    rw [hd] at hle; simp at hle ⊢; omega
  · simp

/-- The maximal run of non-delimiters: the scan loops of `scanNumber`,
`scanNchar` and `scanIdentifier` consume characters while the lookahead
is neither a delimiter nor `scanner.EOF`. -/
def scanBody (rest : List Char) : List Char :=
  rest.takeWhile fun c => ¬ isDelimiterCh c

def scanRest (rest : List Char) : List Char :=
  rest.dropWhile fun c => ¬ isDelimiterCh c

/-- `scanNumber`: accumulate the dispatching rune and the non-delimiter
run, then validate with the numeric analyzer. -/
def scanNumber (pfx : Char) (rest : List Char) : Except LexErr (Token × List Char) :=
  let lit := String.mk (pfx :: scanBody rest)
  if IsNumber lit then .ok (⟨.NUMBER, lit⟩, scanRest rest)
  else .error .INVALID_NUMBER

/-- `scanNchar`: the accumulated name must be `space` or `newline`. -/
def scanNchar (pfx : Char) (rest : List Char) : Except LexErr (Token × List Char) :=
  let name := pfx :: scanBody rest
  if name = ("space").data ∨ name = ("newline").data then
    .ok (⟨.CHAR, String.mk ('#' :: '\\' :: name)⟩, scanRest rest)
  else .error .UNKNOWN_NCHAR

def isIdentifierInitial (c : Char) : Bool :=
  ('a' ≤ c && c ≤ 'z') || ('A' ≤ c && c ≤ 'Z') ||
  c = '!' || c = '$' || c = '%' || c = '&' || c = '*' || c = '/' || c = ':' ||
  c = '<' || c = '=' || c = '>' || c = '?' || c = '^' || c = '_' || c = '~'

def isIdentifierSubsequent (c : Char) : Bool :=
  isIdentifierInitial c || ('0' ≤ c && c ≤ '9') ||
  c = '+' || c = '-' || c = '.' || c = '@'

/-- `scanIdentifier`: the initial rune must be an identifier initial and
every further rune up to the next delimiter an identifier subsequent. -/
def scanIdentifier (initial : Char) (rest : List Char) : Except LexErr (Token × List Char) :=
  if ¬ isIdentifierInitial initial then .error .INVALID_IDENT
  else if (scanBody rest).all isIdentifierSubsequent then
    .ok (⟨.IDENT, String.mk (initial :: scanBody rest)⟩, scanRest rest)
  else .error .INVALID_IDENT

/-- The `scanString` loop: collect runes until an unescaped `"`; the
previous rune travels along to recognise `\"`.  `none` models
`UNEXPECTED_EOF`. -/
def scanStringLoop (prev : Char) : (l : List Char) → Option (List Char × List Char)
  | [] => none
  | c :: rest =>
    if prev ≠ '\\' ∧ c = '"' then some ([], rest)
    else
      match scanStringLoop c rest with
      | none => none
      | some (b, r) => some (c :: b, r)

def scanString (rest : List Char) : Except LexErr (Token × List Char) :=
  match scanStringLoop '"' rest with
  | none => .error .UNEXPECTED_EOF
  | some (b, r) => .ok (⟨.STRING, String.mk b⟩, r)

/-- One lexing step: a token together with the atmosphere consumed
before it, end of input (the `EOF` sentinel), a lexical error, or
divergence of the atmosphere loop. -/
inductive LexStep where
  | tok (atm : List Char) (t : Token) (rest : List Char)
  | eof (atm : List Char)
  | err (e : LexErr)
  | hang
deriving Repr, DecidableEq

/-- The dispatch on the first significant rune (the Go switch; `Peek`
is `head?`, `Next` pops a char, and the EOF rune corresponds to the
empty list). -/
def dispatchRune (atm : List Char) : List Char → LexStep
  | [] => .eof atm
  | r :: rs =>
    if r = '(' then .tok atm ⟨.LPAREN, ("(")⟩ rs
    else if r = ')' then .tok atm ⟨.RPAREN, (")")⟩ rs
    else if r = '\'' then .tok atm ⟨.SQUOTE, ("'")⟩ rs
    else if r = '`' then .tok atm ⟨.BQUOTE, ("`")⟩ rs
    else if r = ',' then
      if rs.head? = some '@' then .tok atm ⟨.COMMAT, (",@")⟩ rs.tail
      else .tok atm ⟨.COMMA, (",")⟩ rs
    else if r = '.' then
      if isDelimiterOpt rs.head? then .tok atm ⟨.DOT, (".")⟩ rs
      else if rs.head?.elim false isDigit10 then
        match scanNumber '.' rs with
        | .error e => .err e
        | .ok (t, r2) => .tok atm t r2
      else if rs.head? = some '.' ∧ rs.tail.head? = some '.' then
        -- `l.Scanner.Next() == '.' && l.Scanner.Next() == '.'`
        .tok atm ⟨.IDENT, ("...")⟩ rs.tail.tail
      else .err .INVALID_DOT
    else if r = '"' then
      match scanString rs with
      | .error e => .err e
      | .ok (t, r2) => .tok atm t r2
    else if r = '#' then
      if rs.head? = some '(' then .tok atm ⟨.HPAREN, ("#(")⟩ rs.tail
      else if rs.head? = some 't' then .tok atm ⟨.BOOL, ("#t")⟩ rs.tail
      else if rs.head? = some 'f' then .tok atm ⟨.BOOL, ("#f")⟩ rs.tail
      else if rs.head? = some '\\' then
        -- `l.Scanner.Next()` skips the backslash, the next `Next()` is
        -- the character itself; at end of input it yields the EOF rune,
        -- whose accumulated name cannot be `space`/`newline`.
        match rs.tail with
        | [] => .err .UNKNOWN_NCHAR
        | ch :: rs3 =>
          if isDelimiterOpt rs3.head? then
            .tok atm ⟨.CHAR, String.mk ['#', '\\', ch]⟩ rs3
          else
            match scanNchar ch rs3 with
            | .error e => .err e
            | .ok (t, r2) => .tok atm t r2
      else if rs.head?.elim false (fun c =>
          c = 'i' || c = 'e' || c = 'b' || c = 'o' || c = 'd' || c = 'x') then
        match scanNumber '#' rs with
        | .error e => .err e
        | .ok (t, r2) => .tok atm t r2
      else .err .INVALID_HASH
    else if r = '+' ∨ r = '-' then
      if isDelimiterOpt rs.head? then .tok atm ⟨.IDENT, String.mk [r]⟩ rs
      else
        match scanNumber r rs with
        | .error e => .err e
        | .ok (t, r2) => .tok atm t r2
    else if isDigit10 r then
      -- the `'0'` … `'9'` cases of the switch
      match scanNumber r rs with
      | .error e => .err e
      | .ok (t, r2) => .tok atm t r2
    else
      match scanIdentifier r rs with
      | .error e => .err e
      | .ok (t, r2) => .tok atm t r2

/-- `NextToken`: skip atmosphere, then dispatch. -/
def NextTokenR (ts : List Char) : LexStep :=
  match skipAtmosphere ts with
  | none => .hang
  | some a => dispatchRune a.atm a.rest

/-- Exhaust the token stream as the lexer tests do, with explicit fuel
(any fuel above the input length is enough, since every emitted token
consumes at least one character): collect (atmosphere, token) pairs
until the `EOF` sentinel; a lexical error aborts, a comment hang (or
exhausted fuel) diverges (`none`). -/
def lexRunF : Nat → List Char → Option (Except LexErr (List (List Char × Token) × List Char))
  | 0, _ => none
  | fuel + 1, ts =>
    match NextTokenR ts with
    | .hang => none
    | .err e => some (.error e)
    | .eof atm => some (.ok ([], atm))
    | .tok atm t rest =>
      match lexRunF fuel rest with
      | none => none
      | some (.error e) => some (.error e)
      | some (.ok (items, trailing)) => some (.ok ((atm, t) :: items, trailing))

def lexRun (ts : List Char) :
    Option (Except LexErr (List (List Char × Token) × List Char)) :=
  lexRunF (ts.length + 1) ts

/-- The characters an emitted token stands for in the source: its
literal, except that a `STRING` literal excludes its delimiting
quotes. -/
def tokenSource (t : Token) : List Char :=
  if t.type = .STRING then '"' :: t.literal.data ++ ['"'] else t.literal.data

/-- Concatenation of atmosphere and token literals as written in the
claim (token literals only). -/
def reconLiteral (items : List (List Char × Token)) (trailing : List Char) : List Char :=
  (items.map fun it => it.1 ++ it.2.literal.data).flatten ++ trailing

/-- Concatenation of atmosphere and token source texts (string literals
re-quoted). -/
def reconSource (items : List (List Char × Token)) (trailing : List Char) : List Char :=
  (items.map fun it => it.1 ++ tokenSource it.2).flatten ++ trailing

/-- Projection of a lexing step to its token output. -/
def nextTok (ts : List Char) : Option (List Char × Token × List Char) :=
  match NextTokenR ts with
  | .tok a t r => some (a, t, r)
  | _ => none

/-- Projection of a lexing step to its error output. -/
def nextErr (ts : List Char) : Option LexErr :=
  match NextTokenR ts with
  | .err e => some e
  | _ => none

end Scheme

namespace Scheme

instance {e a : Type} [DecidableEq e] [DecidableEq a] : DecidableEq (Except e a) :=
  fun x y =>
  match x, y with
  | .error u, .error v =>
    if h : u = v then isTrue (by rw [h]) else isFalse (by intro hh; cases hh; exact h rfl)
  | .ok u, .ok v =>
    if h : u = v then isTrue (by rw [h]) else isFalse (by intro hh; cases hh; exact h rfl)
  | .error _, .ok _ => isFalse (by intro hh; cases hh)
  | .ok _, .error _ => isFalse (by intro hh; cases hh)

end Scheme

namespace Scheme

/-- Declarative matching relation for the regex patterns: `Deriv p l`
holds when `p` can match exactly the characters `l`.  This is the
specification-level reading of "the literal matches the grammar",
against which the backtracking matcher is proved sound and complete. -/
inductive Deriv : Pat → List Char → Prop where
  | cls {p : Char → Bool} {c : Char} : p c = true → Deriv (.cls p) [c]
  | seq {a b : Pat} {l1 l2 : List Char} :
      Deriv a l1 → Deriv b l2 → Deriv (.seq a b) (l1 ++ l2)
  | altL {a b : Pat} {l : List Char} : Deriv a l → Deriv (.alt a b) l
  | altR {a b : Pat} {l : List Char} : Deriv b l → Deriv (.alt a b) l
  | optS {a : Pat} {l : List Char} : Deriv a l → Deriv (.opt a) l
  | optN {a : Pat} : Deriv (.opt a) []
  | star {p : Char → Bool} {l : List Char} :
      (∀ c ∈ l, p c = true) → Deriv (.starCls p) l
  | group {n : String} {a : Pat} {l : List Char} : Deriv a l → Deriv (.group n a) l

end Scheme

namespace Scheme

/-- Observable part of the `parseList` loop result. -/
def llOut (ts : List Token) (live anyIter : Bool) (cars : List (Option Sexpr))
    (tailv : Option (Option Sexpr)) :
    Option (List (Option Sexpr) × Option (Option Sexpr) × List Token) :=
  (listLoop ts live anyIter cars tailv).map fun q => (q.cars, q.tailv, q.rest)

/-- A sequence of datums parsed from successive suffixes of the token
vector: `SeqD ts ds rest` holds when repeatedly running `ParseNextNode`
from `ts` produces the (non-nil) S-expressions `ds` and stops at
`rest`. -/
inductive SeqD : List Token → List Sexpr → List Token → Prop where
  | nil (ts : List Token) : SeqD ts [] ts
  | cons {ts ts2 rest : List Token} {x : Sexpr} {xs : List Sexpr}
      (hstep : parseNN ts = some (some x, ts2))
      (hrest : SeqD ts2 xs rest) : SeqD ts (x :: xs) rest

/-- Length of a proper chain: the number of `Pair`s traversed along the
`cdr`s before the empty-pair marker; `none` for improper chains and
non-pairs. -/
def properLen : Sexpr → Option Nat
  | .cons none none => some 0
  | .cons _ (some rest) => (properLen rest).map (· + 1)
  | _ => none

end Scheme

namespace Scheme

/-! ## Captures of the matcher

To reason about the group values the analyzer extracts, derivations are
annotated with the captures they produce; `run` is sound for this
annotated relation, so the first full match carries a capture list
described by `DerivC`. -/

/-- Derivations of the grammar annotated with the captures produced. -/
inductive DerivC : Pat → List Char → Caps → Prop where
  | cls {p : Char → Bool} {c : Char} : p c = true → DerivC (.cls p) [c] []
  | seq {a b : Pat} {l1 l2 : List Char} {c1 c2 : Caps} :
      DerivC a l1 c1 → DerivC b l2 c2 → DerivC (.seq a b) (l1 ++ l2) (c1 ++ c2)
  | altL {a b : Pat} {l : List Char} {c : Caps} : DerivC a l c → DerivC (.alt a b) l c
  | altR {a b : Pat} {l : List Char} {c : Caps} : DerivC b l c → DerivC (.alt a b) l c
  | optS {a : Pat} {l : List Char} {c : Caps} : DerivC a l c → DerivC (.opt a) l c
  | optN {a : Pat} : DerivC (.opt a) [] []
  | star {p : Char → Bool} {l : List Char} :
      (∀ c ∈ l, p c = true) → DerivC (.starCls p) l []
  | group {n : String} {a : Pat} {l : List Char} {c : Caps} :
      DerivC a l c → DerivC (.group n a) l ((n, String.mk l) :: c)

/-- `lookupVal` generalised over the fold accumulator. -/
def lvAux (a : String) (caps : Caps) (n : String) : String :=
  caps.foldl (fun acc kv => if kv.1 = n && kv.2 ≠ ("") then kv.2 else acc) a

/-- The group names occurring in a pattern. -/
def patNames : Pat → List String
  | .cls _ => []
  | .seq a b => patNames a ++ patNames b
  | .alt a b => patNames a ++ patNames b
  | .opt a => patNames a
  | .starCls _ => []
  | .group n a => n :: patNames a

/-- Minimum length of a derivable string. -/
def minLen : Pat → Nat
  | .cls _ => 1
  | .seq a b => minLen a + minLen b
  | .alt a b => min (minLen a) (minLen b)
  | .opt _ => 0
  | .starCls _ => 0
  | .group _ a => minLen a

/-- Characters that can occur in a derivable string (syntactic
over-approximation of the pattern's alphabet). -/
def patChars : Pat → Char → Bool
  | .cls p, c => p c
  | .seq a b, c => patChars a c || patChars b c
  | .alt a b, c => patChars a c || patChars b c
  | .opt a, c => patChars a c
  | .starCls p, c => p c
  | .group _ a, c => patChars a c

/-- The analyzer state right after `parsePrefix`, as `Parse` computes it
on a fresh `NewFromLiteral` receiver. -/
def prefixState (s : String) : NSt :=
  parsePrefixPart { radix := 0, inexact := false } (groupVal numberAll s ("prefix"))

/-- The `complex` group of a literal. -/
def complexLit (s : String) : String := groupVal numberAll s ("complex")

/-- The angle value a polar literal's `parseComplex` feeds to `math.Sin`,
recomputed by the same calls `parseComplex` makes. -/
def polarAngleVal (s : String) : Option ℚ :=
  let p := complexPatOf (prefixState s).radix
  match goParseReal (prefixState s) (groupVal p (complexLit s) ("complexReal")) with
  | .error _ => none
  | .ok (_, st1) =>
    match goParseReal st1 (groupVal p (complexLit s) ("complexImag")) with
    | .error _ => none
    | .ok (ang, _) => some ang

end Scheme

namespace Scheme

/-! ## Theorems -/

/-- Helper: `ParseNextNode` on a leading `RPAREN` token produces a nil
S-expression and consumes one token. -/
theorem parseNextNode_rparen (lit : String) (rest : List Token) :
    parseNextNode (⟨.RPAREN, lit⟩ :: rest) = some ⟨none, rest, by simp⟩ := by
  simp [parseNextNode]

/-- Helper: same for a leading `DOT` token. -/
theorem parseNextNode_dot (lit : String) (rest : List Token) :
    parseNextNode (⟨.DOT, lit⟩ :: rest) = some ⟨none, rest, by simp⟩ := by
  simp [parseNextNode]

/-- C1: the spec (and the repository's own parser tests) require that
parsing `LPAREN IDENT(a) DOT IDENT(b) RPAREN` consume exactly those five
tokens and yield `Pair(Atom(SYMBOL,a), Atom(SYMBOL,b))`.  The `DOT`
branch of `parseList` does not break out of the loop after verifying the
closing `RPAREN`: the fall-through iteration consumes the `RPAREN` as a
datum and the loop then reads `Tokens[5]`, one past the end of the
vector — a runtime panic (modelled by `none`). -/
theorem claim1_dotted_list_parse_panics :
    parseNN [⟨.LPAREN, ("(")⟩, ⟨.IDENT, ("a")⟩, ⟨.DOT, (".")⟩,
      ⟨.IDENT, ("b")⟩, ⟨.RPAREN, (")")⟩] = none := by
  simp [parseNN, parseNextNode, listLoop]

/-- C10: `ParseNextNode` reports no error for any token type; a
top-level `RPAREN` or `DOT` token is consumed silently (the type switch
has no case for it), advances the cursor by one and contributes a nil
S-expression to the sequence returned by `Parse`. -/
theorem claim10_rparen_dot_silently_nil (t : Token) (rest : List Token)
    (h : t.type = .RPAREN ∨ t.type = .DOT) :
    parseNN (t :: rest) = some (none, rest) ∧
      parseProgram (t :: rest) = (parseProgram rest).map (none :: ·) := by
  obtain ⟨ty, lit⟩ := t
  rcases h with h | h <;> simp only at h <;> subst h
  · constructor
    · simp [parseNN, parseNextNode_rparen]
    · rw [parseProgram, parseNextNode_rparen]
      cases h1 : parseProgram rest <;> simp [h1]
  · constructor
    · simp [parseNN, parseNextNode_dot]
    · rw [parseProgram, parseNextNode_dot]
      cases h1 : parseProgram rest <;> simp [h1]

/-- Witness for C10 at the concrete one-token input `DOT`. -/
theorem claim10_witness :
    parseNN [⟨.DOT, (".")⟩] = some (none, []) ∧
      parseProgram [⟨.DOT, (".")⟩] = (parseProgram []).map (none :: ·) :=
  claim10_rparen_dot_silently_nil ⟨.DOT, (".")⟩ [] (Or.inr rfl)

end Scheme

namespace Scheme

set_option maxRecDepth 100000
set_option maxHeartbeats 2000000

/-- C9: when the literal does not match the number grammar,
`FindStringSubmatch` returns nil, every group value is empty, and the
whole pipeline runs through the empty-literal fast paths: `Parse`
returns normally with value `0+0i`, `inexact = false` and radix 10. -/
theorem claim9_invalid_literal_parses_to_zero (s : String) (h : IsNumber s = false) :
    ParseLiteral s = .ok ⟨s, 0, 0, false, false, 10⟩ := by
  have hfc : fullCaps numberAll s.data = none := by
    unfold IsNumber matchesB at h
    cases hx : fullCaps numberAll s.data
    · rfl
    · rw [hx] at h; simp at h
  have hg : ∀ n, groupVal numberAll s n = ("") := by
    intro n; simp [groupVal, hfc, lookupVal]
  unfold ParseLiteral Parse NewFromLiteral
  rw [hg ("prefix"), hg ("complex")]
  simp only [IsNumber, matchesB, hfc, Option.isSome_none]
  have h1 : parsePrefixPart { radix := 0, inexact := false } ("") =
      { radix := 10, inexact := false } := by
    simp [parsePrefixPart]
  rw [h1]
  have h2 : goParseComplex { radix := 10, inexact := false } ("") =
      .ok (0, 0, { radix := 10, inexact := false }) := by
    have hcr : fullCaps (complexPatOf 10) [] = none := by rfl
    simp [goParseComplex, goParseReal, groupVal, hcr, lookupVal]
  rw [h2]

/-- Witness for C9 at the non-number literal `abc`. -/
theorem claim9_witness :
    IsNumber ("abc") = false ∧
      ParseLiteral ("abc") = .ok ⟨("abc"), 0, 0, false, false, 10⟩ :=
  ⟨by rfl, claim9_invalid_literal_parses_to_zero ("abc") (by rfl)⟩

/-- C2, counterexample: `1e999` matches the number grammar (so
`IsNumber` is true), yet `Parse` panics: the decimal handler's
`strconv.ParseFloat` reports a range error on it, so the fatal branch is
reachable under the claimed precondition. -/
theorem claim2_counterexample :
    IsNumber ("1e999") = true ∧ ParseLiteral ("1e999") = .error .floatRange := by
  constructor
  · rfl
  · with_unfolding_all rfl

/-- C6, counterexample: on the input consisting solely of `+` the next
rune is `scanner.EOF`, which `isDelimiter` does not accept, so the lexer
scans a number and fails with `INVALID_NUMBER` instead of emitting
`IDENT("+")`. -/
theorem claim6_counterexample :
    nextErr ['+'] = some .INVALID_NUMBER := by
  with_unfolding_all rfl

/-- C6 as amended: when the rune after `+`/`-` is one of the actual
delimiters (space, newline, `(`, `)`, `;`, `"`) the lexer emits the sign
as an `IDENT` token; end-of-input is not in this delimiter set. -/
theorem claim6_sign_then_delimiter_is_ident (r c : Char) (rest : List Char)
    (hr : r = '+' ∨ r = '-') (hc : isDelimiterCh c = true) :
    nextTok (r :: c :: rest) = some ([], ⟨.IDENT, String.mk [r]⟩, c :: rest) := by
  have hskip : skipAtmosphere (r :: c :: rest) = some ⟨[], r :: c :: rest, rfl⟩ := by
    rcases hr with h | h <;> subst h <;>
      simp [skipAtmosphere, isCommentCh, isWhitespaceCh, isNewlineCh]
  rcases hr with h | h <;> subst h <;>
    simp [nextTok, NextTokenR, hskip, dispatchRune, isDelimiterOpt, hc]

/-- Witness for the amended C6 at the input `+ ` (sign then space). -/
theorem claim6_witness :
    isDelimiterCh ' ' = true ∧
      nextTok ['+', ' '] = some ([], ⟨.IDENT, String.mk ['+']⟩, [' ']) :=
  ⟨by decide, claim6_sign_then_delimiter_is_ident '+' ' ' [] (Or.inl rfl) (by decide)⟩

end Scheme

namespace Scheme

/-- Every character of `l.take j` satisfies `p` when `j` does not exceed
the maximal run. -/
theorem maxRun_take_sat (p : Char → Bool) :
    ∀ (l : List Char) (j : Nat), j ≤ maxRun p l → ∀ c ∈ l.take j, p c = true := by
  intro l
  induction l with
  | nil => intro j _ c hc; simp at hc
  | cons a rest ih =>
    intro j hj c hc
    by_cases hp : p a
    · rw [maxRun, if_pos hp] at hj
      cases j with
      | zero => simp at hc
      | succ j' =>
        rw [List.take_succ_cons] at hc
        cases hc with
        | head => exact hp
        | tail _ hc => exact ih j' (by omega) c hc
    · rw [maxRun, if_neg hp] at hj
      have : j = 0 := by omega
      subst this; simp at hc

/-- If a prefix consists of `p`-characters, the maximal run is at least
that long. -/
theorem maxRun_ge_prefix (p : Char → Bool) :
    ∀ (pre rem : List Char), (∀ c ∈ pre, p c = true) →
      pre.length ≤ maxRun p (pre ++ rem) := by
  intro pre
  induction pre with
  | nil => intro rem _; simp
  | cons a rest ih =>
    intro rem h
    have ha : p a = true := h a (by simp)
    rw [List.cons_append, maxRun, if_pos ha]
    simp only [List.length_cons]
    have := ih rem fun c hc => h c (by simp [hc])
    omega

/-- Soundness of the matcher: every entry of `run p input` consumes a
prefix that `p` derives. -/
theorem run_sound (p : Pat) :
    ∀ (input rem : List Char) (caps : Caps), (rem, caps) ∈ run p input →
      ∃ pre, input = pre ++ rem ∧ Deriv p pre := by
  induction p with
  | cls q =>
    intro input rem caps hm
    match input with
    | [] => simp [run] at hm
    | c :: rest =>
      rw [run] at hm
      by_cases hq : q c
      · rw [if_pos hq] at hm
        simp at hm
        exact ⟨[c], by simp [hm.1], Deriv.cls hq⟩
      · rw [if_neg hq] at hm; simp at hm
  | seq a b iha ihb =>
    intro input rem caps hm
    rw [run] at hm
    simp only [List.mem_flatMap, List.mem_map] at hm
    obtain ⟨r1, hr1, r2, hr2, heq⟩ := hm
    obtain ⟨pre1, he1, hd1⟩ := iha input r1.1 r1.2 hr1
    obtain ⟨pre2, he2, hd2⟩ := ihb r1.1 r2.1 r2.2 hr2
    cases heq
    refine ⟨pre1 ++ pre2, ?_, Deriv.seq hd1 hd2⟩
    rw [he1, he2, List.append_assoc]
  | alt a b iha ihb =>
    intro input rem caps hm
    rw [run] at hm
    rcases List.mem_append.mp hm with h | h
    · obtain ⟨pre, he, hd⟩ := iha input rem caps h
      exact ⟨pre, he, Deriv.altL hd⟩
    · obtain ⟨pre, he, hd⟩ := ihb input rem caps h
      exact ⟨pre, he, Deriv.altR hd⟩
  | opt a iha =>
    intro input rem caps hm
    rw [run] at hm
    rcases List.mem_append.mp hm with h | h
    · obtain ⟨pre, he, hd⟩ := iha input rem caps h
      exact ⟨pre, he, Deriv.optS hd⟩
    · simp at h
      exact ⟨[], by simp [h.1], Deriv.optN⟩
  | starCls q =>
    intro input rem caps hm
    rw [run] at hm
    simp only [List.mem_map, List.mem_range] at hm
    obtain ⟨i, hi, heq⟩ := hm
    cases heq
    refine ⟨input.take (maxRun q input - i),
      (List.take_append_drop _ _).symm, Deriv.star ?_⟩
    exact maxRun_take_sat q input (maxRun q input - i) (by omega)
  | group n a iha =>
    intro input rem caps hm
    rw [run] at hm
    simp only [List.mem_map] at hm
    obtain ⟨r, hr, heq⟩ := hm
    cases heq
    obtain ⟨pre, he, hd⟩ := iha input r.1 r.2 hr
    exact ⟨pre, he, Deriv.group hd⟩

/-- Completeness of the matcher: every derivation is found by the
backtracking search, whatever suffix follows. -/
theorem run_complete {p : Pat} {pre : List Char} (hd : Deriv p pre) :
    ∀ rem, ∃ caps, (rem, caps) ∈ run p (pre ++ rem) := by
  induction hd with
  | cls hq =>
    intro rem
    refine ⟨[], ?_⟩
    simp [run, hq]
  | seq hd1 hd2 ih1 ih2 =>
    rename_i a b l1 l2
    intro rem
    obtain ⟨caps2, hm2⟩ := ih2 rem
    obtain ⟨caps1, hm1⟩ := ih1 (l2 ++ rem)
    refine ⟨caps1 ++ caps2, ?_⟩
    rw [run, List.append_assoc]
    simp only [List.mem_flatMap, List.mem_map]
    exact ⟨(l2 ++ rem, caps1), hm1, (rem, caps2), hm2, rfl⟩
  | altL hd ih =>
    intro rem
    obtain ⟨caps, hm⟩ := ih rem
    exact ⟨caps, by rw [run]; exact List.mem_append_left _ hm⟩
  | altR hd ih =>
    intro rem
    obtain ⟨caps, hm⟩ := ih rem
    exact ⟨caps, by rw [run]; exact List.mem_append_right _ hm⟩
  | optS hd ih =>
    intro rem
    obtain ⟨caps, hm⟩ := ih rem
    exact ⟨caps, by rw [run]; exact List.mem_append_left _ hm⟩
  | optN =>
    intro rem
    exact ⟨[], by rw [run]; simp⟩
  | star hsat =>
    rename_i q l
    intro rem
    refine ⟨[], ?_⟩
    rw [run]
    simp only [List.mem_map, List.mem_range]
    have hk := maxRun_ge_prefix q l rem hsat
    refine ⟨maxRun q (l ++ rem) - l.length, by omega, ?_⟩
    have : maxRun q (l ++ rem) - (maxRun q (l ++ rem) - l.length) = l.length := by omega
    rw [this, List.drop_left]
  | group hd ih =>
    intro rem
    obtain ⟨caps, hm⟩ := ih rem
    rw [run]
    refine ⟨_, List.mem_map.mpr ⟨(rem, caps), hm, rfl⟩⟩

/-- The matcher accepts exactly the derivable strings. -/
theorem matchesB_iff_deriv (p : Pat) (s : List Char) :
    matchesB p s = true ↔ Deriv p s := by
  constructor
  · intro h
    unfold matchesB fullCaps at h
    cases hf : List.find? (fun r => decide (r.1 = [])) (run p s) with
    | none => rw [hf] at h; simp at h
    | some r =>
      have hpred := List.find?_some hf
      have hmem := List.mem_of_find?_eq_some hf
      obtain ⟨rem, caps⟩ := r
      simp at hpred
      subst hpred
      obtain ⟨pre, he, hd⟩ := run_sound p s [] caps hmem
      simpa [he] using hd
  · intro hd
    obtain ⟨caps, hm⟩ := run_complete hd []
    rw [List.append_nil] at hm
    unfold matchesB fullCaps
    have h1 : (List.find? (fun r => decide (r.1 = [])) (run p s)).isSome :=
      List.find?_isSome.mpr ⟨([], caps), hm, by simp⟩
    obtain ⟨r, hr⟩ := Option.isSome_iff_exists.mp h1
    simp [hr]

/-- Inversion for alternation. -/
theorem deriv_alt_iff {a b : Pat} {l : List Char} :
    Deriv (.alt a b) l ↔ Deriv a l ∨ Deriv b l := by
  constructor
  · intro h; cases h with
    | altL h => exact Or.inl h
    | altR h => exact Or.inr h
  · intro h; rcases h with h | h
    · exact Deriv.altL h
    · exact Deriv.altR h

/-- C4: `IsNumber` (the `validate` of the analyzer) accepts a literal
iff it matches the `<number>` grammar at one of the radices 2, 8, 10,
16; and the lexer's number scan rejects `#b2` with `INVALID_NUMBER`. -/
theorem claim4_validate_iff_grammar :
    (∀ s : String, IsNumber s = true ↔
      (Deriv (numberPat 2) s.data ∨ Deriv (numberPat 8) s.data ∨
       Deriv (numberPat 10) s.data ∨ Deriv (numberPat 16) s.data)) ∧
    nextErr (("#b2")).data = some .INVALID_NUMBER := by
  constructor
  · intro s
    rw [IsNumber, matchesB_iff_deriv]
    unfold numberAll
    rw [deriv_alt_iff, deriv_alt_iff, deriv_alt_iff]
  · with_unfolding_all rfl

end Scheme

namespace Scheme

/-- Helper: parsing an empty token suffix panics (index out of range). -/
theorem parseNN_nil : parseNN ([] : List Token) = none := by
  simp [parseNN, parseNextNode]

/-- Helper: a parse producing an actual S-expression starts at a token
that is neither `RPAREN` nor `DOT` (those produce a nil interface). -/
theorem parseNN_some_head (ts : List Token) (x : Sexpr) (ts2 : List Token)
    (h : parseNN ts = some (some x, ts2)) :
    ∃ t tl, ts = t :: tl ∧ t.type ≠ .RPAREN ∧ t.type ≠ .DOT := by
  match ts with
  | [] => rw [parseNN_nil] at h; cases h
  | t :: tl =>
    refine ⟨t, tl, rfl, ?_, ?_⟩
    · intro hty
      obtain ⟨ty, lit⟩ := t
      simp only at hty
      subst hty
      rw [parseNN] at h
      rw [parseNextNode_rparen] at h
      simp at h
    · intro hty
      obtain ⟨ty, lit⟩ := t
      simp only at hty
      subst hty
      rw [parseNN] at h
      rw [parseNextNode_dot] at h
      simp at h

/-- Helper: the `parseList` loop threads a sequence of datums into the
live chain and stops at the closing `RPAREN`. -/
theorem listLoop_of_seqD {ts1 : List Token} {ds : List Sexpr} {rest : List Token}
    (htrace : SeqD ts1 ds rest) :
    ∀ (rlit : String) (A : List Token), rest = ⟨.RPAREN, rlit⟩ :: A →
      ∀ (anyIter : Bool) (cars : List (Option Sexpr)),
        llOut ts1 true anyIter cars none = some (cars ++ ds.map some, none, A) := by
  induction htrace with
  | nil ts =>
    intro rlit A hrest anyIter cars
    subst hrest
    simp [llOut, listLoop]
  | cons hstep hrest ih =>
    rename_i ts ts2 rest x xs
    intro rlit A hA anyIter cars
    obtain ⟨t, tl, hts, hnr, hnd⟩ := parseNN_some_head _ _ _ hstep
    subst hts
    simp only [parseNN, Option.map_eq_some'] at hstep
    obtain ⟨r, hr, hval⟩ := hstep
    obtain ⟨rv, rr, rc⟩ := r
    simp only at hval
    obtain ⟨hv1, hv2⟩ := Prod.mk.injEq _ _ _ _ ▸ hval
    subst hv1 hv2
    have ihx := ih rlit A hA true (cars ++ [some x])
    simp only [llOut, Option.map_eq_some'] at ihx
    obtain ⟨q, hq, hqval⟩ := ihx
    rw [llOut, listLoop]
    rw [if_neg (by simpa using hnr), if_neg (by simpa using hnd), hr]
    simp only [if_true, hq, Option.map_some]
    simp at hqval ⊢
    refine ⟨hqval.1.trans (by simp), hqval.2.1, hqval.2.2⟩

end Scheme

namespace Scheme

/-- Helper: a freshly built proper chain has the expected length. -/
theorem properLen_buildChain :
    ∀ l : List (Option Sexpr), properLen (buildChain l) = some l.length := by
  intro l
  induction l with
  | nil => rfl
  | cons c rest ih =>
    rw [buildChain, properLen]
    · rw [ih]; rfl

/-- C7: parsing `( d1 … dn )` (no `DOT`) produces a Pair chain whose
`Car`s are the n datums in order and whose last `cdr` is the empty-Pair
marker; for n = 0 the result is the empty Pair itself (`buildChain []`).
`properLen` returning `some n` states both the length and the proper
termination of the chain. -/
theorem claim7_proper_list (llit rlit : String) (ts1 A : List Token) (ds : List Sexpr)
    (htrace : SeqD ts1 ds (⟨.RPAREN, rlit⟩ :: A)) :
    parseNN (⟨.LPAREN, llit⟩ :: ts1) = some (some (buildChain (ds.map some)), A) ∧
      properLen (buildChain (ds.map some)) = some ds.length := by
  have hll := listLoop_of_seqD htrace rlit A rfl false []
  simp only [llOut, Option.map_eq_some'] at hll
  obtain ⟨q, hq, hqval⟩ := hll
  constructor
  · rw [parseNN, parseNextNode]
    rw [hq]
    simp at hqval ⊢
    simp [hqval.1, hqval.2.1, hqval.2.2, assembleList]
  · rw [properLen_buildChain]
    simp

/-- Witness for C7 on the token vector `( a b )`. -/
theorem claim7_witness :
    parseNN [⟨.LPAREN, ("(")⟩, ⟨.IDENT, ("a")⟩, ⟨.IDENT, ("b")⟩, ⟨.RPAREN, (")")⟩] =
        some (some (buildChain ([Sexpr.atomSym ("a"), Sexpr.atomSym ("b")].map some)), []) ∧
      properLen (buildChain ([Sexpr.atomSym ("a"), Sexpr.atomSym ("b")].map some)) = some 2 := by
  have h := claim7_proper_list ("(") (")") [⟨.IDENT, ("a")⟩, ⟨.IDENT, ("b")⟩, ⟨.RPAREN, (")")⟩]
    [] [Sexpr.atomSym ("a"), Sexpr.atomSym ("b")]
    (SeqD.cons (by with_unfolding_all rfl)
      (SeqD.cons (by with_unfolding_all rfl) (SeqD.nil _)))
  exact h

end Scheme

namespace Scheme

/-- C5: an abbreviation token followed by a datum parses to
`Pair(Atom(SYMBOL, S), Pair(X, EmptyPair))`, and this is structurally
equal (via `Equals`) to the result of parsing the explicit list
`( S X )`.  The datum is characterised by its parses in the two
positions, and `Equals x x = some true` excludes `NUMBER` atoms with an
invalid literal, on which the Go `Equals` is not reflexive. -/
theorem claim5_abbrev_equals_explicit
    (sty : TokenType) (slit S : String)
    (hs : (sty = .SQUOTE ∧ slit = ("'") ∧ S = ("quote")) ∨
          (sty = .BQUOTE ∧ slit = ("`") ∧ S = ("quasiquote")) ∨
          (sty = .COMMA ∧ slit = (",") ∧ S = ("unquote")) ∨
          (sty = .COMMAT ∧ slit = (",@") ∧ S = ("unquote-splicing")))
    (X A : List Token) (x : Sexpr) (llit rlit : String)
    (habbrev : parseNN (X ++ A) = some (some x, A))
    (hlist : parseNN (X ++ ⟨.RPAREN, rlit⟩ :: A) = some (some x, ⟨.RPAREN, rlit⟩ :: A))
    (hself : Equals x x = some true) :
    parseNN (⟨sty, slit⟩ :: X ++ A) =
      some (some (.cons (some (.atomSym S))
        (some (.cons (some x) (some (.cons none none))))), A) ∧
    ∃ e2, parseNN (⟨.LPAREN, llit⟩ :: ⟨.IDENT, S⟩ :: X ++ ⟨.RPAREN, rlit⟩ :: A) =
        some (some e2, A) ∧
      Equals (.cons (some (.atomSym S))
        (some (.cons (some x) (some (.cons none none))))) e2 = some true := by
  simp only [parseNN, Option.map_eq_some'] at habbrev
  obtain ⟨r, hr, hval⟩ := habbrev
  have hrv : r.val = some x := by
    have := congrArg Prod.fst hval; simpa using this
  have hrr : r.rest = A := by
    have := congrArg Prod.snd hval; simpa using this
  have habb : abbrevToIdent slit = S := by
    rcases hs with ⟨h1, h2, h3⟩ | ⟨h1, h2, h3⟩ | ⟨h1, h2, h3⟩ | ⟨h1, h2, h3⟩ <;>
      subst h2 <;> subst h3 <;> rfl
  constructor
  · rcases hs with ⟨h1, h2, h3⟩ | ⟨h1, h2, h3⟩ | ⟨h1, h2, h3⟩ | ⟨h1, h2, h3⟩ <;>
      subst h1 <;>
      · rw [parseNN, parseNextNode.eq_def]
        simp [hr, hrv, hrr, habb]
  · have hstep1 : parseNN (⟨.IDENT, S⟩ :: (X ++ ⟨.RPAREN, rlit⟩ :: A)) =
        some (some (.atomSym S), X ++ ⟨.RPAREN, rlit⟩ :: A) := by
      simp [parseNN, parseNextNode]
    have htrace : SeqD (⟨.IDENT, S⟩ :: (X ++ ⟨.RPAREN, rlit⟩ :: A))
        [Sexpr.atomSym S, x] (⟨.RPAREN, rlit⟩ :: A) :=
      SeqD.cons hstep1 (SeqD.cons hlist (SeqD.nil _))
    have hll := listLoop_of_seqD htrace rlit A rfl false []
    simp only [llOut, Option.map_eq_some'] at hll
    obtain ⟨q, hq, hqval⟩ := hll
    refine ⟨buildChain [some (.atomSym S), some x], ?_, ?_⟩
    · rw [parseNN, parseNextNode.eq_def]
      simp [hq]
      simp at hqval
      simp [hqval.1, hqval.2.1, hqval.2.2, assembleList]
    · simp [buildChain, Equals, EqualsOpt, hself]

/-- Witness for C5 at `'x` versus `(quote x)`. -/
theorem claim5_witness :
    parseNN ([⟨.SQUOTE, ("'")⟩, ⟨.IDENT, ("x")⟩]) =
      some (some (.cons (some (.atomSym ("quote")))
        (some (.cons (some (.atomSym ("x"))) (some (.cons none none))))), []) ∧
    ∃ e2, parseNN ([⟨.LPAREN, ("(")⟩, ⟨.IDENT, ("quote")⟩, ⟨.IDENT, ("x")⟩,
        ⟨.RPAREN, (")")⟩]) = some (some e2, []) ∧
      Equals (.cons (some (.atomSym ("quote")))
        (some (.cons (some (.atomSym ("x"))) (some (.cons none none))))) e2 = some true := by
  have h := claim5_abbrev_equals_explicit .SQUOTE ("'") ("quote")
    (Or.inl ⟨rfl, rfl, rfl⟩) [⟨.IDENT, ("x")⟩] [] (.atomSym ("x")) ("(") (")")
    (by with_unfolding_all rfl) (by with_unfolding_all rfl) (by with_unfolding_all rfl)
  exact h

end Scheme


namespace Scheme

/-- The non-delimiter run and its remainder partition the input. -/
theorem scanParts (rs : List Char) : scanBody rs ++ scanRest rs = rs := by
  simp [scanBody, scanRest, List.takeWhile_append_dropWhile]

/-- A successful `Peek` pins down the head of the remaining input. -/
theorem headReconstruct {l : List Char} {c : Char} (h : l.head? = some c) :
    l = c :: l.tail := by
  cases l with
  | nil => cases h
  | cons a t => simp at h; simp [h]

/-- A successful `scanNumber` yields a `NUMBER` token made of the
dispatch rune and the non-delimiter run, leaving the remainder. -/
theorem scanNumber_ok {pfx : Char} {rs : List Char} {t : Token} {r2 : List Char}
    (h : scanNumber pfx rs = .ok (t, r2)) :
    t = ⟨.NUMBER, String.mk (pfx :: scanBody rs)⟩ ∧ r2 = scanRest rs := by
  unfold scanNumber at h
  dsimp only at h
  split at h
  · cases h; exact ⟨rfl, rfl⟩
  · cases h

/-- A successful `scanNchar` yields a `CHAR` token whose literal is the
full `#\...` spelling. -/
theorem scanNchar_ok {pfx : Char} {rs : List Char} {t : Token} {r2 : List Char}
    (h : scanNchar pfx rs = .ok (t, r2)) :
    t = ⟨.CHAR, String.mk ('#' :: '\\' :: pfx :: scanBody rs)⟩ ∧ r2 = scanRest rs := by
  unfold scanNchar at h
  dsimp only at h
  split at h
  · cases h; exact ⟨rfl, rfl⟩
  · cases h

/-- A successful `scanIdentifier` yields an `IDENT` token made of the
initial rune and the non-delimiter run. -/
theorem scanIdentifier_ok {init : Char} {rs : List Char} {t : Token} {r2 : List Char}
    (h : scanIdentifier init rs = .ok (t, r2)) :
    t = ⟨.IDENT, String.mk (init :: scanBody rs)⟩ ∧ r2 = scanRest rs := by
  unfold scanIdentifier at h
  split at h
  · cases h
  · split at h
    · cases h; exact ⟨rfl, rfl⟩
    · cases h

/-- The string scan consumes exactly the literal body plus the closing
quote. -/
theorem scanStringLoop_split :
    ∀ (l : List Char) (prev : Char) (b r : List Char),
      scanStringLoop prev l = some (b, r) → l = b ++ '"' :: r := by
  intro l
  induction l with
  | nil => intro prev b r h; cases h
  | cons c rest ih =>
    intro prev b r h
    rw [scanStringLoop] at h
    split at h
    · rename_i hcond
      cases h
      simpa using hcond.2
    · revert h
      cases hrec : scanStringLoop c rest with
      | none => intro h; cases h
      | some br =>
        intro h
        obtain ⟨b2, r2⟩ := br
        cases h
        rw [ih c b2 r hrec]
        rfl

/-- A successful `scanString` yields a `STRING` token whose literal is
the body between the (consumed) quotes. -/
theorem scanString_ok {rs : List Char} {t : Token} {r2 : List Char}
    (h : scanString rs = .ok (t, r2)) :
    ∃ b, t = ⟨.STRING, String.mk b⟩ ∧ rs = b ++ '"' :: r2 := by
  unfold scanString at h
  revert h
  cases hl : scanStringLoop '"' rs with
  | none => intro h; cases h
  | some br =>
    intro h
    obtain ⟨b, r⟩ := br
    cases h
    exact ⟨b, rfl, scanStringLoop_split rs '"' b r2 hl⟩

end Scheme

namespace Scheme

/-- Source-reconstruction step for a number scan. -/
theorem scanNumberStep {pfx : Char} {rs : List Char} {t0 : Token}
    {r0 : List Char} (hsn : scanNumber pfx rs = .ok (t0, r0)) :
    pfx :: rs = tokenSource t0 ++ r0 := by
  obtain ⟨ht, hr⟩ := scanNumber_ok hsn
  subst ht hr
  simp [tokenSource]
  exact (scanParts rs).symm

/-- Source-reconstruction step for an identifier scan. -/
theorem scanIdentStep {init : Char} {rs : List Char} {t0 : Token}
    {r0 : List Char} (hsn : scanIdentifier init rs = .ok (t0, r0)) :
    init :: rs = tokenSource t0 ++ r0 := by
  obtain ⟨ht, hr⟩ := scanIdentifier_ok hsn
  subst ht hr
  simp [tokenSource]
  exact (scanParts rs).symm

/-- Source-reconstruction step for a named-character scan. -/
theorem scanNcharStep {ch : Char} {rs3 : List Char} {t0 : Token}
    {r0 : List Char} (hsn : scanNchar ch rs3 = .ok (t0, r0)) :
    '#' :: '\\' :: ch :: rs3 = tokenSource t0 ++ r0 := by
  obtain ⟨ht, hr⟩ := scanNchar_ok hsn
  subst ht hr
  simp [tokenSource]
  exact (scanParts rs3).symm

/-- Source-reconstruction step for a string scan: the token source text
re-quotes the literal. -/
theorem scanStringStep {rs : List Char} {t0 : Token} {r0 : List Char}
    (hsn : scanString rs = .ok (t0, r0)) :
    '"' :: rs = tokenSource t0 ++ r0 := by
  obtain ⟨b, ht, hb⟩ := scanString_ok hsn
  subst ht
  simp [tokenSource, hb]

/-- Every token emitted by the dispatch switch accounts exactly for the
characters between the end of the atmosphere and the remainder. -/
theorem dispatchRune_tok (A rest0 : List Char) (atm : List Char) (t : Token)
    (rest : List Char) (h : dispatchRune A rest0 = .tok atm t rest) :
    atm = A ∧ rest0 = tokenSource t ++ rest := by
  match rest0 with
  | [] => rw [dispatchRune] at h; cases h
  | r :: rs =>
    rw [dispatchRune] at h
    by_cases hc1 : r = '('
    · rw [if_pos hc1] at h; cases h; subst hc1; exact ⟨rfl, by simp [tokenSource]⟩
    rw [if_neg hc1] at h
    by_cases hc2 : r = ')'
    · rw [if_pos hc2] at h; cases h; subst hc2; exact ⟨rfl, by simp [tokenSource]⟩
    rw [if_neg hc2] at h
    by_cases hc3 : r = '\''
    · rw [if_pos hc3] at h; cases h; subst hc3; exact ⟨rfl, by simp [tokenSource]⟩
    rw [if_neg hc3] at h
    by_cases hc4 : r = '`'
    · rw [if_pos hc4] at h; cases h; subst hc4; exact ⟨rfl, by simp [tokenSource]⟩
    rw [if_neg hc4] at h
    by_cases hc5 : r = ','
    · rw [if_pos hc5] at h
      subst hc5
      by_cases hat : rs.head? = some '@'
      · rw [if_pos hat] at h; cases h
        refine ⟨rfl, ?_⟩
        rw [headReconstruct hat]
        simp [tokenSource]
      · rw [if_neg hat] at h; cases h
        exact ⟨rfl, by simp [tokenSource]⟩
    rw [if_neg hc5] at h
    by_cases hc6 : r = '.'
    · rw [if_pos hc6] at h
      subst hc6
      by_cases hdel : isDelimiterOpt rs.head? = true
      · rw [if_pos hdel] at h; cases h
        exact ⟨rfl, by simp [tokenSource]⟩
      rw [if_neg hdel] at h
      by_cases hdig : rs.head?.elim false isDigit10 = true
      · rw [if_pos hdig] at h
        split at h
        · cases h
        · rename_i t0 r0 hsn
          cases h
          exact ⟨rfl, scanNumberStep hsn⟩
      rw [if_neg hdig] at h
      by_cases hdd : rs.head? = some '.' ∧ rs.tail.head? = some '.'
      · rw [if_pos hdd] at h; cases h
        refine ⟨rfl, ?_⟩
        rw [headReconstruct hdd.1, headReconstruct hdd.2]
        simp [tokenSource]
      · rw [if_neg hdd] at h; cases h
    rw [if_neg hc6] at h
    by_cases hc7 : r = '"'
    · rw [if_pos hc7] at h
      subst hc7
      split at h
      · cases h
      · rename_i t0 r0 hsn
        cases h
        exact ⟨rfl, scanStringStep hsn⟩
    rw [if_neg hc7] at h
    by_cases hc8 : r = '#'
    · rw [if_pos hc8] at h
      subst hc8
      by_cases hp1 : rs.head? = some '('
      · rw [if_pos hp1] at h; cases h
        refine ⟨rfl, ?_⟩
        rw [headReconstruct hp1]
        simp [tokenSource]
      rw [if_neg hp1] at h
      by_cases hp2 : rs.head? = some 't'
      · rw [if_pos hp2] at h; cases h
        refine ⟨rfl, ?_⟩
        rw [headReconstruct hp2]
        simp [tokenSource]
      rw [if_neg hp2] at h
      by_cases hp3 : rs.head? = some 'f'
      · rw [if_pos hp3] at h; cases h
        refine ⟨rfl, ?_⟩
        rw [headReconstruct hp3]
        simp [tokenSource]
      rw [if_neg hp3] at h
      by_cases hp4 : rs.head? = some '\\'
      · rw [if_pos hp4] at h
        split at h
        · cases h
        rename_i ch rs3 htl
        by_cases hd3 : isDelimiterOpt rs3.head? = true
        · rw [if_pos hd3] at h; cases h
          refine ⟨rfl, ?_⟩
          rw [headReconstruct hp4, htl]
          simp [tokenSource]
        · rw [if_neg hd3] at h
          split at h
          · cases h
          · rename_i t0 r0 hsn
            cases h
            refine ⟨rfl, ?_⟩
            rw [headReconstruct hp4, htl]
            exact scanNcharStep hsn
      rw [if_neg hp4] at h
      by_cases hp5 : rs.head?.elim false (fun c =>
          c = 'i' || c = 'e' || c = 'b' || c = 'o' || c = 'd' || c = 'x') = true
      · rw [if_pos hp5] at h
        split at h
        · cases h
        · rename_i t0 r0 hsn
          cases h
          exact ⟨rfl, scanNumberStep hsn⟩
      · rw [if_neg hp5] at h; cases h
    rw [if_neg hc8] at h
    by_cases hc9 : r = '+' ∨ r = '-'
    · rw [if_pos hc9] at h
      by_cases hdel : isDelimiterOpt rs.head? = true
      · rw [if_pos hdel] at h; cases h
        exact ⟨rfl, by simp [tokenSource]⟩
      · rw [if_neg hdel] at h
        split at h
        · cases h
        · rename_i t0 r0 hsn
          cases h
          exact ⟨rfl, scanNumberStep hsn⟩
    rw [if_neg hc9] at h
    by_cases hc10 : isDigit10 r = true
    · rw [if_pos hc10] at h
      split at h
      · cases h
      · rename_i t0 r0 hsn
        cases h
        exact ⟨rfl, scanNumberStep hsn⟩
    · rw [if_neg hc10] at h
      split at h
      · cases h
      · rename_i t0 r0 hsn
        cases h
        exact ⟨rfl, scanIdentStep hsn⟩

/-- The dispatch switch reports `EOF` only on empty remaining input. -/
theorem dispatchRune_eof (A rest0 atm : List Char)
    (h : dispatchRune A rest0 = .eof atm) : atm = A ∧ rest0 = [] := by
  match rest0 with
  | [] => rw [dispatchRune] at h; cases h; exact ⟨rfl, rfl⟩
  | r :: rs =>
    rw [dispatchRune] at h
    by_cases hc1 : r = '('
    · rw [if_pos hc1] at h; cases h
    rw [if_neg hc1] at h
    by_cases hc2 : r = ')'
    · rw [if_pos hc2] at h; cases h
    rw [if_neg hc2] at h
    by_cases hc3 : r = '\''
    · rw [if_pos hc3] at h; cases h
    rw [if_neg hc3] at h
    by_cases hc4 : r = '`'
    · rw [if_pos hc4] at h; cases h
    rw [if_neg hc4] at h
    by_cases hc5 : r = ','
    · rw [if_pos hc5] at h
      repeat' split at h
      all_goals cases h
    rw [if_neg hc5] at h
    by_cases hc6 : r = '.'
    · rw [if_pos hc6] at h
      repeat' split at h
      all_goals cases h
    rw [if_neg hc6] at h
    by_cases hc7 : r = '"'
    · rw [if_pos hc7] at h
      repeat' split at h
      all_goals cases h
    rw [if_neg hc7] at h
    by_cases hc8 : r = '#'
    · rw [if_pos hc8] at h
      repeat' split at h
      all_goals cases h
    rw [if_neg hc8] at h
    by_cases hc9 : r = '+' ∨ r = '-'
    · rw [if_pos hc9] at h
      repeat' split at h
      all_goals cases h
    rw [if_neg hc9] at h
    by_cases hc10 : isDigit10 r = true
    · rw [if_pos hc10] at h
      repeat' split at h
      all_goals cases h
    · rw [if_neg hc10] at h
      repeat' split at h
      all_goals cases h

/-- `NextToken` splits the input into atmosphere, token source text and
remainder. -/
theorem NextTokenR_tok {ts atm : List Char} {t : Token} {rest : List Char}
    (h : NextTokenR ts = .tok atm t rest) :
    ts = atm ++ tokenSource t ++ rest := by
  unfold NextTokenR at h
  revert h
  cases hs : skipAtmosphere ts with
  | none => intro h; cases h
  | some a =>
    intro h
    obtain ⟨hA, hrest⟩ := dispatchRune_tok a.atm a.rest atm t rest h
    subst hA
    conv_lhs => rw [a.eqn]
    rw [hrest]
    simp

/-- An `EOF` result means the whole input was atmosphere. -/
theorem NextTokenR_eof {ts atm : List Char} (h : NextTokenR ts = .eof atm) :
    ts = atm := by
  unfold NextTokenR at h
  revert h
  cases hs : skipAtmosphere ts with
  | none => intro h; cases h
  | some a =>
    intro h
    obtain ⟨hA, hrest⟩ := dispatchRune_eof a.atm a.rest atm h
    subst hA
    conv_lhs => rw [a.eqn]
    rw [hrest]
    simp

/-- A successful lexer run reconstructs its input from the atmosphere
runs, the token source texts and the trailing atmosphere. -/
theorem lexRunF_recon : ∀ (fuel : Nat) (ts : List Char)
    (items : List (List Char × Token)) (trailing : List Char),
    lexRunF fuel ts = some (.ok (items, trailing)) →
    reconSource items trailing = ts := by
  intro fuel
  induction fuel with
  | zero => intro ts items trailing h; cases h
  | succ n ih =>
    intro ts items trailing h
    rw [lexRunF] at h
    revert h
    cases hn : NextTokenR ts with
    | hang => intro h; cases h
    | err e => intro h; cases h
    | eof atm =>
      intro h
      cases h
      rw [NextTokenR_eof hn]
      simp [reconSource]
    | tok atm t rest =>
      intro h
      dsimp only at h
      cases hr : lexRunF n rest with
      | none => rw [hr] at h; cases h
      | some res =>
        cases res with
        | error e => rw [hr] at h; cases h
        | ok pr =>
          obtain ⟨items0, tr0⟩ := pr
          rw [hr] at h
          cases h
          have hts := NextTokenR_tok hn
          have hrec := ih rest items0 trailing hr
          rw [hts]
          simp [reconSource] at hrec ⊢
          rw [hrec]

/-- C8 (counterexample): concatenating the token *literals* with the
surrounding atmosphere does not reproduce the source for `STRING`
tokens: lexing `"a"` succeeds with a single STRING token whose literal
is `a`, and the literal concatenation drops the delimiting quotes. -/
theorem claim8_counterexample :
    lexRun ['"', 'a', '"'] =
      some (.ok ([([], ⟨.STRING, ("a")⟩)], [])) ∧
    reconLiteral [([], ⟨.STRING, ("a")⟩)] [] ≠ ['"', 'a', '"'] := by
  constructor
  · with_unfolding_all rfl
  · decide

/-- C8 (amended): for every source input on which the lexer run
succeeds, concatenating each token's *source text* (its literal, with
`STRING` literals re-quoted) together with the surrounding atmosphere
and the trailing atmosphere reproduces the source exactly. -/
theorem claim8_source_roundtrip (ts : List Char)
    (items : List (List Char × Token)) (trailing : List Char)
    (h : lexRun ts = some (.ok (items, trailing))) :
    reconSource items trailing = ts :=
  lexRunF_recon (ts.length + 1) ts items trailing h

/-- Witness for the amended C8 round-trip on the input `(+ 1) ;c`. -/
theorem claim8_witness :
    lexRun ['(', '+', ' ', '1', ')', ' '] =
      some (.ok ([([], ⟨.LPAREN, ("(")⟩), ([], ⟨.IDENT, ("+")⟩),
        ([' '], ⟨.NUMBER, ("1")⟩), ([], ⟨.RPAREN, (")")⟩)], [' '])) ∧
    reconSource [([], ⟨.LPAREN, ("(")⟩), ([], ⟨.IDENT, ("+")⟩),
        ([' '], ⟨.NUMBER, ("1")⟩), ([], ⟨.RPAREN, (")")⟩)] [' '] =
      ['(', '+', ' ', '1', ')', ' '] :=
  ⟨by with_unfolding_all rfl,
   claim8_source_roundtrip ['(', '+', ' ', '1', ')', ' '] _ _
     (by with_unfolding_all rfl)⟩

end Scheme

namespace Scheme

set_option maxHeartbeats 1000000

/-- Captured derivations are derivations. -/
theorem DerivC.toDeriv : ∀ {p : Pat} {l : List Char} {c : Caps}, DerivC p l c → Deriv p l := by
  intro p l c h
  induction h with
  | cls h => exact Deriv.cls h
  | seq _ _ ih1 ih2 => exact Deriv.seq ih1 ih2
  | altL _ ih => exact Deriv.altL ih
  | altR _ ih => exact Deriv.altR ih
  | optS _ ih => exact Deriv.optS ih
  | optN => exact Deriv.optN
  | star h => exact Deriv.star h
  | group _ ih => exact Deriv.group ih

/-- Soundness of the matcher for the capture-annotated relation. -/
theorem run_sound_caps (p : Pat) :
    ∀ (input rem : List Char) (caps : Caps), (rem, caps) ∈ run p input →
      ∃ pre, input = pre ++ rem ∧ DerivC p pre caps := by
  induction p with
  | cls q =>
    intro input rem caps hm
    match input with
    | [] => simp [run] at hm
    | c :: rest =>
      rw [run] at hm
      by_cases hq : q c
      · rw [if_pos hq] at hm
        simp at hm
        refine ⟨[c], by simp [hm.1], ?_⟩
        rw [hm.2]
        exact DerivC.cls hq
      · rw [if_neg hq] at hm; simp at hm
  | seq a b iha ihb =>
    intro input rem caps hm
    rw [run] at hm
    simp only [List.mem_flatMap, List.mem_map] at hm
    obtain ⟨r1, hr1, r2, hr2, heq⟩ := hm
    obtain ⟨pre1, he1, hd1⟩ := iha input r1.1 r1.2 hr1
    obtain ⟨pre2, he2, hd2⟩ := ihb r1.1 r2.1 r2.2 hr2
    cases heq
    refine ⟨pre1 ++ pre2, ?_, DerivC.seq hd1 hd2⟩
    rw [he1, he2, List.append_assoc]
  | alt a b iha ihb =>
    intro input rem caps hm
    rw [run] at hm
    rcases List.mem_append.mp hm with h | h
    · obtain ⟨pre, he, hd⟩ := iha input rem caps h
      exact ⟨pre, he, DerivC.altL hd⟩
    · obtain ⟨pre, he, hd⟩ := ihb input rem caps h
      exact ⟨pre, he, DerivC.altR hd⟩
  | opt a iha =>
    intro input rem caps hm
    rw [run] at hm
    rcases List.mem_append.mp hm with h | h
    · obtain ⟨pre, he, hd⟩ := iha input rem caps h
      exact ⟨pre, he, DerivC.optS hd⟩
    · simp at h
      refine ⟨[], by simp [h.1], ?_⟩
      rw [h.2]
      exact DerivC.optN
  | starCls q =>
    intro input rem caps hm
    rw [run] at hm
    simp only [List.mem_map, List.mem_range] at hm
    obtain ⟨i, hi, heq⟩ := hm
    cases heq
    refine ⟨input.take (maxRun q input - i),
      (List.take_append_drop _ _).symm, DerivC.star ?_⟩
    exact maxRun_take_sat q input (maxRun q input - i) (by omega)
  | group n a iha =>
    intro input rem caps hm
    rw [run] at hm
    simp only [List.mem_map] at hm
    obtain ⟨r, hr, heq⟩ := hm
    cases heq
    obtain ⟨pre, he, hd⟩ := iha input r.1 r.2 hr
    have hcap : input.take (input.length - r.1.length) = pre := by
      rw [he, List.length_append, Nat.add_sub_cancel, List.take_left]
    refine ⟨pre, he, ?_⟩
    rw [hcap]
    exact DerivC.group hd

/-- The captures returned by `FindStringSubmatch` come from an annotated
derivation of the whole input. -/
theorem fullCaps_derivC {p : Pat} {s : List Char} {caps : Caps}
    (h : fullCaps p s = some caps) : DerivC p s caps := by
  unfold fullCaps at h
  cases hf : List.find? (fun r => decide (r.1 = [])) (run p s) with
  | none => rw [hf] at h; cases h
  | some r =>
    rw [hf] at h
    have hpred := List.find?_some hf
    have hmem := List.mem_of_find?_eq_some hf
    obtain ⟨rem, caps0⟩ := r
    simp at hpred h
    subst hpred
    obtain ⟨pre, he, hd⟩ := run_sound_caps p s [] caps0 hmem
    rw [List.append_nil] at he
    subst he
    rw [← h]
    exact hd

/-- A derivable pattern has a full-match entry. -/
theorem deriv_ex_full {a : Pat} {s : List Char} (h : Deriv a s) :
    ∃ e ∈ run a s, e.1 = ([] : List Char) := by
  obtain ⟨caps, hm⟩ := run_complete h []
  rw [List.append_nil] at hm
  exact ⟨([], caps), hm, rfl⟩

/-- Leftmost preference: a full match of the left alternative hides the
right one. -/
theorem fullCaps_alt_left {a b : Pat} {s : List Char} (h : Deriv a s) :
    fullCaps (.alt a b) s = fullCaps a s := by
  unfold fullCaps
  rw [run, List.find?_append]
  obtain ⟨e, hmem, he⟩ := deriv_ex_full h
  have hsome : (List.find? (fun r => decide (r.1 = [])) (run a s)).isSome :=
    List.find?_isSome.mpr ⟨e, hmem, by simp [he]⟩
  obtain ⟨r, hr⟩ := Option.isSome_iff_exists.mp hsome
  rw [hr]
  rfl

/-- If the left alternative has no full match, the captures are the
right alternative's. -/
theorem fullCaps_alt_right {a b : Pat} {s : List Char} (h : ¬ Deriv a s) :
    fullCaps (.alt a b) s = fullCaps b s := by
  unfold fullCaps
  rw [run, List.find?_append]
  have hnone : List.find? (fun r => decide (r.1 = [])) (run a s) = none := by
    cases hf : List.find? (fun r => decide (r.1 = [])) (run a s) with
    | none => rfl
    | some r =>
      have hpred := List.find?_some hf
      have hmem := List.mem_of_find?_eq_some hf
      obtain ⟨rem, caps⟩ := r
      simp at hpred
      subst hpred
      obtain ⟨pre, he, hd⟩ := run_sound a s [] caps hmem
      rw [List.append_nil] at he
      subst he
      exact absurd hd h
  rw [hnone]
  rfl

theorem lvAux_nil (a n : String) : lvAux a [] n = a := rfl

theorem lvAux_cons (a : String) (kv : String × String) (c : Caps) (n : String) :
    lvAux a (kv :: c) n = lvAux (if kv.1 = n && kv.2 ≠ ("") then kv.2 else a) c n := rfl

theorem lvAux_append (a : String) (c1 c2 : Caps) (n : String) :
    lvAux a (c1 ++ c2) n = lvAux (lvAux a c1 n) c2 n := by
  simp [lvAux, List.foldl_append]

/-- Entries under other names do not affect a lookup. -/
theorem lvAux_no_name : ∀ {caps : Caps} {n : String}, (∀ kv ∈ caps, kv.1 ≠ n) →
    ∀ a, lvAux a caps n = a := by
  intro caps
  induction caps with
  | nil => intro n _ a; rfl
  | cons kv rest ih =>
    intro n h a
    rw [lvAux_cons]
    have h1 : kv.1 ≠ n := h kv (List.mem_cons_self kv rest)
    have hc : (kv.1 = n && kv.2 ≠ ("")) = false := by simp [h1]
    rw [hc]
    simp only [Bool.false_eq_true, if_false]
    exact ih (fun kv2 hk => h kv2 (List.mem_cons_of_mem _ hk)) a

theorem lookupVal_eq_lvAux (caps : Caps) (n : String) :
    lookupVal caps n = lvAux ("") caps n := rfl

/-- Every captured name occurs in the pattern. -/
theorem derivC_names : ∀ {p : Pat} {l : List Char} {c : Caps}, DerivC p l c →
    ∀ kv ∈ c, kv.1 ∈ patNames p := by
  intro p l c h
  induction h with
  | cls _ => intro kv hkv; simp at hkv
  | seq _ _ ih1 ih2 =>
    intro kv hkv
    simp only [patNames, List.mem_append]
    rcases List.mem_append.mp hkv with hk | hk
    · exact Or.inl (ih1 kv hk)
    · exact Or.inr (ih2 kv hk)
  | altL _ ih =>
    intro kv hkv
    simp only [patNames, List.mem_append]
    exact Or.inl (ih kv hkv)
  | altR _ ih =>
    intro kv hkv
    simp only [patNames, List.mem_append]
    exact Or.inr (ih kv hkv)
  | optS _ ih => intro kv hkv; exact ih kv hkv
  | optN => intro kv hkv; simp at hkv
  | star _ => intro kv hkv; simp at hkv
  | group _ ih =>
    intro kv hkv
    simp only [patNames, List.mem_cons]
    rcases List.mem_cons.mp hkv with hk | hk
    · exact Or.inl (by rw [hk])
    · exact Or.inr (ih kv hk)

/-- Derivable strings are at least `minLen` long. -/
theorem deriv_minLen : ∀ {p : Pat} {l : List Char}, Deriv p l → minLen p ≤ l.length := by
  intro p l h
  induction h with
  | cls _ => simp [minLen]
  | seq _ _ ih1 ih2 => simp only [minLen, List.length_append]; omega
  | altL _ ih => simp only [minLen]; omega
  | altR _ ih => simp only [minLen]; omega
  | optS _ _ => simp [minLen]
  | optN => simp [minLen]
  | star _ => simp [minLen]
  | group _ ih => simpa [minLen] using ih

/-- Every character of a derivable string is in the pattern's alphabet. -/
theorem deriv_chars : ∀ {p : Pat} {l : List Char}, Deriv p l →
    ∀ c ∈ l, patChars p c = true := by
  intro p l h
  induction h with
  | cls hq =>
    intro c hc
    simp at hc
    subst hc
    exact hq
  | seq _ _ ih1 ih2 =>
    intro c hc
    simp only [patChars, Bool.or_eq_true]
    rcases List.mem_append.mp hc with h | h
    · exact Or.inl (ih1 c h)
    · exact Or.inr (ih2 c h)
  | altL _ ih =>
    intro c hc
    simp only [patChars, Bool.or_eq_true]
    exact Or.inl (ih c hc)
  | altR _ ih =>
    intro c hc
    simp only [patChars, Bool.or_eq_true]
    exact Or.inr (ih c hc)
  | optS _ ih => intro c hc; exact ih c hc
  | optN => intro c hc; simp at hc
  | star hsat =>
    intro c hc
    exact hsat c hc
  | group _ ih => intro c hc; exact ih c hc

end Scheme

namespace Scheme

set_option maxHeartbeats 1000000

/-- Inversion for character classes. -/
theorem deriv_cls_inv {q : Char → Bool} {l : List Char} (h : Deriv (.cls q) l) :
    ∃ c, l = [c] ∧ q c = true := by
  cases h with
  | cls hq => exact ⟨_, rfl, hq⟩

/-- Inversion for starred classes. -/
theorem deriv_star_inv {q : Char → Bool} {l : List Char}
    (h : Deriv (.starCls q) l) : ∀ c ∈ l, q c = true := by
  cases h with
  | star hs => exact hs

/-- Inversion for sequencing. -/
theorem deriv_seq_inv {a b : Pat} {l : List Char} (h : Deriv (.seq a b) l) :
    ∃ l1 l2, l = l1 ++ l2 ∧ Deriv a l1 ∧ Deriv b l2 := by
  cases h with
  | seq h1 h2 => exact ⟨_, _, rfl, h1, h2⟩

/-- Inversion for option. -/
theorem deriv_opt_inv {a : Pat} {l : List Char} (h : Deriv (.opt a) l) :
    l = [] ∨ Deriv a l := by
  cases h with
  | optS h => exact Or.inr h
  | optN => exact Or.inl rfl

/-- Inversion for `+`-quantified classes. -/
theorem deriv_plusCls_inv {q : Char → Bool} {l : List Char}
    (h : Deriv (plusCls q) l) : l ≠ [] ∧ ∀ c ∈ l, q c = true := by
  rw [plusCls] at h
  obtain ⟨l1, l2, he, h1, h2⟩ := deriv_seq_inv h
  obtain ⟨c, hc, hq⟩ := deriv_cls_inv h1
  subst he hc
  refine ⟨by simp, ?_⟩
  intro x hx
  rcases List.mem_cons.mp hx with hx | hx
  · rw [hx]; exact hq
  · exact deriv_star_inv h2 x hx

/-- Inversion for `uintegerR`: digits then `#` padding. -/
theorem deriv_uinteger_inv {r : Nat} {l : List Char}
    (h : Deriv (uintegerPat r) l) :
    ∃ d hs, l = d ++ hs ∧ d ≠ [] ∧ (∀ c ∈ d, digitCh r c = true) ∧
      ∀ c ∈ hs, c = '#' := by
  rw [uintegerPat] at h
  obtain ⟨l1, l2, he, h1, h2⟩ := deriv_seq_inv h
  obtain ⟨hne, hdig⟩ := deriv_plusCls_inv h1
  refine ⟨l1, l2, he, hne, hdig, ?_⟩
  intro c hc
  have := deriv_star_inv h2 c hc
  simpa [hashCh] using this

/-- Capture-annotated inversion for sequencing. -/
theorem derivC_seq_inv {a b : Pat} {l : List Char} {c : Caps}
    (h : DerivC (.seq a b) l c) :
    ∃ l1 l2 c1 c2, l = l1 ++ l2 ∧ c = c1 ++ c2 ∧ DerivC a l1 c1 ∧ DerivC b l2 c2 := by
  cases h with
  | seq h1 h2 => exact ⟨_, _, _, _, rfl, rfl, h1, h2⟩

/-- Capture-annotated inversion for groups. -/
theorem derivC_group_inv {n : String} {a : Pat} {l : List Char} {c : Caps}
    (h : DerivC (.group n a) l c) :
    ∃ c0, c = (n, String.mk l) :: c0 ∧ DerivC a l c0 := by
  cases h with
  | group h0 => exact ⟨_, rfl, h0⟩

/-- Capture-annotated inversion for alternation. -/
theorem derivC_alt_inv {a b : Pat} {l : List Char} {c : Caps}
    (h : DerivC (.alt a b) l c) : DerivC a l c ∨ DerivC b l c := by
  cases h with
  | altL h0 => exact Or.inl h0
  | altR h0 => exact Or.inr h0

/-- Capture-annotated inversion for option. -/
theorem derivC_opt_inv {a : Pat} {l : List Char} {c : Caps}
    (h : DerivC (.opt a) l c) : (l = [] ∧ c = []) ∨ DerivC a l c := by
  cases h with
  | optS h0 => exact Or.inr h0
  | optN => exact Or.inl ⟨rfl, rfl⟩

/-- A name not captured at all looks up to the empty string. -/
theorem lookupVal_absent {caps : Caps} {n : String}
    (h : ∀ kv ∈ caps, kv.1 ≠ n) : lookupVal caps n = ("") := by
  rw [lookupVal_eq_lvAux, lvAux_no_name h]

/-- A name captured exactly once looks up to its capture (an empty
capture and an absent one are indistinguishable, as in the Go map). -/
theorem lookupVal_unique {c1 c2 : Caps} {n v : String}
    (h1 : ∀ kv ∈ c1, kv.1 ≠ n) (h2 : ∀ kv ∈ c2, kv.1 ≠ n) :
    lookupVal (c1 ++ (n, v) :: c2) n = v := by
  rw [lookupVal_eq_lvAux, lvAux_append, lvAux_no_name h1, lvAux_cons]
  by_cases hv : v = ("")
  · subst hv
    have hc : ((n = n && (("") : String) ≠ ("")) : Bool) = false := by simp
    rw [hc]
    simp only [Bool.false_eq_true, if_false]
    exact lvAux_no_name h2 _
  · have hc : ((n = n && v ≠ ("")) : Bool) = true := by simp [hv]
    rw [hc]
    simp only [if_true]
    exact lvAux_no_name h2 _

/-- Valid digits of each supported radix convert below the radix. -/
theorem digitCh_digitVal_lt : ∀ (r : Nat), r = 2 ∨ r = 8 ∨ r = 10 ∨ r = 16 →
    ∀ c : Char, digitCh r c = true → digitVal c < r := by
  intro r hr c h
  rcases c with ⟨⟨⟨v, hv⟩⟩, hvalid⟩
  rcases hr with h2 | h8 | h10 | h16
  · subst h2
    simp [digitCh, Char.ext_iff, UInt32.ext_iff, Fin.ext_iff, UInt32.size,
      Char.toNat, UInt32.toNat, BitVec.toNat] at h
    simp [digitVal, Char.le_def, UInt32.le_def, Fin.le_def, Char.toNat,
      UInt32.toNat, BitVec.toNat]
    split_ifs <;> omega
  · subst h8
    simp [digitCh, Char.le_def, UInt32.le_def, Fin.le_def] at h
    simp [digitVal, Char.le_def, UInt32.le_def, Fin.le_def, Char.toNat,
      UInt32.toNat, BitVec.toNat]
    split_ifs <;> omega
  · subst h10
    simp [digitCh, Char.le_def, UInt32.le_def, Fin.le_def] at h
    simp [digitVal, Char.le_def, UInt32.le_def, Fin.le_def, Char.toNat,
      UInt32.toNat, BitVec.toNat]
    split_ifs <;> omega
  · subst h16
    simp [digitCh, Char.le_def, UInt32.le_def, Fin.le_def] at h
    simp [digitVal, Char.le_def, UInt32.le_def, Fin.le_def, Char.toNat,
      UInt32.toNat, BitVec.toNat]
    split_ifs <;> omega

end Scheme

namespace Scheme

set_option maxHeartbeats 1000000

theorem takeWhile_all {p : Char → Bool} : ∀ {l : List Char},
    (∀ c ∈ l, p c = true) → l.takeWhile p = l := by
  intro l
  induction l with
  | nil => intro _; rfl
  | cons c rest ih =>
    intro h
    simp [List.takeWhile_cons, h c (by simp), ih fun x hx => h x (by simp [hx])]

theorem dropWhile_all {p : Char → Bool} : ∀ {l : List Char},
    (∀ c ∈ l, p c = true) → l.dropWhile p = [] := by
  intro l
  induction l with
  | nil => intro _; rfl
  | cons c rest ih =>
    intro h
    simp [List.dropWhile_cons, h c (by simp), ih fun x hx => h x (by simp [hx])]

theorem takeWhile_append_all {p : Char → Bool} : ∀ {A : List Char} (B : List Char),
    (∀ c ∈ A, p c = true) → (A ++ B).takeWhile p = A ++ B.takeWhile p := by
  intro A
  induction A with
  | nil => intro B _; rfl
  | cons c rest ih =>
    intro B h
    simp only [List.cons_append]
    simp [List.takeWhile_cons, h c (by simp), ih B fun x hx => h x (by simp [hx])]

theorem dropWhile_append_all {p : Char → Bool} : ∀ {A : List Char} (B : List Char),
    (∀ c ∈ A, p c = true) → (A ++ B).dropWhile p = B.dropWhile p := by
  intro A
  induction A with
  | nil => intro B _; rfl
  | cons c rest ih =>
    intro B h
    simp only [List.cons_append]
    simp [List.dropWhile_cons, h c (by simp), ih B fun x hx => h x (by simp [hx])]

theorem isDigit10_ne_plus {c : Char} (h : isDigit10 c = true) : c ≠ '+' := by
  intro he
  rw [he] at h
  exact absurd h (by decide)

theorem isDigit10_ne_minus {c : Char} (h : isDigit10 c = true) : c ≠ '-' := by
  intro he
  rw [he] at h
  exact absurd h (by decide)

/-- Shape of the decimal strings the analyzer hands to
`strconv.ParseFloat`: digits with an optional point, then an optional
normalised exponent. -/
def FloatShape (cs : List Char) : Prop :=
  ∃ M S, cs = M ++ S ∧
    ((M ≠ [] ∧ ∀ c ∈ M, isDigit10 c = true) ∨
      (∃ I F, M = I ++ '.' :: F ∧ (∀ c ∈ I, isDigit10 c = true) ∧
        (∀ c ∈ F, isDigit10 c = true) ∧ (I ≠ [] ∨ F ≠ []))) ∧
    (S = [] ∨ ∃ sg ds, S = 'e' :: sg ++ ds ∧
      (sg = [] ∨ sg = ['+'] ∨ sg = ['-']) ∧ ds ≠ [] ∧ ∀ c ∈ ds, isDigit10 c = true)

/-- The final overflow/underflow test converts or range-errors. -/
theorem rangeStep (v : ℚ) :
    (∃ q, (if floatOverflowBound ≤ absQ v ∨ (v ≠ 0 ∧ absQ v < floatUnderflowBound)
        then Except.error ConvErr.floatRange else Except.ok v) = .ok q) ∨
    (if floatOverflowBound ≤ absQ v ∨ (v ≠ 0 ∧ absQ v < floatUnderflowBound)
        then Except.error ConvErr.floatRange else Except.ok v) =
      .error ConvErr.floatRange := by
  by_cases hP : floatOverflowBound ≤ absQ v ∨ (v ≠ 0 ∧ absQ v < floatUnderflowBound)
  · right
    rw [if_pos hP]
  · left
    exact ⟨v, by rw [if_neg hP]⟩

/-- On a `FloatShape` string, `ParseFloat` either converts or reports a
range error: the syntax-error branches are unreachable. -/
theorem strconvParseFloat_shape {s : String} (hs : FloatShape s.data) :
    (∃ q, strconvParseFloat s = .ok q) ∨
      strconvParseFloat s = .error .floatRange := by
  obtain ⟨M, S, hcs, hM, hS⟩ := hs
  have hSt : S.takeWhile isDigit10 = [] := by
    rcases hS with h | ⟨sg, ds, hSe, _, _, _⟩
    · rw [h]; rfl
    · rw [hSe]
      exact List.takeWhile_cons_of_neg (show ¬ isDigit10 'e' = true by decide)
  have hSd : S.dropWhile isDigit10 = S := by
    rcases hS with h | ⟨sg, ds, hSe, _, _, _⟩
    · rw [h]; rfl
    · rw [hSe]
      exact List.dropWhile_cons_of_neg (show ¬ isDigit10 'e' = true by decide)
  have hSh : ¬ S.head? = some '.' := by
    rcases hS with h | ⟨sg, ds, hSe, _, _, _⟩
    · rw [h]; simp
    · rw [hSe]; simp
  simp only [strconvParseFloat]
  rw [hcs]
  rcases hM with ⟨hne, hd⟩ | ⟨I, F, hMe, hI, hF, hne2⟩
  · obtain ⟨c, M2, rfl⟩ : ∃ c M2, M = c :: M2 := by
      cases M with
      | nil => exact absurd rfl hne
      | cons c M2 => exact ⟨c, M2, rfl⟩
    have hc := hd c (by simp)
    have hh : ((c :: M2) ++ S).head? = some c := by simp
    rw [hh]
    have hsgn : ¬ (some c = some '-' ∨ some c = some '+') := by
      rintro (h | h)
      · exact isDigit10_ne_minus hc (by injection h)
      · exact isDigit10_ne_plus hc (by injection h)
    rw [if_neg hsgn,
      takeWhile_append_all S hd, hSt, List.append_nil,
      dropWhile_append_all S hd, hSd,
      if_neg hSh, if_neg hSh]
    have hgrd0 : ¬ ((c :: M2) = [] ∧ List.takeWhile isDigit10 [] = []) := by simp
    rw [if_neg hgrd0]
    rcases hS with hSe | ⟨sg, ds, hSe, hsg, hdsne, hds⟩
    · subst hSe
      exact rangeStep _
    · subst hSe
      obtain ⟨d, ds2, rfl⟩ : ∃ d ds2, ds = d :: ds2 := by
        cases ds with
        | nil => exact absurd rfl hdsne
        | cons d ds2 => exact ⟨d, ds2, rfl⟩
      have hdd := hds d (by simp)
      split
      next heq => simp at heq
      next e2 r3 heq =>
      injection heq with h1 h2
      subst h1
      subst h2
      have he2 : ('e' : Char) = 'e' ∨ ('e' : Char) = 'E' := Or.inl rfl
      rw [if_pos he2]
      rcases hsg with rfl | rfl | rfl
      · simp only [List.append_eq, List.nil_append]
        have hcnd : ¬ ((d :: ds2).head? = some '-' ∨ (d :: ds2).head? = some '+') := by
          simp only [List.head?_cons, Option.some.injEq]
          rintro (h | h)
          · exact isDigit10_ne_minus hdd h
          · exact isDigit10_ne_plus hdd h
        rw [if_neg hcnd, takeWhile_all hds]
        have hgrd : ¬ ((d :: ds2) = [] ∨ (d :: ds2).dropWhile isDigit10 ≠ []) := by
          simp [dropWhile_all hds]
        rw [if_neg hgrd]
        exact rangeStep _
      · simp only [List.append_eq, List.cons_append, List.nil_append]
        have hcnd : (('+' :: d :: ds2).head? = some '-' ∨
            ('+' :: d :: ds2).head? = some '+') := Or.inr (by simp)
        rw [if_pos hcnd, List.tail_cons, takeWhile_all hds]
        have hgrd : ¬ ((d :: ds2) = [] ∨ (d :: ds2).dropWhile isDigit10 ≠ []) := by
          simp [dropWhile_all hds]
        rw [if_neg hgrd]
        exact rangeStep _
      · simp only [List.append_eq, List.cons_append, List.nil_append]
        have hcnd : (('-' :: d :: ds2).head? = some '-' ∨
            ('-' :: d :: ds2).head? = some '+') := Or.inl (by simp)
        rw [if_pos hcnd, List.tail_cons, takeWhile_all hds]
        have hgrd : ¬ ((d :: ds2) = [] ∨ (d :: ds2).dropWhile isDigit10 ≠ []) := by
          simp [dropWhile_all hds]
        rw [if_neg hgrd]
        exact rangeStep _
  · subst hMe
    cases I with
    | nil =>
      simp only [List.nil_append, List.cons_append, List.head?_cons]
      have hsgn : ¬ ((some '.' : Option Char) = some '-' ∨
          (some '.' : Option Char) = some '+') := by simp
      rw [if_neg hsgn,
        List.takeWhile_cons_of_neg (show ¬ isDigit10 '.' = true by decide),
        List.dropWhile_cons_of_neg (show ¬ isDigit10 '.' = true by decide)]
      have hdot : (('.' :: (F ++ S)).head? = some '.') := rfl
      rw [if_pos hdot, if_pos hdot, List.tail_cons,
        takeWhile_append_all S hF, hSt, List.append_nil,
        dropWhile_append_all S hF, hSd]
      have hFne : F ≠ [] := by
        rcases hne2 with h | h
        · exact absurd rfl h
        · exact h
      have hgrd0 : ¬ (([] : List Char) = [] ∧ F = []) := by simp [hFne]
      rw [if_neg hgrd0]
      rcases hS with hSe | ⟨sg, ds, hSe, hsg, hdsne, hds⟩
      · subst hSe
        exact rangeStep _
      · subst hSe
        obtain ⟨d, ds2, rfl⟩ : ∃ d ds2, ds = d :: ds2 := by
          cases ds with
          | nil => exact absurd rfl hdsne
          | cons d ds2 => exact ⟨d, ds2, rfl⟩
        have hdd := hds d (by simp)
        split
        next heq => simp at heq
        next e2 r3 heq =>
        injection heq with h1 h2
        subst h1
        subst h2
        have he2 : ('e' : Char) = 'e' ∨ ('e' : Char) = 'E' := Or.inl rfl
        rw [if_pos he2]
        rcases hsg with rfl | rfl | rfl
        · simp only [List.append_eq, List.nil_append]
          have hcnd : ¬ ((d :: ds2).head? = some '-' ∨ (d :: ds2).head? = some '+') := by
            simp only [List.head?_cons, Option.some.injEq]
            rintro (h | h)
            · exact isDigit10_ne_minus hdd h
            · exact isDigit10_ne_plus hdd h
          rw [if_neg hcnd, takeWhile_all hds]
          have hgrd : ¬ ((d :: ds2) = [] ∨ (d :: ds2).dropWhile isDigit10 ≠ []) := by
            simp [dropWhile_all hds]
          rw [if_neg hgrd]
          exact rangeStep _
        · simp only [List.append_eq, List.cons_append, List.nil_append]
          have hcnd : (('+' :: d :: ds2).head? = some '-' ∨
              ('+' :: d :: ds2).head? = some '+') := Or.inr (by simp)
          rw [if_pos hcnd, List.tail_cons, takeWhile_all hds]
          have hgrd : ¬ ((d :: ds2) = [] ∨ (d :: ds2).dropWhile isDigit10 ≠ []) := by
            simp [dropWhile_all hds]
          rw [if_neg hgrd]
          exact rangeStep _
        · simp only [List.append_eq, List.cons_append, List.nil_append]
          have hcnd : (('-' :: d :: ds2).head? = some '-' ∨
              ('-' :: d :: ds2).head? = some '+') := Or.inl (by simp)
          rw [if_pos hcnd, List.tail_cons, takeWhile_all hds]
          have hgrd : ¬ ((d :: ds2) = [] ∨ (d :: ds2).dropWhile isDigit10 ≠ []) := by
            simp [dropWhile_all hds]
          rw [if_neg hgrd]
          exact rangeStep _
    | cons c I2 =>
      have hc := hI c (by simp)
      have hass : ((c :: I2 ++ '.' :: F) ++ S) = (c :: I2) ++ ('.' :: (F ++ S)) := by
        simp
      rw [hass]
      have hh : ((c :: I2) ++ ('.' :: (F ++ S))).head? = some c := by simp
      rw [hh]
      have hsgn : ¬ (some c = some '-' ∨ some c = some '+') := by
        rintro (h | h)
        · exact isDigit10_ne_minus hc (by injection h)
        · exact isDigit10_ne_plus hc (by injection h)
      rw [if_neg hsgn,
        takeWhile_append_all _ (fun x hx => hI x (by simp [hx])),
        List.takeWhile_cons_of_neg (show ¬ isDigit10 '.' = true by decide),
        List.append_nil,
        dropWhile_append_all _ (fun x hx => hI x (by simp [hx])),
        List.dropWhile_cons_of_neg (show ¬ isDigit10 '.' = true by decide)]
      have hdot : (('.' :: (F ++ S)).head? = some '.') := rfl
      rw [if_pos hdot, if_pos hdot, List.tail_cons,
        takeWhile_append_all S hF, hSt, List.append_nil,
        dropWhile_append_all S hF, hSd]
      have hgrd0 : ¬ ((c :: I2) = [] ∧ F = []) := by simp
      rw [if_neg hgrd0]
      rcases hS with hSe | ⟨sg, ds, hSe, hsg, hdsne, hds⟩
      · subst hSe
        exact rangeStep _
      · subst hSe
        obtain ⟨d, ds2, rfl⟩ : ∃ d ds2, ds = d :: ds2 := by
          cases ds with
          | nil => exact absurd rfl hdsne
          | cons d ds2 => exact ⟨d, ds2, rfl⟩
        have hdd := hds d (by simp)
        split
        next heq => simp at heq
        next e2 r3 heq =>
        injection heq with h1 h2
        subst h1
        subst h2
        have he2 : ('e' : Char) = 'e' ∨ ('e' : Char) = 'E' := Or.inl rfl
        rw [if_pos he2]
        rcases hsg with rfl | rfl | rfl
        · simp only [List.append_eq, List.nil_append]
          have hcnd : ¬ ((d :: ds2).head? = some '-' ∨ (d :: ds2).head? = some '+') := by
            simp only [List.head?_cons, Option.some.injEq]
            rintro (h | h)
            · exact isDigit10_ne_minus hdd h
            · exact isDigit10_ne_plus hdd h
          rw [if_neg hcnd, takeWhile_all hds]
          have hgrd : ¬ ((d :: ds2) = [] ∨ (d :: ds2).dropWhile isDigit10 ≠ []) := by
            simp [dropWhile_all hds]
          rw [if_neg hgrd]
          exact rangeStep _
        · simp only [List.append_eq, List.cons_append, List.nil_append]
          have hcnd : (('+' :: d :: ds2).head? = some '-' ∨
              ('+' :: d :: ds2).head? = some '+') := Or.inr (by simp)
          rw [if_pos hcnd, List.tail_cons, takeWhile_all hds]
          have hgrd : ¬ ((d :: ds2) = [] ∨ (d :: ds2).dropWhile isDigit10 ≠ []) := by
            simp [dropWhile_all hds]
          rw [if_neg hgrd]
          exact rangeStep _
        · simp only [List.append_eq, List.cons_append, List.nil_append]
          have hcnd : (('-' :: d :: ds2).head? = some '-' ∨
              ('-' :: d :: ds2).head? = some '+') := Or.inl (by simp)
          rw [if_pos hcnd, List.tail_cons, takeWhile_all hds]
          have hgrd : ¬ ((d :: ds2) = [] ∨ (d :: ds2).dropWhile isDigit10 ≠ []) := by
            simp [dropWhile_all hds]
          rw [if_neg hgrd]
          exact rangeStep _

end Scheme

namespace Scheme

set_option maxHeartbeats 1000000

/-- On a nonempty all-valid-digit string, `ParseInt` converts or
range-errors; the syntax branch is unreachable. -/
theorem strconvParseInt_shape {s : String} {r : Nat}
    (h1 : s.data ≠ []) (h2 : ∀ c ∈ s.data, digitVal c < r) :
    (∃ v, strconvParseInt s r = .ok v) ∨
      strconvParseInt s r = .error .intRange := by
  simp only [strconvParseInt]
  have hc1 : ¬ (s.data = [] ∨ ¬ s.data.all (fun c => digitVal c < r) = true) := by
    rintro (h | h)
    · exact h1 h
    · exact h (List.all_eq_true.mpr fun c hc => by simpa using h2 c hc)
  rw [if_neg hc1]
  by_cases h3 : natOfDigits r s.data > 2 ^ 63 - 1
  · right
    rw [if_pos h3]
  · left
    exact ⟨_, by rw [if_neg h3]⟩

theorem isDigit10_not_marker {c : Char} (h : isDigit10 c = true) :
    isMarkerCh c = false := by
  rcases c with ⟨⟨⟨v, hv⟩⟩, hvalid⟩
  simp [isDigit10, Char.le_def, UInt32.le_def, Fin.le_def] at h
  simp [isMarkerCh, Char.ext_iff, UInt32.ext_iff, Fin.ext_iff, UInt32.size,
    Char.toNat, UInt32.toNat, BitVec.toNat]
  omega

theorem isDigit10_ne_hash {c : Char} (h : isDigit10 c = true) : c ≠ '#' := by
  intro he
  rw [he] at h
  exact absurd h (by decide)

/-- Digits of the supported radices are never the `#` placeholder. -/
theorem digitCh_ne_hash {r : Nat} (hr : r = 2 ∨ r = 8 ∨ r = 10 ∨ r = 16)
    {c : Char} (h : digitCh r c = true) : c ≠ '#' := by
  intro he
  subst he
  rcases hr with rfl | rfl | rfl | rfl <;> exact absurd h (by decide)

theorem isSignCh_cases {c : Char} (h : isSignCh c = true) :
    c = '+' ∨ c = '-' := by
  simpa [isSignCh] using h

theorem mapDec_digit {c : Char} (h : isDigit10 c = true) :
    (if isMarkerCh c && c ≠ 'e' then 'e' else if c = '#' then '0' else c) = c := by
  rw [isDigit10_not_marker h]
  simp [isDigit10_ne_hash h]

theorem mapDec_marker {c : Char} (h : isMarkerCh c = true) :
    (if isMarkerCh c && c ≠ 'e' then 'e' else if c = '#' then '0' else c) = 'e' := by
  by_cases he : c = 'e'
  · subst he
    decide
  · simp [h, he]

theorem mapDec_hash :
    (if isMarkerCh '#' && '#' ≠ 'e' then 'e' else if '#' = '#' then '0' else '#') = '0' := by
  decide

theorem mapDec_dot :
    (if isMarkerCh '.' && '.' ≠ 'e' then 'e' else if '.' = '#' then '0' else '.') = '.' := by
  decide

/-- The image of a string of `uintegerR 10` digits-and-padding under the
decimal normalisation map is a nonempty digit string. -/
theorem mapDec_uinteger {l : List Char} (h : Deriv (uintegerPat 10) l) :
    (l.map fun c => if isMarkerCh c && c ≠ 'e' then 'e' else if c = '#' then '0' else c) ≠ [] ∧
    ∀ c ∈ (l.map fun c => if isMarkerCh c && c ≠ 'e' then 'e' else if c = '#' then '0' else c),
      isDigit10 c = true := by
  obtain ⟨d, hs, rfl, hdne, hdig, hhash⟩ := deriv_uinteger_inv h
  constructor
  · simp [hdne]
  · intro c hc
    simp only [List.map_append, List.mem_append, List.mem_map] at hc
    rcases hc with ⟨x, hx, rfl⟩ | ⟨x, hx, rfl⟩
    · rw [mapDec_digit (hdig x hx)]
      exact hdig x hx
    · rw [hhash x hx, mapDec_hash]
      decide

/-- Digit runs map to themselves under the decimal normalisation. -/
theorem mapDec_digits {l : List Char} (h : ∀ c ∈ l, digitCh 10 c = true) :
    (l.map fun c => if isMarkerCh c && c ≠ 'e' then 'e' else if c = '#' then '0' else c) = l ∧
    ∀ c ∈ l, isDigit10 c = true := by
  constructor
  · have he : (l.map fun c => if isMarkerCh c && c ≠ 'e' then 'e' else
        if c = '#' then '0' else c) = l.map id :=
      List.map_congr_left fun a ha => mapDec_digit (h a ha)
    rw [he, List.map_id]
  · exact h

end Scheme

namespace Scheme

set_option maxHeartbeats 1000000

/-- `#` runs map to digit runs under the decimal normalisation. -/
theorem mapDec_hash_digits {l : List Char} (h : ∀ c ∈ l, c = '#') :
    ∀ c ∈ l.map (fun c => if isMarkerCh c && c ≠ 'e' then 'e' else if c = '#' then '0' else c), isDigit10 c = true := by
  intro c hc
  simp only [List.mem_map] at hc
  obtain ⟨x, hx, rfl⟩ := hc
  rw [h x hx, mapDec_hash]
  decide

/-- The decimal normalisation of a `decimal10` literal has the shape
`ParseFloat` needs. -/
theorem decimal_mapped_shape {m : List Char} (h : Deriv decimalPat m) :
    FloatShape (m.map (fun c => if isMarkerCh c && c ≠ 'e' then 'e' else if c = '#' then '0' else c)) := by
  rw [decimalPat] at h
  obtain ⟨mm, sfx, rfl, hmant, hsfx⟩ := deriv_seq_inv h
  rw [List.map_append]
  refine ⟨mm.map (fun c => if isMarkerCh c && c ≠ 'e' then 'e' else if c = '#' then '0' else c), sfx.map (fun c => if isMarkerCh c && c ≠ 'e' then 'e' else if c = '#' then '0' else c), rfl, ?_, ?_⟩
  · rcases deriv_alt_iff.mp hmant with h1 | h23
    · rw [mant1] at h1
      obtain ⟨dd, u, rfl, hdd, hu⟩ := deriv_seq_inv h1
      obtain ⟨hune, hud⟩ := mapDec_uinteger hu
      rcases deriv_opt_inv hdd with rfl | hd1
      · left
        rw [List.nil_append]
        exact ⟨hune, hud⟩
      · obtain ⟨cdot, rfl, hcq⟩ := deriv_cls_inv hd1
        have hc : cdot = '.' := by simpa using hcq
        subst hc
        right
        refine ⟨[], u.map (fun c => if isMarkerCh c && c ≠ 'e' then 'e' else if c = '#' then '0' else c), ?_, by simp, hud, Or.inr hune⟩
        have hdm : isMarkerCh '.' = false := by decide
        simp [mapDec_dot, hdm]
    · rcases deriv_alt_iff.mp h23 with h2 | h3
      · rw [mant2] at h2
        obtain ⟨d1, rest, rfl, hd1, hrest⟩ := deriv_seq_inv h2
        obtain ⟨dot, rest2, rfl, hdot, hrest2⟩ := deriv_seq_inv hrest
        obtain ⟨d2, hs, rfl, hd2, hhs⟩ := deriv_seq_inv hrest2
        obtain ⟨cdot, rfl, hcq⟩ := deriv_cls_inv hdot
        have hc : cdot = '.' := by simpa using hcq
        subst hc
        obtain ⟨hd1ne, hd1dig⟩ := deriv_plusCls_inv hd1
        have hd2dig := deriv_star_inv hd2
        have hhsh := deriv_star_inv hhs
        right
        refine ⟨d1.map (fun c => if isMarkerCh c && c ≠ 'e' then 'e' else if c = '#' then '0' else c), d2.map (fun c => if isMarkerCh c && c ≠ 'e' then 'e' else if c = '#' then '0' else c) ++ hs.map (fun c => if isMarkerCh c && c ≠ 'e' then 'e' else if c = '#' then '0' else c), ?_, ?_, ?_, ?_⟩
        · have hdm : isMarkerCh '.' = false := by decide
          simp [mapDec_dot, hdm]
        · intro c hc
          simp only [List.mem_map] at hc
          obtain ⟨x, hx, rfl⟩ := hc
          rw [mapDec_digit (hd1dig x hx)]
          exact hd1dig x hx
        · intro c hc
          rcases List.mem_append.mp hc with hm | hm
          · simp only [List.mem_map] at hm
            obtain ⟨x, hx, rfl⟩ := hm
            rw [mapDec_digit (hd2dig x hx)]
            exact hd2dig x hx
          · exact mapDec_hash_digits (fun c hc2 => by
              simpa [hashCh] using hhsh c hc2) c hm
        · left
          simp [hd1ne]
      · rw [mant3] at h3
        obtain ⟨d1, rest, rfl, hd1, hrest⟩ := deriv_seq_inv h3
        obtain ⟨h1s, rest2, rfl, hh1, hrest2⟩ := deriv_seq_inv hrest
        obtain ⟨dot, h2s, rfl, hdot, hh2⟩ := deriv_seq_inv hrest2
        obtain ⟨cdot, rfl, hcq⟩ := deriv_cls_inv hdot
        have hc : cdot = '.' := by simpa using hcq
        subst hc
        obtain ⟨hd1ne, hd1dig⟩ := deriv_plusCls_inv hd1
        obtain ⟨hh1ne, hh1hash⟩ := deriv_plusCls_inv hh1
        have hh2hash := deriv_star_inv hh2
        right
        refine ⟨d1.map (fun c => if isMarkerCh c && c ≠ 'e' then 'e' else if c = '#' then '0' else c) ++ h1s.map (fun c => if isMarkerCh c && c ≠ 'e' then 'e' else if c = '#' then '0' else c), h2s.map (fun c => if isMarkerCh c && c ≠ 'e' then 'e' else if c = '#' then '0' else c), ?_, ?_, ?_, ?_⟩
        · have hdm : isMarkerCh '.' = false := by decide
          simp [mapDec_dot, hdm]
        · intro c hc
          rcases List.mem_append.mp hc with hm | hm
          · simp only [List.mem_map] at hm
            obtain ⟨x, hx, rfl⟩ := hm
            rw [mapDec_digit (hd1dig x hx)]
            exact hd1dig x hx
          · exact mapDec_hash_digits (fun c hc2 => by
              simpa [hashCh] using hh1hash c hc2) c hm
        · exact mapDec_hash_digits (fun c hc2 => by
            simpa [hashCh] using hh2hash c hc2)
        · left
          simp [hd1ne]
  · rcases deriv_opt_inv hsfx with rfl | hs1
    · left
      rfl
    · right
      rw [suffixPat] at hs1
      obtain ⟨mk, rest, rfl, hmk, hrest⟩ := deriv_seq_inv hs1
      obtain ⟨sg, ds, rfl, hsg, hds⟩ := deriv_seq_inv hrest
      obtain ⟨cm, rfl, hcm⟩ := deriv_cls_inv hmk
      obtain ⟨hdsne, hdsdig⟩ := deriv_plusCls_inv hds
      refine ⟨sg.map (fun c => if isMarkerCh c && c ≠ 'e' then 'e' else if c = '#' then '0' else c), ds.map (fun c => if isMarkerCh c && c ≠ 'e' then 'e' else if c = '#' then '0' else c), ?_, ?_, ?_, ?_⟩
      · simp only [List.map_append, List.map_cons, List.map_nil, List.cons_append,
          List.nil_append]
        rw [mapDec_marker hcm]
      · rcases deriv_opt_inv hsg with rfl | hsc
        · left
          rfl
        · obtain ⟨sc, rfl, hscq⟩ := deriv_cls_inv hsc
          rcases isSignCh_cases hscq with rfl | rfl
          · right
            left
            decide
          · right
            right
            decide
      · simp [hdsne]
      · intro c hc
        simp only [List.mem_map] at hc
        obtain ⟨x, hx, rfl⟩ := hc
        rw [mapDec_digit (hdsdig x hx)]
        exact hdsdig x hx

end Scheme

namespace Scheme

set_option maxHeartbeats 1000000

theorem contains_iff {l : List Char} {c : Char} : l.contains c = true ↔ c ∈ l := by
  simp

/-- A pattern without groups produces no captures. -/
theorem derivC_groupless {p : Pat} {l : List Char} {c : Caps}
    (hp : patNames p = []) (h : DerivC p l c) : c = [] := by
  cases c with
  | nil => rfl
  | cons kv rest =>
    have := derivC_names h kv (by simp)
    rw [hp] at this
    simp at this

/-- `parseUint` on a grammar-derived uinteger literal: a range error or
success with the radix kept and inexactness forced exactly by a `#`
placeholder. -/
theorem goParseUint_spec {st : NSt} {lit : String} {r : Nat}
    (hr : r = 2 ∨ r = 8 ∨ r = 10 ∨ r = 16) (hst : st.radix = r)
    (hd : Deriv (uintegerPat r) lit.data) :
    goParseUint st lit = .error .intRange ∨
    ∃ v, goParseUint st lit = .ok (v,
      { radix := st.radix, inexact := st.inexact || lit.data.contains '#' }) := by
  subst hst
  obtain ⟨d, hs, hld, hdne, hdig, hhash⟩ := deriv_uinteger_inv hd
  have hrpos : 0 < st.radix := by rcases hr with h | h | h | h <;> omega
  by_cases hhas : lit.data.contains '#' = true
  · have h1 : (lit.data.map fun c => if c = '#' then '0' else c) ≠ [] := by
      rw [hld]
      simp [hdne]
    have h2 : ∀ c ∈ (lit.data.map fun c => if c = '#' then '0' else c),
        digitVal c < st.radix := by
      intro c hc
      simp only [List.mem_map] at hc
      obtain ⟨x, hx, rfl⟩ := hc
      rw [hld] at hx
      rcases List.mem_append.mp hx with hm | hm
      · rw [if_neg (digitCh_ne_hash hr (hdig x hm))]
        exact digitCh_digitVal_lt st.radix hr x (hdig x hm)
      · rw [hhash x hm]
        have h0 : ((if ('#' : Char) = '#' then '0' else '#') : Char) = '0' := by decide
        rw [h0]
        have h00 : digitVal '0' = 0 := by decide
        rw [h00]
        exact hrpos
    rcases strconvParseInt_shape h1 h2 with ⟨v, hv⟩ | herr
    · right
      refine ⟨(v : ℚ), ?_⟩
      simp only [goParseUint]
      rw [if_pos hhas, if_pos hhas, hv, hhas]
      simp
    · left
      simp only [goParseUint]
      rw [if_pos hhas, herr]
  · have hhs : hs = [] := by
      cases hs with
      | nil => rfl
      | cons x hs2 =>
        exfalso
        apply hhas
        rw [contains_iff, hld, hhash x (by simp)]
        simp
    rw [hhs, List.append_nil] at hld
    have h1 : lit.data ≠ [] := by rw [hld]; exact hdne
    have h2 : ∀ c ∈ lit.data, digitVal c < st.radix := by
      intro c hc
      rw [hld] at hc
      exact digitCh_digitVal_lt st.radix hr c (hdig c hc)
    rcases strconvParseInt_shape h1 h2 with ⟨v, hv⟩ | herr
    · right
      refine ⟨(v : ℚ), ?_⟩
      simp only [goParseUint]
      rw [if_neg hhas, if_neg hhas, hv]
      have hf : lit.data.contains '#' = false := by
        cases hcf : lit.data.contains '#' with
        | false => rfl
        | true => exact absurd hcf hhas
      rw [hf]
      simp
    · left
      simp only [goParseUint]
      rw [if_neg hhas, herr]

/-- `parseDecimal` on a grammar-derived `decimal10` literal: a range
error or success with the radix kept, monotone inexactness, and
inexactness forced by any placeholder, point or exponent marker. -/
theorem goParseDecimal_spec {st : NSt} {lit : String}
    (hd : Deriv decimalPat lit.data) :
    goParseDecimal st lit = .error .floatRange ∨
    ∃ v st2, goParseDecimal st lit = .ok (v, st2) ∧ st2.radix = st.radix ∧
      (st.inexact = true → st2.inexact = true) ∧
      ((lit.data.contains '#' = true ∨ lit.data.contains '.' = true ∨
        lit.data.any isMarkerCh = true) → st2.inexact = true) := by
  have hfs : FloatShape ((String.mk (lit.data.map fun c => if isMarkerCh c && c ≠ 'e' then 'e' else if c = '#' then '0' else c)).data) :=
    decimal_mapped_shape hd
  rcases strconvParseFloat_shape hfs with ⟨q, hq⟩ | herr
  · right
    by_cases hA : lit.data.contains '#' = true
    · by_cases hB : ((lit.data.map fun c => if isMarkerCh c && c ≠ 'e' then 'e' else if c = '#' then '0' else c).contains '.' || (lit.data.map fun c => if isMarkerCh c && c ≠ 'e' then 'e' else if c = '#' then '0' else c).contains 'e') = true
      · refine ⟨q, { st with inexact := true }, ?_, rfl, fun _ => rfl, fun _ => rfl⟩
        unfold goParseDecimal
        dsimp only
        rw [hq]
        split
        next e heq => cases heq
        next v heq =>
          injection heq with hv
          subst hv
          rw [if_pos hB, if_pos hA]
      · refine ⟨q, { st with inexact := true }, ?_, rfl, fun _ => rfl, fun _ => rfl⟩
        unfold goParseDecimal
        dsimp only
        rw [hq]
        split
        next e heq => cases heq
        next v heq =>
          injection heq with hv
          subst hv
          rw [if_neg hB, if_pos hA]
    · by_cases hB : ((lit.data.map fun c => if isMarkerCh c && c ≠ 'e' then 'e' else if c = '#' then '0' else c).contains '.' || (lit.data.map fun c => if isMarkerCh c && c ≠ 'e' then 'e' else if c = '#' then '0' else c).contains 'e') = true
      · refine ⟨q, { st with inexact := true }, ?_, rfl, fun _ => rfl, fun _ => rfl⟩
        unfold goParseDecimal
        dsimp only
        rw [hq]
        split
        next e heq => cases heq
        next v heq =>
          injection heq with hv
          subst hv
          rw [if_pos hB, if_neg hA]
      · refine ⟨q, st, ?_, rfl, fun h => h, ?_⟩
        · unfold goParseDecimal
          dsimp only
          rw [hq]
          split
          next e heq => cases heq
          next v heq =>
            injection heq with hv
            subst hv
            rw [if_neg hB, if_neg hA]
        · intro htrig
          exfalso
          rcases htrig with h | h | h
          · exact hA h
          · apply hB
            rw [Bool.or_eq_true]
            left
            rw [contains_iff] at h ⊢
            exact List.mem_map.mpr ⟨'.', h, mapDec_dot⟩
          · apply hB
            rw [Bool.or_eq_true]
            right
            rw [List.any_eq_true] at h
            obtain ⟨x, hx, hmx⟩ := h
            rw [contains_iff]
            exact List.mem_map.mpr ⟨x, hx, mapDec_marker hmx⟩
  · left
    unfold goParseDecimal
    dsimp only
    rw [herr]

end Scheme

namespace Scheme

set_option maxHeartbeats 1000000

/-- Capture-annotated inversion for classes. -/
theorem derivC_cls_inv {q : Char → Bool} {l : List Char} {c : Caps}
    (h : DerivC (.cls q) l c) : ∃ ch, l = [ch] ∧ q ch = true ∧ c = [] := by
  cases h with
  | cls hq => exact ⟨_, rfl, hq, rfl⟩

theorem patNames_uinteger (r : Nat) : patNames (uintegerPat r) = [] := rfl

/-- `uintegerR` literals never contain `/`. -/
theorem uinteger_no_slash {r : Nat} (hr : r = 2 ∨ r = 8 ∨ r = 10 ∨ r = 16)
    {l : List Char} (h : Deriv (uintegerPat r) l) : ¬ '/' ∈ l := by
  intro hm
  have hc := deriv_chars h '/' hm
  rcases hr with rfl | rfl | rfl | rfl <;> exact absurd hc (by decide)

/-- The submatch map of a full `dividePat` match: no `decimal` entry,
the dividend group, and the divisor group exactly when a `/` occurs. -/
theorem dividePat_caps {r : Nat} (hr : r = 2 ∨ r = 8 ∨ r = 10 ∨ r = 16)
    {ud : List Char} (hdiv : Deriv (dividePat r) ud) :
    ∃ caps, fullCaps (dividePat r) ud = some caps ∧
      lookupVal caps ("decimal") = ("") ∧
      ∃ dl, Deriv (uintegerPat r) dl ∧ lookupVal caps ("dividend") = String.mk dl ∧
        ((¬ '/' ∈ ud ∧ ud = dl ∧ lookupVal caps ("divisor") = ("")) ∨
         ('/' ∈ ud ∧ ∃ vl, Deriv (uintegerPat r) vl ∧
            lookupVal caps ("divisor") = String.mk vl ∧ ud = dl ++ '/' :: vl)) := by
  have hsome : (fullCaps (dividePat r) ud).isSome := (matchesB_iff_deriv _ _).mpr hdiv
  obtain ⟨caps, hfc⟩ := Option.isSome_iff_exists.mp hsome
  refine ⟨caps, hfc, ?_⟩
  have hdc := fullCaps_derivC hfc
  rw [dividePat] at hdc
  obtain ⟨l1, l2, c1, c2, he, hc, hg, hopt⟩ := derivC_seq_inv hdc
  obtain ⟨cu, hc1, hu⟩ := derivC_group_inv hg
  have hcu : cu = [] := derivC_groupless (patNames_uinteger r) hu
  subst hcu
  subst hc1
  rcases derivC_opt_inv hopt with ⟨hl2, hc2⟩ | hopt2
  · subst hl2
    subst hc2
    subst hc
    rw [List.append_nil] at he
    subst he
    constructor
    · exact lookupVal_absent (by
        intro kv hkv
        simp at hkv
        rw [hkv]
        exact (by decide : ("dividend" : String) ≠ ("decimal")))
    refine ⟨ud, hu.toDeriv, ?_, Or.inl ⟨uinteger_no_slash hr hu.toDeriv, rfl, ?_⟩⟩
    · exact @lookupVal_unique [] [] ("dividend") (String.mk ud) (by simp) (by simp)
    · exact lookupVal_absent (by
        intro kv hkv
        simp at hkv
        rw [hkv]
        exact (by decide : ("dividend" : String) ≠ ("divisor")))
  · obtain ⟨ls, lv0, cs, cv0, he2, hc2, hslash, hgv⟩ := derivC_seq_inv hopt2
    obtain ⟨chs, hls, hchq, hcs⟩ := derivC_cls_inv hslash
    have hch : chs = '/' := by simpa [chr] using hchq
    subst hch
    subst hls
    obtain ⟨cuv, hcv, hv⟩ := derivC_group_inv hgv
    have hcuv : cuv = [] := derivC_groupless (patNames_uinteger r) hv
    subst hcuv
    subst hcv
    subst hcs
    subst hc2
    subst hc
    subst he2
    subst he
    constructor
    · exact lookupVal_absent (by
        intro kv hkv
        simp at hkv
        rcases hkv with h | h
        · rw [h]
          exact (by decide : ("dividend" : String) ≠ ("decimal"))
        · rw [h]
          exact (by decide : ("divisor" : String) ≠ ("decimal")))
    refine ⟨l1, hu.toDeriv, ?_, Or.inr ⟨by simp, lv0, hv.toDeriv, ?_, by simp⟩⟩
    · exact @lookupVal_unique [] [(("divisor"), String.mk lv0)] ("dividend")
        (String.mk l1) (by simp) (by
          intro kv hkv
          simp at hkv
          rw [hkv]
          exact (by decide : ("divisor" : String) ≠ ("dividend")))
    · exact @lookupVal_unique [(("dividend"), String.mk l1)] [] ("divisor")
        (String.mk lv0) (by
          intro kv hkv
          simp at hkv
          rw [hkv]
          exact (by decide : ("dividend" : String) ≠ ("divisor"))) (by simp)

end Scheme

namespace Scheme

set_option maxHeartbeats 1000000

theorem patNames_decimal : patNames decimalPat = [] := rfl

theorem marker_cases {c : Char} (h : isMarkerCh c = true) :
    c = 'e' ∨ c = 's' ∨ c = 'f' ∨ c = 'd' ∨ c = 'l' := by
  simpa [isMarkerCh, or_assoc] using h

/-- `dividePat` literals never contain a decimal point. -/
theorem dividePat_no_dot {r : Nat} (hr : r = 2 ∨ r = 8 ∨ r = 10 ∨ r = 16)
    {l : List Char} (h : Deriv (dividePat r) l) : ¬ '.' ∈ l := by
  intro hm
  have hc := deriv_chars h '.' hm
  rcases hr with rfl | rfl | rfl | rfl <;> exact absurd hc (by decide)

/-- Radix-10 `dividePat` literals never contain an exponent marker. -/
theorem dividePat_no_marker {l : List Char} (h : Deriv (dividePat 10) l) :
    ¬ l.any isMarkerCh = true := by
  intro hm
  rw [List.any_eq_true] at hm
  obtain ⟨x, hx, hmx⟩ := hm
  have hc := deriv_chars h x hx
  rcases marker_cases hmx with rfl | rfl | rfl | rfl | rfl <;>
    exact absurd hc (by decide)

/-- When the divide alternative fails, `ureal10` matches through the
`decimal` group, capturing the whole literal. -/
theorem urealDecimal_caps {ud : List Char} (hnd : ¬ Deriv (dividePat 10) ud)
    (hd : Deriv (urealPat 10) ud) :
    ∃ caps, fullCaps (urealPat 10) ud = some caps ∧
      Deriv decimalPat ud ∧
      lookupVal caps ("decimal") = String.mk ud ∧ ud ≠ [] := by
  have hEq : urealPat 10 = .alt (dividePat 10) (.group ("decimal") decimalPat) := rfl
  rw [hEq] at hd ⊢
  have hdg : Deriv (.group ("decimal") decimalPat) ud := by
    rcases deriv_alt_iff.mp hd with h | h
    · exact absurd h hnd
    · exact h
  have hdd : Deriv decimalPat ud := by
    cases hdg with
    | group h => exact h
  rw [fullCaps_alt_right hnd]
  have hsome : (fullCaps (.group ("decimal") decimalPat) ud).isSome :=
    (matchesB_iff_deriv _ _).mpr hdg
  obtain ⟨caps, hfc⟩ := Option.isSome_iff_exists.mp hsome
  refine ⟨caps, hfc, hdd, ?_, ?_⟩
  · have hdc := fullCaps_derivC hfc
    obtain ⟨c0, hcc, hin⟩ := derivC_group_inv hdc
    have hc0 : c0 = [] := derivC_groupless patNames_decimal hin
    subst hc0
    subst hcc
    exact @lookupVal_unique [] [] ("decimal") (String.mk ud) (by simp) (by simp)
  · intro hnil
    have hlen := deriv_minLen hdd
    rw [hnil] at hlen
    have hml : minLen decimalPat = 1 := by decide
    rw [hml] at hlen
    simp at hlen

/-- `parseUreal` on a grammar-derived literal: a range error or success
with the radix kept, monotone inexactness, and inexactness forced by a
placeholder, a point, or (at radix 10) an exponent marker. -/
theorem goParseUreal_spec {st : NSt} {u : String} {r : Nat}
    (hr : r = 2 ∨ r = 8 ∨ r = 10 ∨ r = 16) (hst : st.radix = r)
    (hd : Deriv (urealPat r) u.data) :
    (goParseUreal st u = .error .intRange ∨ goParseUreal st u = .error .floatRange) ∨
    ∃ v st2, goParseUreal st u = .ok (v, st2) ∧ st2.radix = st.radix ∧
      (st.inexact = true → st2.inexact = true) ∧
      ((u.data.contains '#' = true ∨ u.data.contains '.' = true ∨
        (r = 10 ∧ u.data.any isMarkerCh = true)) → st2.inexact = true) := by
  have hup : urealPatOf st.radix = urealPat r := by
    rcases hr with rfl | rfl | rfl | rfl <;> rw [hst]
    all_goals rfl
  by_cases hdiv : Deriv (dividePat r) u.data
  · obtain ⟨caps, hfc, hdec, dl, hdl, hdvd, hbr⟩ := dividePat_caps hr hdiv
    have hfc2 : fullCaps (urealPat r) u.data = some caps := by
      rcases hr with rfl | rfl | rfl | rfl
      · exact hfc
      · exact hfc
      · rw [show urealPat 10 = .alt (dividePat 10)
            (.group ("decimal") decimalPat) from rfl, fullCaps_alt_left hdiv]
        exact hfc
      · exact hfc
    have hgd : groupVal (urealPatOf st.radix) u ("decimal") = ("") := by
      unfold groupVal
      rw [hup, hfc2]
      exact hdec
    have hgdvd : groupVal (urealPatOf st.radix) u ("dividend") = String.mk dl := by
      unfold groupVal
      rw [hup, hfc2]
      exact hdvd
    rcases hbr with ⟨hnos, hudl, hdvz⟩ | ⟨hyes, vl, hvl, hdvz, hudl⟩
    · have hcontr : u.data.contains '/' = false := by
        cases hcf : u.data.contains '/' with
        | false => rfl
        | true => exact absurd (contains_iff.mp hcf) hnos
      have hcontr2 : ¬ (u.data.contains '/' = true) := by
        rw [hcontr]
        simp
      rcases @goParseUint_spec st (String.mk dl) r hr hst hdl with herr | ⟨v1, hok⟩
      · left
        left
        unfold goParseUreal
        dsimp only
        rw [hgd, if_neg (by simp), hgdvd]
        rw [herr]
      · right
        refine ⟨v1 / 1, { radix := st.radix, inexact := st.inexact || dl.contains '#' }, ?_, rfl, ?_, ?_⟩
        · unfold goParseUreal
          dsimp only
          rw [hgd, if_neg (by simp), hgdvd]
          split
          next e heq => rw [hok] at heq; cases heq
          next dv st1 heq =>
            rw [hok] at heq
            injection heq with hpair
            injection hpair with hdv hst1
            subst hdv
            subst hst1
            rw [if_neg hcontr2]
        · intro h
          rw [h]
          rfl
        · intro htrig
          rcases htrig with h | h | ⟨h10, hmk⟩
          · rw [hudl] at h
            rw [h]
            simp
          · exfalso
            exact dividePat_no_dot hr hdiv (contains_iff.mp h)
          · exfalso
            subst h10
            exact dividePat_no_marker hdiv hmk
    · have hcontr : u.data.contains '/' = true := contains_iff.mpr hyes
      have hgdvz : groupVal (urealPatOf st.radix) u ("divisor") = String.mk vl := by
        unfold groupVal
        rw [hup, hfc2]
        exact hdvz
      rcases @goParseUint_spec st (String.mk dl) r hr hst hdl with herr | ⟨v1, hok⟩
      · left
        left
        unfold goParseUreal
        dsimp only
        rw [hgd, if_neg (by simp), hgdvd]
        rw [herr]
      · have hst1 : ({ radix := st.radix, inexact := st.inexact || (String.mk dl).data.contains '#' } : NSt).radix = r := hst
        rcases @goParseUint_spec { radix := st.radix, inexact := st.inexact || (String.mk dl).data.contains '#' } (String.mk vl) r hr hst1 hvl with herr2 | ⟨v2, hok2⟩
        · left
          left
          unfold goParseUreal
          dsimp only
          rw [hgd, if_neg (by simp), hgdvd]
          split
          next e heq => rw [hok] at heq; cases heq
          next dv st1 heq =>
            rw [hok] at heq
            injection heq with hpair
            injection hpair with hdv hst1e
            subst hdv
            subst hst1e
            rw [if_pos hcontr, hgdvz]
            rw [herr2]
        · right
          refine ⟨v1 / v2, { radix := st.radix, inexact := (st.inexact || dl.contains '#') || vl.contains '#' }, ?_, rfl, ?_, ?_⟩
          · unfold goParseUreal
            dsimp only
            rw [hgd, if_neg (by simp), hgdvd]
            split
            next e heq => rw [hok] at heq; cases heq
            next dv st1 heq =>
              rw [hok] at heq
              injection heq with hpair
              injection hpair with hdv hst1e
              subst hdv
              subst hst1e
              rw [if_pos hcontr, hgdvz]
              split
              next e heq2 => rw [hok2] at heq2; cases heq2
              next vv st2 heq2 =>
                rw [hok2] at heq2
                injection heq2 with hpair2
                injection hpair2 with hvv hst2e
                subst hvv
                subst hst2e
                rfl
          · intro h
            rw [h]
            rfl
          · intro htrig
            rcases htrig with h | h | ⟨h10, hmk⟩
            · rw [hudl, contains_iff] at h
              rcases List.mem_append.mp h with hm | hm
              · have : dl.contains '#' = true := contains_iff.mpr hm
                rw [this]
                simp
              · rcases List.mem_cons.mp hm with hm2 | hm2
                · exact absurd hm2 (by decide)
                · have : vl.contains '#' = true := contains_iff.mpr hm2
                  rw [this]
                  simp
            · exfalso
              exact dividePat_no_dot hr hdiv (contains_iff.mp h)
            · exfalso
              subst h10
              exact dividePat_no_marker hdiv hmk
  · have h10 : r = 10 := by
      rcases hr with rfl | rfl | rfl | rfl
      · exact absurd hd hdiv
      · exact absurd hd hdiv
      · rfl
      · exact absurd hd hdiv
    subst h10
    obtain ⟨caps, hfc, hdd, hdecv, hune⟩ := urealDecimal_caps hdiv hd
    have hgd : groupVal (urealPatOf st.radix) u ("decimal") = String.mk u.data := by
      unfold groupVal
      rw [hup, hfc]
      exact hdecv
    have hne2 : (String.mk u.data) ≠ ("") := by
      intro h
      exact hune (congrArg String.data h)
    rcases @goParseDecimal_spec st (String.mk u.data) hdd with
      herr | ⟨v, st2, hok, hrad, hmono, htrig⟩
    · left
      right
      unfold goParseUreal
      dsimp only
      rw [hgd, if_pos hne2]
      exact herr
    · right
      refine ⟨v, st2, ?_, hrad, hmono, ?_⟩
      · unfold goParseUreal
        dsimp only
        rw [hgd, if_pos hne2]
        exact hok
      · intro htr
        apply htrig
        rcases htr with h | h | ⟨_, hmk⟩
        · exact Or.inl h
        · exact Or.inr (Or.inl h)
        · exact Or.inr (Or.inr hmk)

end Scheme

namespace Scheme

set_option maxHeartbeats 1000000

theorem urealNames {r : Nat} (hr : r = 2 ∨ r = 8 ∨ r = 10 ∨ r = 16) :
    ∀ n ∈ patNames (urealPat r),
      n = ("dividend") ∨ n = ("divisor") ∨ n = ("decimal") := by
  intro n hn
  rcases hr with rfl | rfl | rfl | rfl
  · have he : patNames (urealPat 2) = [("dividend"), ("divisor")] := rfl
    rw [he] at hn
    simp at hn
    tauto
  · have he : patNames (urealPat 8) = [("dividend"), ("divisor")] := rfl
    rw [he] at hn
    simp at hn
    tauto
  · have he : patNames (urealPat 10) = [("dividend"), ("divisor"), ("decimal")] := rfl
    rw [he] at hn
    simp at hn
    tauto
  · have he : patNames (urealPat 16) = [("dividend"), ("divisor")] := rfl
    rw [he] at hn
    simp at hn
    tauto

/-- `urealR` literals are nonempty. -/
theorem ureal_ne_nil {r : Nat} (hr : r = 2 ∨ r = 8 ∨ r = 10 ∨ r = 16)
    {l : List Char} (h : Deriv (urealPat r) l) : l ≠ [] := by
  intro hnil
  have hlen := deriv_minLen h
  rw [hnil] at hlen
  rcases hr with rfl | rfl | rfl | rfl <;> revert hlen <;> decide

/-- The submatch map of a full `realR` match: sign group and ureal
group, with the literal split between them. -/
theorem realPat_caps {r : Nat} (hr : r = 2 ∨ r = 8 ∨ r = 10 ∨ r = 16)
    {ld : List Char} (hd : Deriv (realPat r) ld) :
    ∃ caps, fullCaps (realPat r) ld = some caps ∧
      ∃ sg ul, ld = sg ++ ul ∧ Deriv (urealPat r) ul ∧
        lookupVal caps ("realUreal") = String.mk ul ∧
        lookupVal caps ("realSign") = String.mk sg ∧
        (sg = [] ∨ sg = ['+'] ∨ sg = ['-']) := by
  have hsome : (fullCaps (realPat r) ld).isSome := (matchesB_iff_deriv _ _).mpr hd
  obtain ⟨caps, hfc⟩ := Option.isSome_iff_exists.mp hsome
  refine ⟨caps, hfc, ?_⟩
  have hdc := fullCaps_derivC hfc
  rw [realPat] at hdc
  obtain ⟨sg, ul, csg0, cul0, he, hc, hgs, hgu⟩ := derivC_seq_inv hdc
  obtain ⟨cs1, hcs1, hsg⟩ := derivC_group_inv hgs
  have hcs1n : cs1 = [] := derivC_groupless
    (show patNames (.opt (.cls isSignCh)) = [] from rfl) hsg
  subst hcs1n
  subst hcs1
  obtain ⟨cu1, hcu1, hul⟩ := derivC_group_inv hgu
  subst hcu1
  subst hc
  have hcun : ∀ kv ∈ cu1, kv.1 ∈ patNames (urealPat r) := derivC_names hul
  refine ⟨sg, ul, he, hul.toDeriv, ?_, ?_, ?_⟩
  · exact @lookupVal_unique [(("realSign"), String.mk sg)] cu1 ("realUreal")
      (String.mk ul) (by
        intro kv hkv
        simp at hkv
        rw [hkv]
        exact (by decide : ("realSign" : String) ≠ ("realUreal")))
      (by
        intro kv hkv
        rcases urealNames hr kv.1 (hcun kv hkv) with h | h | h <;> rw [h] <;> decide)
  · exact @lookupVal_unique [] ((("realUreal"), String.mk ul) :: cu1) ("realSign")
      (String.mk sg) (by simp) (by
        intro kv hkv
        rcases List.mem_cons.mp hkv with h | h
        · rw [h]
          exact (by decide : ("realUreal" : String) ≠ ("realSign"))
        · rcases urealNames hr kv.1 (hcun kv h) with h2 | h2 | h2 <;> rw [h2] <;> decide)
  · rcases derivC_opt_inv hsg with ⟨h1, _⟩ | hcls
    · exact Or.inl h1
    · obtain ⟨ch, hch, hq, _⟩ := derivC_cls_inv hcls
      rcases isSignCh_cases hq with rfl | rfl
      · exact Or.inr (Or.inl hch)
      · exact Or.inr (Or.inr hch)

/-- `parseReal` on an empty or grammar-derived literal: range error or
success with radix kept, monotone and trigger-forced inexactness. -/
theorem goParseReal_spec {st : NSt} {lit : String} {r : Nat}
    (hr : r = 2 ∨ r = 8 ∨ r = 10 ∨ r = 16) (hst : st.radix = r)
    (hd : lit = ("") ∨ Deriv (realPat r) lit.data) :
    (goParseReal st lit = .error .intRange ∨ goParseReal st lit = .error .floatRange) ∨
    ∃ v st2, goParseReal st lit = .ok (v, st2) ∧ st2.radix = st.radix ∧
      (st.inexact = true → st2.inexact = true) ∧
      ((lit.data.contains '#' = true ∨ lit.data.contains '.' = true ∨
        (r = 10 ∧ lit.data.any isMarkerCh = true)) → st2.inexact = true) := by
  have hrp : realPatOf st.radix = realPat r := by
    rcases hr with rfl | rfl | rfl | rfl <;> rw [hst]
    all_goals rfl
  rcases hd with hemp | hdr
  · right
    refine ⟨0, st, ?_, rfl, fun h => h, ?_⟩
    · unfold goParseReal
      rw [if_pos hemp]
    · intro htrig
      rw [hemp] at htrig
      rcases htrig with h | h | ⟨_, h⟩ <;> exact absurd h (by decide)
  · obtain ⟨caps, hfc, sg, ul, hld, hul, hlku, hlks, hsgc⟩ := realPat_caps hr hdr
    have hulne := ureal_ne_nil hr hul
    have hlitne : ¬ (lit = ("")) := by
      intro h
      rw [h] at hld
      have : sg ++ ul = [] := hld.symm
      rcases List.append_eq_nil.mp this with ⟨_, h2⟩
      exact hulne h2
    have hgu : groupVal (realPatOf st.radix) lit ("realUreal") = String.mk ul := by
      unfold groupVal
      rw [hrp, hfc]
      exact hlku
    have hgs : groupVal (realPatOf st.radix) lit ("realSign") = String.mk sg := by
      unfold groupVal
      rw [hrp, hfc]
      exact hlks
    rcases @goParseUreal_spec st (String.mk ul) r hr hst hul with
      herr | ⟨v, st2, hok, hrad, hmono, htrig⟩
    · left
      rcases herr with h1 | h1
      · left
        unfold goParseReal
        rw [if_neg hlitne]
        dsimp only
        rw [hgu, h1]
      · right
        unfold goParseReal
        rw [if_neg hlitne]
        dsimp only
        rw [hgu, h1]
    · right
      refine ⟨goGetSign (String.mk sg) * v, st2, ?_, hrad, hmono, ?_⟩
      · unfold goParseReal
        rw [if_neg hlitne]
        dsimp only
        rw [hgu]
        split
        next e heq => rw [hok] at heq; cases heq
        next u0 st0 heq =>
          rw [hok] at heq
          injection heq with hpair
          injection hpair with hu0 hst0
          subst hu0
          subst hst0
          rw [hgs]
      · intro htr
        apply htrig
        have htrans : ∀ c : Char, c ∈ lit.data → c = '#' ∨ c = '.' ∨
            isMarkerCh c = true → c ∈ ul := by
          intro c hcm hcc
          rw [hld] at hcm
          rcases List.mem_append.mp hcm with hin | hin
          · exfalso
            rcases hsgc with rfl | rfl | rfl
            · simp at hin
            · simp at hin
              subst hin
              rcases hcc with h | h | h <;> revert h <;> decide
            · simp at hin
              subst hin
              rcases hcc with h | h | h <;> revert h <;> decide
          · exact hin
        rcases htr with h | h | ⟨h10, hmk⟩
        · left
          rw [contains_iff] at h ⊢
          exact htrans '#' h (Or.inl rfl)
        · right
          left
          rw [contains_iff] at h ⊢
          exact htrans '.' h (Or.inr (Or.inl rfl))
        · right
          right
          refine ⟨h10, ?_⟩
          rw [List.any_eq_true] at hmk ⊢
          obtain ⟨x, hx, hmx⟩ := hmk
          exact ⟨x, htrans x hx (Or.inr (Or.inr hmx)), hmx⟩

end Scheme

namespace Scheme

set_option maxHeartbeats 1000000

theorem realNames {r : Nat} (hr : r = 2 ∨ r = 8 ∨ r = 10 ∨ r = 16) :
    ∀ n ∈ patNames (realPat r), n = ("realSign") ∨ n = ("realUreal") ∨
      n = ("dividend") ∨ n = ("divisor") ∨ n = ("decimal") := by
  intro n hn
  rcases hr with rfl | rfl | rfl | rfl
  · have he : patNames (realPat 2) =
        [("realSign"), ("realUreal"), ("dividend"), ("divisor")] := rfl
    rw [he] at hn
    simp at hn
    tauto
  · have he : patNames (realPat 8) =
        [("realSign"), ("realUreal"), ("dividend"), ("divisor")] := rfl
    rw [he] at hn
    simp at hn
    tauto
  · have he : patNames (realPat 10) =
        [("realSign"), ("realUreal"), ("dividend"), ("divisor"), ("decimal")] := rfl
    rw [he] at hn
    simp at hn
    tauto
  · have he : patNames (realPat 16) =
        [("realSign"), ("realUreal"), ("dividend"), ("divisor")] := rfl
    rw [he] at hn
    simp at hn
    tauto

/-- `realR` literals contain neither `@` nor `i`. -/
theorem realPat_no_ati {r : Nat} (hr : r = 2 ∨ r = 8 ∨ r = 10 ∨ r = 16)
    {l : List Char} (h : Deriv (realPat r) l) : ¬ '@' ∈ l ∧ ¬ 'i' ∈ l := by
  constructor <;> intro hm <;> have hc := deriv_chars h _ hm <;>
    rcases hr with rfl | rfl | rfl | rfl <;> exact absurd hc (by decide)

/-- `urealR` literals contain neither `@` nor `i`. -/
theorem ureal_no_ati {r : Nat} (hr : r = 2 ∨ r = 8 ∨ r = 10 ∨ r = 16)
    {l : List Char} (h : Deriv (urealPat r) l) : ¬ '@' ∈ l ∧ ¬ 'i' ∈ l := by
  constructor <;> intro hm <;> have hc := deriv_chars h _ hm <;>
    rcases hr with rfl | rfl | rfl | rfl <;> exact absurd hc (by decide)

/-- A captured name preceded and followed only by other names looks up
to its capture, whatever the bracketing of the capture list. -/
theorem lookupVal_last {caps : Caps} {n v : String}
    (h : ∃ c1 c2, caps = c1 ++ (n, v) :: c2 ∧ (∀ kv ∈ c1, kv.1 ≠ n) ∧
      (∀ kv ∈ c2, kv.1 ≠ n)) :
    lookupVal caps n = v := by
  obtain ⟨c1, c2, hcc, h1, h2⟩ := h
  rw [hcc]
  exact lookupVal_unique h1 h2

/-- The submatch map of a full `complexR` match, split along the three
branches `parseComplex` distinguishes. -/
theorem complexPat_caps {r : Nat} (hr : r = 2 ∨ r = 8 ∨ r = 10 ∨ r = 16)
    {ld : List Char} (hd : Deriv (complexPat r) ld) :
    ∃ caps, fullCaps (complexPat r) ld = some caps ∧
      ∃ re, lookupVal caps ("complexReal") = String.mk re ∧
        (re = [] ∨ Deriv (realPat r) re) ∧
        ((('@' ∈ ld) ∧ ∃ ang, lookupVal caps ("complexImag") = String.mk ang ∧
            Deriv (realPat r) ang ∧ ∀ c ∈ ld, c ∈ re ∨ c = '@' ∨ c ∈ ang)
         ∨ ((¬ '@' ∈ ld) ∧ ('i' ∈ ld) ∧
            ∃ iu, lookupVal caps ("complexImag") = String.mk iu ∧
            (iu = [] ∨ Deriv (urealPat r) iu) ∧
            ∀ c ∈ ld, c ∈ re ∨ c ∈ iu ∨ isSignCh c = true ∨ c = 'i')
         ∨ ((¬ '@' ∈ ld) ∧ (¬ 'i' ∈ ld) ∧ ld = re)) := by
  have hsome : (fullCaps (complexPat r) ld).isSome := (matchesB_iff_deriv _ _).mpr hd
  obtain ⟨caps, hfc⟩ := Option.isSome_iff_exists.mp hsome
  refine ⟨caps, hfc, ?_⟩
  have hdc := fullCaps_derivC hfc
  rw [complexPat] at hdc
  have hRealNe : ∀ kv : String × String, kv.1 ∈ patNames (realPat r) →
      kv.1 ≠ ("complexReal") ∧ kv.1 ≠ ("complexImag") := by
    intro kv hkv
    rcases realNames hr kv.1 hkv with h | h | h | h | h <;> rw [h] <;>
      exact ⟨by decide, by decide⟩
  have hUrealNe : ∀ kv : String × String, kv.1 ∈ patNames (urealPat r) →
      kv.1 ≠ ("complexReal") ∧ kv.1 ≠ ("complexImag") := by
    intro kv hkv
    rcases urealNames hr kv.1 hkv with h | h | h <;> rw [h] <;>
      exact ⟨by decide, by decide⟩
  rcases derivC_alt_inv hdc with hA | hB
  · obtain ⟨reL, tl, cre0, copt, he, hc, hgre, hopt⟩ := derivC_seq_inv hA
    obtain ⟨c1, hcre, hre⟩ := derivC_group_inv hgre
    subst hcre
    subst hc
    subst he
    have hc1n := derivC_names hre
    have hreAti := realPat_no_ati hr hre.toDeriv
    rcases derivC_opt_inv hopt with ⟨htl, hcopt⟩ | htail2
    · subst htl
      subst hcopt
      simp only [List.append_nil]
      refine ⟨reL, ?_, Or.inr hre.toDeriv, Or.inr (Or.inr ⟨hreAti.1, hreAti.2, rfl⟩)⟩
      refine lookupVal_last ⟨[], c1, by simp, by simp, ?_⟩
      intro kv hkv
      exact (hRealNe kv (hc1n kv hkv)).1
    · rcases derivC_alt_inv htail2 with hP | hT
      · obtain ⟨ats, angL0, cat, cang0, he2, hc2, hat, hang⟩ := derivC_seq_inv hP
        obtain ⟨cha, hats, hchq, hcat⟩ := derivC_cls_inv hat
        have hcha : cha = '@' := by simpa [chr] using hchq
        subst hcha
        subst hats
        subst hcat
        obtain ⟨c2, hcang, hangd⟩ := derivC_group_inv hang
        subst hcang
        subst hc2
        subst he2
        have hc2n := derivC_names hangd
        refine ⟨reL, ?_, Or.inr hre.toDeriv, Or.inl ⟨by simp, angL0, ?_,
          hangd.toDeriv, ?_⟩⟩
        · refine lookupVal_last ⟨[], c1 ++ (("complexImag"), String.mk angL0) :: c2,
            by simp, by simp, ?_⟩
          intro kv hkv
          rcases List.mem_append.mp hkv with h | h
          · exact (hRealNe kv (hc1n kv h)).1
          · rcases List.mem_cons.mp h with h2 | h2
            · rw [h2]
              exact (by decide : ("complexImag" : String) ≠ ("complexReal"))
            · exact (hRealNe kv (hc2n kv h2)).1
        · refine lookupVal_last ⟨(("complexReal"), String.mk reL) :: c1, c2,
            by simp, ?_, ?_⟩
          · intro kv hkv
            rcases List.mem_cons.mp hkv with h2 | h2
            · rw [h2]
              exact (by decide : ("complexReal" : String) ≠ ("complexImag"))
            · exact (hRealNe kv (hc1n kv h2)).2
          · intro kv hkv
            exact (hRealNe kv (hc2n kv hkv)).2
        · intro c hcm
          rcases List.mem_append.mp hcm with h | h
          · exact Or.inl h
          · rcases List.mem_append.mp h with h2 | h2
            · simp at h2
              exact Or.inr (Or.inl h2)
            · exact Or.inr (Or.inr h2)
      · obtain ⟨sgl, tl2, csg0, ctl2, he2, hc2, hgsg, htl2⟩ := derivC_seq_inv hT
        obtain ⟨csg1, hcsg, hsgd⟩ := derivC_group_inv hgsg
        obtain ⟨chs, hsgl, hchq, hcsg1⟩ := derivC_cls_inv hsgd
        subst hcsg1
        subst hcsg
        subst hsgl
        obtain ⟨iul, il, ciu0, cil, he3, hc3, hiuo, hil⟩ := derivC_seq_inv htl2
        obtain ⟨chi, hil2, hchiq, hcil⟩ := derivC_cls_inv hil
        have hchi : chi = 'i' := by simpa [chr] using hchiq
        subst hchi
        subst hil2
        subst hcil
        subst hc3
        subst hc2
        subst he3
        subst he2
        have hnoat : ¬ '@' ∈ reL ++ ([chs] ++ (iul ++ ['i'])) := by
          intro hm
          rcases List.mem_append.mp hm with h | h
          · exact hreAti.1 h
          · rcases List.mem_append.mp h with h2 | h2
            · simp at h2
              subst h2
              exact absurd hchq (by decide)
            · rcases List.mem_append.mp h2 with h3 | h3
              · rcases derivC_opt_inv hiuo with ⟨hn, _⟩ | hiug
                · rw [hn] at h3
                  simp at h3
                · obtain ⟨c3, hciu, hiud⟩ := derivC_group_inv hiug
                  exact (ureal_no_ati hr hiud.toDeriv).1 h3
              · simp at h3
        have hhasi : 'i' ∈ reL ++ ([chs] ++ (iul ++ ['i'])) := by simp
        rcases derivC_opt_inv hiuo with ⟨hiun, hciun⟩ | hiug
        · subst hiun
          subst hciun
          refine ⟨reL, ?_, Or.inr hre.toDeriv,
            Or.inr (Or.inl ⟨hnoat, hhasi, [], ?_, Or.inl rfl, ?_⟩)⟩
          · refine lookupVal_last ⟨[], c1 ++ [(("complexImagSign"), String.mk [chs])],
              by simp, by simp, ?_⟩
            intro kv hkv
            rcases List.mem_append.mp hkv with h | h
            · exact (hRealNe kv (hc1n kv h)).1
            · simp at h
              rw [h]
              exact (by decide : ("complexImagSign" : String) ≠ ("complexReal"))
          · refine Eq.trans (lookupVal_absent ?_) rfl
            intro kv hkv
            rcases List.mem_append.mp hkv with h | h
            · rcases List.mem_cons.mp h with h2 | h2
              · rw [h2]
                exact (by decide : ("complexReal" : String) ≠ ("complexImag"))
              · exact (hRealNe kv (hc1n kv h2)).2
            · simp at h
              rw [h]
              exact (by decide : ("complexImagSign" : String) ≠ ("complexImag"))
          · intro c hcm
            rcases List.mem_append.mp hcm with h | h
            · exact Or.inl h
            · rcases List.mem_append.mp h with h2 | h2
              · simp at h2
                subst h2
                exact Or.inr (Or.inr (Or.inl hchq))
              · simp at h2
                subst h2
                exact Or.inr (Or.inr (Or.inr rfl))
        · obtain ⟨c3, hciu, hiud⟩ := derivC_group_inv hiug
          subst hciu
          have hc3n := derivC_names hiud
          refine ⟨reL, ?_, Or.inr hre.toDeriv,
            Or.inr (Or.inl ⟨hnoat, hhasi, iul, ?_, Or.inr hiud.toDeriv, ?_⟩)⟩
          · refine lookupVal_last ⟨[], c1 ++ ((("complexImagSign"), String.mk [chs]) ::
              (("complexImag"), String.mk iul) :: c3), by simp, by simp, ?_⟩
            intro kv hkv
            rcases List.mem_append.mp hkv with h | h
            · exact (hRealNe kv (hc1n kv h)).1
            · rcases List.mem_cons.mp h with h2 | h2
              · rw [h2]
                exact (by decide : ("complexImagSign" : String) ≠ ("complexReal"))
              · rcases List.mem_cons.mp h2 with h3 | h3
                · rw [h3]
                  exact (by decide : ("complexImag" : String) ≠ ("complexReal"))
                · exact (hUrealNe kv (hc3n kv h3)).1
          · refine lookupVal_last ⟨(("complexReal"), String.mk reL) :: c1 ++
              [(("complexImagSign"), String.mk [chs])], c3, by simp, ?_, ?_⟩
            · intro kv hkv
              rcases List.mem_cons.mp hkv with h2 | h2
              · rw [h2]
                exact (by decide : ("complexReal" : String) ≠ ("complexImag"))
              · rcases List.mem_append.mp h2 with h3 | h3
                · exact (hRealNe kv (hc1n kv h3)).2
                · simp at h3
                  rw [h3]
                  exact (by decide : ("complexImagSign" : String) ≠ ("complexImag"))
            · intro kv hkv
              exact (hUrealNe kv (hc3n kv hkv)).2
          · intro c hcm
            rcases List.mem_append.mp hcm with h | h
            · exact Or.inl h
            · rcases List.mem_append.mp h with h2 | h2
              · simp at h2
                subst h2
                exact Or.inr (Or.inr (Or.inl hchq))
              · rcases List.mem_append.mp h2 with h3 | h3
                · exact Or.inr (Or.inl h3)
                · simp at h3
                  subst h3
                  exact Or.inr (Or.inr (Or.inr rfl))
  · obtain ⟨sgl, tl2, csg0, ctl2, he2, hc2, hgsg, htl2⟩ := derivC_seq_inv hB
    obtain ⟨csg1, hcsg, hsgd⟩ := derivC_group_inv hgsg
    obtain ⟨chs, hsgl, hchq, hcsg1⟩ := derivC_cls_inv hsgd
    subst hcsg1
    subst hcsg
    subst hsgl
    obtain ⟨iul, il, ciu0, cil, he3, hc3, hiuo, hil⟩ := derivC_seq_inv htl2
    obtain ⟨chi, hil2, hchiq, hcil⟩ := derivC_cls_inv hil
    have hchi : chi = 'i' := by simpa [chr] using hchiq
    subst hchi
    subst hil2
    subst hcil
    subst hc3
    subst hc2
    subst he3
    subst he2
    have hnoat : ¬ '@' ∈ [chs] ++ (iul ++ ['i']) := by
      intro hm
      rcases List.mem_append.mp hm with h | h
      · simp at h
        subst h
        exact absurd hchq (by decide)
      · rcases List.mem_append.mp h with h3 | h3
        · rcases derivC_opt_inv hiuo with ⟨hn, _⟩ | hiug
          · rw [hn] at h3
            simp at h3
          · obtain ⟨c3, hciu, hiud⟩ := derivC_group_inv hiug
            exact (ureal_no_ati hr hiud.toDeriv).1 h3
        · simp at h3
    have hhasi : 'i' ∈ [chs] ++ (iul ++ ['i']) := by simp
    have hcover : ∀ c ∈ [chs] ++ (iul ++ ['i']),
        c ∈ ([] : List Char) ∨ c ∈ iul ∨ isSignCh c = true ∨ c = 'i' := by
      intro c hcm
      rcases List.mem_append.mp hcm with h | h
      · simp at h
        subst h
        exact Or.inr (Or.inr (Or.inl hchq))
      · rcases List.mem_append.mp h with h3 | h3
        · exact Or.inr (Or.inl h3)
        · simp at h3
          subst h3
          exact Or.inr (Or.inr (Or.inr rfl))
    rcases derivC_opt_inv hiuo with ⟨hiun, hciun⟩ | hiug
    · subst hiun
      subst hciun
      refine ⟨[], ?_, Or.inl rfl, Or.inr (Or.inl ⟨hnoat, hhasi, [], ?_,
        Or.inl rfl, by simpa using hcover⟩)⟩
      · refine Eq.trans (lookupVal_absent ?_) rfl
        intro kv hkv
        simp at hkv
        rw [hkv]
        exact (by decide : ("complexImagSign" : String) ≠ ("complexReal"))
      · refine Eq.trans (lookupVal_absent ?_) rfl
        intro kv hkv
        simp at hkv
        rw [hkv]
        exact (by decide : ("complexImagSign" : String) ≠ ("complexImag"))
    · obtain ⟨c3, hciu, hiud⟩ := derivC_group_inv hiug
      subst hciu
      have hc3n := derivC_names hiud
      refine ⟨[], ?_, Or.inl rfl, Or.inr (Or.inl ⟨hnoat, hhasi, iul, ?_,
        Or.inr hiud.toDeriv, by simpa using hcover⟩)⟩
      · refine Eq.trans (lookupVal_absent ?_) rfl
        intro kv hkv
        rcases List.mem_append.mp hkv with h | h
        · simp at h
          rw [h]
          exact (by decide : ("complexImagSign" : String) ≠ ("complexReal"))
        · rcases List.mem_append.mp h with h2 | h2
          · rcases List.mem_cons.mp h2 with h3 | h3
            · rw [h3]
              exact (by decide : ("complexImag" : String) ≠ ("complexReal"))
            · exact (hUrealNe kv (hc3n kv h3)).1
          · simp at h2
      · refine lookupVal_last ⟨[(("complexImagSign"), String.mk [chs])], c3 ++ [],
          by simp, ?_, ?_⟩
        · intro kv hkv
          simp at hkv
          rw [hkv]
          exact (by decide : ("complexImagSign" : String) ≠ ("complexImag"))
        · intro kv hkv
          rw [List.append_nil] at hkv
          exact (hUrealNe kv (hc3n kv hkv)).2

end Scheme

namespace Scheme

set_option maxHeartbeats 1000000

/-- `parseComplex` on a grammar-derived literal: a range error or
success with the radix kept, monotone and trigger-forced inexactness,
and in the polar case the angle's sine guard forcing inexactness. -/
theorem goParseComplex_spec {st : NSt} {lit : String} {r : Nat}
    (hr : r = 2 ∨ r = 8 ∨ r = 10 ∨ r = 16) (hst : st.radix = r)
    (hd : Deriv (complexPat r) lit.data) :
    (goParseComplex st lit = .error .intRange ∨
      goParseComplex st lit = .error .floatRange) ∨
    ∃ a b st3, goParseComplex st lit = .ok (a, b, st3) ∧ st3.radix = st.radix ∧
      (st.inexact = true → st3.inexact = true) ∧
      ((lit.data.contains '#' = true ∨ lit.data.contains '.' = true ∨
        (r = 10 ∧ lit.data.any isMarkerCh = true)) → st3.inexact = true) ∧
      (lit.data.contains '@' = true →
        ∃ re1 st1 ang st2,
          goParseReal st (groupVal (complexPatOf st.radix) lit ("complexReal")) =
            .ok (re1, st1) ∧
          goParseReal st1 (groupVal (complexPatOf st.radix) lit ("complexImag")) =
            .ok (ang, st2) ∧
          (sinEps < absQ (goSin ang) → st3.inexact = true)) := by
  have hcp : complexPatOf st.radix = complexPat r := by
    rcases hr with rfl | rfl | rfl | rfl <;> rw [hst]
    all_goals rfl
  obtain ⟨caps, hfc, re, hlkre, hreD, hbr⟩ := complexPat_caps hr hd
  have hgre : groupVal (complexPatOf st.radix) lit ("complexReal") = String.mk re := by
    unfold groupVal
    rw [hcp, hfc]
    exact hlkre
  have hreD2 : (String.mk re) = ("") ∨ Deriv (realPat r) (String.mk re).data := by
    rcases hreD with h | h
    · left
      rw [h]
    · right
      exact h
  have hTrigCh : ∀ c : Char, (c = '#' ∨ c = '.' ∨ isMarkerCh c = true) →
      ¬ (isSignCh c = true ∨ c = 'i' ∨ c = '@') := by
    intro c hcc hbad
    rcases hcc with rfl | rfl | h
    · rcases hbad with h2 | h2 | h2 <;> revert h2 <;> decide
    · rcases hbad with h2 | h2 | h2 <;> revert h2 <;> decide
    · rcases marker_cases h with rfl | rfl | rfl | rfl | rfl <;>
        rcases hbad with h2 | h2 | h2 <;> revert h2 <;> decide
  rcases @goParseReal_spec st (String.mk re) r hr hst hreD2 with
    herr | ⟨re1, st1, hok1, hrad1, hmono1, htrig1⟩
  · left
    rcases herr with h1 | h1
    · left
      unfold goParseComplex
      dsimp only
      rw [hgre, h1]
    · right
      unfold goParseComplex
      dsimp only
      rw [hgre, h1]
  · have hst1r : st1.radix = r := by rw [hrad1]; exact hst
    rcases hbr with ⟨hat, ang, hlkim, hangD, hcov⟩ |
      ⟨hnat, hasi, iu, hlkim, hiuD, hcov⟩ | ⟨hnat, hnoi, hld⟩
    · have hgim : groupVal (complexPatOf st.radix) lit ("complexImag") =
          String.mk ang := by
        unfold groupVal
        rw [hcp, hfc]
        exact hlkim
      have hatB : lit.data.contains '@' = true := contains_iff.mpr hat
      rcases @goParseReal_spec st1 (String.mk ang) r hr hst1r (Or.inr hangD) with
        herr2 | ⟨ang0, st2, hok2, hrad2, hmono2, htrig2⟩
      · left
        rcases herr2 with h1 | h1
        · left
          unfold goParseComplex
          dsimp only
          rw [hgre]
          split
          next e heq => rw [hok1] at heq; cases heq
          next rv st1x heq =>
            rw [hok1] at heq
            injection heq with hp
            injection hp with hrv hst1x
            subst hrv
            subst hst1x
            rw [if_pos hatB, hgim, h1]
        · right
          unfold goParseComplex
          dsimp only
          rw [hgre]
          split
          next e heq => rw [hok1] at heq; cases heq
          next rv st1x heq =>
            rw [hok1] at heq
            injection heq with hp
            injection hp with hrv hst1x
            subst hrv
            subst hst1x
            rw [if_pos hatB, hgim, h1]
      · right
        have htr : ((lit.data.contains '#' = true ∨ lit.data.contains '.' = true ∨
            (r = 10 ∧ lit.data.any isMarkerCh = true)) → st2.inexact = true) := by
          intro htrig
          have hone : ∃ c, c ∈ lit.data ∧ (c = '#' ∨ c = '.' ∨
              (r = 10 ∧ isMarkerCh c = true)) := by
            rcases htrig with h | h | ⟨h10, h⟩
            · exact ⟨'#', contains_iff.mp h, Or.inl rfl⟩
            · exact ⟨'.', contains_iff.mp h, Or.inr (Or.inl rfl)⟩
            · obtain ⟨x, hx, hmx⟩ := List.any_eq_true.mp h
              exact ⟨x, hx, Or.inr (Or.inr ⟨h10, hmx⟩)⟩
          obtain ⟨c, hcm, hcc⟩ := hone
          have hcc2 : c = '#' ∨ c = '.' ∨ isMarkerCh c = true := by
            rcases hcc with h | h | ⟨_, h⟩
            · exact Or.inl h
            · exact Or.inr (Or.inl h)
            · exact Or.inr (Or.inr h)
          rcases hcov c hcm with hin | hin | hin
          · apply hmono2
            apply htrig1
            rcases hcc with rfl | rfl | ⟨h10, hmk⟩
            · exact Or.inl (contains_iff.mpr hin)
            · exact Or.inr (Or.inl (contains_iff.mpr hin))
            · exact Or.inr (Or.inr ⟨h10, List.any_eq_true.mpr ⟨c, hin, hmk⟩⟩)
          · exact absurd (Or.inr (Or.inr hin)) (hTrigCh c hcc2)
          · apply htrig2
            rcases hcc with rfl | rfl | ⟨h10, hmk⟩
            · exact Or.inl (contains_iff.mpr hin)
            · exact Or.inr (Or.inl (contains_iff.mpr hin))
            · exact Or.inr (Or.inr ⟨h10, List.any_eq_true.mpr ⟨c, hin, hmk⟩⟩)
        by_cases hsin : sinEps < absQ (goSin ang0)
        · refine ⟨re1 * goCos ang0, re1 * goSin ang0,
            { radix := st2.radix, inexact := true }, ?_, ?_, fun _ => rfl,
            fun _ => rfl, ?_⟩
          · unfold goParseComplex
            dsimp only
            rw [hgre]
            split
            next e heq => rw [hok1] at heq; cases heq
            next rv st1x heq =>
              rw [hok1] at heq
              injection heq with hp
              injection hp with hrv hst1x
              subst hrv
              subst hst1x
              rw [if_pos hatB, hgim]
              split
              next e heq2 => rw [hok2] at heq2; cases heq2
              next iv st2x heq2 =>
                rw [hok2] at heq2
                injection heq2 with hp2
                injection hp2 with hiv hst2x
                subst hiv
                subst hst2x
                rw [if_pos hsin]
          · show st2.radix = st.radix
            exact hrad2.trans hrad1
          · intro _
            exact ⟨re1, st1, ang0, st2, by rw [hgre]; exact hok1,
              by rw [hgim]; exact hok2, fun _ => rfl⟩
        · refine ⟨re1 * goCos ang0, re1 * goSin ang0, st2, ?_,
            hrad2.trans hrad1, fun h => hmono2 (hmono1 h), htr, ?_⟩
          · unfold goParseComplex
            dsimp only
            rw [hgre]
            split
            next e heq => rw [hok1] at heq; cases heq
            next rv st1x heq =>
              rw [hok1] at heq
              injection heq with hp
              injection hp with hrv hst1x
              subst hrv
              subst hst1x
              rw [if_pos hatB, hgim]
              split
              next e heq2 => rw [hok2] at heq2; cases heq2
              next iv st2x heq2 =>
                rw [hok2] at heq2
                injection heq2 with hp2
                injection hp2 with hiv hst2x
                subst hiv
                subst hst2x
                rw [if_neg hsin]
          · intro _
            exact ⟨re1, st1, ang0, st2, by rw [hgre]; exact hok1,
              by rw [hgim]; exact hok2, fun hs => absurd hs hsin⟩
    · have hgim : groupVal (complexPatOf st.radix) lit ("complexImag") =
          String.mk iu := by
        unfold groupVal
        rw [hcp, hfc]
        exact hlkim
      have hnatB : ¬ (lit.data.contains '@' = true) := by
        intro h
        exact hnat (contains_iff.mp h)
      have hasiB : lit.data.contains 'i' = true := contains_iff.mpr hasi
      have htrC : ∀ st2 : NSt,
          (((String.mk iu).data.contains '#' = true ∨
            (String.mk iu).data.contains '.' = true ∨
            (r = 10 ∧ (String.mk iu).data.any isMarkerCh = true)) → st2.inexact = true) →
          (st1.inexact = true → st2.inexact = true) →
          ((lit.data.contains '#' = true ∨ lit.data.contains '.' = true ∨
            (r = 10 ∧ lit.data.any isMarkerCh = true)) → st2.inexact = true) := by
        intro st2 htrig2 hmono2 htrig
        have hone : ∃ c, c ∈ lit.data ∧ (c = '#' ∨ c = '.' ∨
            (r = 10 ∧ isMarkerCh c = true)) := by
          rcases htrig with h | h | ⟨h10, h⟩
          · exact ⟨'#', contains_iff.mp h, Or.inl rfl⟩
          · exact ⟨'.', contains_iff.mp h, Or.inr (Or.inl rfl)⟩
          · obtain ⟨x, hx, hmx⟩ := List.any_eq_true.mp h
            exact ⟨x, hx, Or.inr (Or.inr ⟨h10, hmx⟩)⟩
        obtain ⟨c, hcm, hcc⟩ := hone
        have hcc2 : c = '#' ∨ c = '.' ∨ isMarkerCh c = true := by
          rcases hcc with h | h | ⟨_, h⟩
          · exact Or.inl h
          · exact Or.inr (Or.inl h)
          · exact Or.inr (Or.inr h)
        rcases hcov c hcm with hin | hin | hin | hin
        · apply hmono2
          apply htrig1
          rcases hcc with rfl | rfl | ⟨h10, hmk⟩
          · exact Or.inl (contains_iff.mpr hin)
          · exact Or.inr (Or.inl (contains_iff.mpr hin))
          · exact Or.inr (Or.inr ⟨h10, List.any_eq_true.mpr ⟨c, hin, hmk⟩⟩)
        · apply htrig2
          rcases hcc with rfl | rfl | ⟨h10, hmk⟩
          · exact Or.inl (contains_iff.mpr hin)
          · exact Or.inr (Or.inl (contains_iff.mpr hin))
          · exact Or.inr (Or.inr ⟨h10, List.any_eq_true.mpr ⟨c, hin, hmk⟩⟩)
        · exact absurd (Or.inl hin) (hTrigCh c hcc2)
        · exact absurd (Or.inr (Or.inl hin)) (hTrigCh c hcc2)
      by_cases hiue : iu = []
      · subst hiue
        have hgimne : ¬ (groupVal (complexPatOf st.radix) lit ("complexImag") ≠ ("")) := by
          rw [hgim]
          intro h
          exact h rfl
        right
        refine ⟨re1, goGetSign (groupVal (complexPatOf st.radix) lit
          ("complexImagSign")) * 1, st1, ?_, hrad1, hmono1, ?_, ?_⟩
        · unfold goParseComplex
          dsimp only
          rw [hgre]
          split
          next e heq => rw [hok1] at heq; cases heq
          next rv st1x heq =>
            rw [hok1] at heq
            injection heq with hp
            injection hp with hrv hst1x
            subst hrv
            subst hst1x
            rw [if_neg hnatB, if_pos hasiB, if_neg hgimne]
        · refine htrC st1 ?_ (fun h => h)
          intro htrig
          rcases htrig with h | h | ⟨_, h⟩ <;> exact absurd h (by decide)
        · intro h
          exact absurd h hnatB
      · have hiu : Deriv (urealPat r) (String.mk iu).data := by
          rcases hiuD with h | h
          · exact absurd h hiue
          · exact h
        have hgimne : (groupVal (complexPatOf st.radix) lit ("complexImag") ≠ ("")) := by
          rw [hgim]
          intro h
          exact hiue (congrArg String.data h)
        rcases @goParseUreal_spec st1 (String.mk iu) r hr hst1r hiu with
          herr2 | ⟨v2, st2, hok2, hrad2, hmono2, htrig2⟩
        · left
          rcases herr2 with h1 | h1
          · left
            unfold goParseComplex
            dsimp only
            rw [hgre]
            split
            next e heq => rw [hok1] at heq; cases heq
            next rv st1x heq =>
              rw [hok1] at heq
              injection heq with hp
              injection hp with hrv hst1x
              subst hrv
              subst hst1x
              rw [if_neg hnatB, if_pos hasiB, if_pos hgimne, hgim, h1]
          · right
            unfold goParseComplex
            dsimp only
            rw [hgre]
            split
            next e heq => rw [hok1] at heq; cases heq
            next rv st1x heq =>
              rw [hok1] at heq
              injection heq with hp
              injection hp with hrv hst1x
              subst hrv
              subst hst1x
              rw [if_neg hnatB, if_pos hasiB, if_pos hgimne, hgim, h1]
        · right
          refine ⟨re1, goGetSign (groupVal (complexPatOf st.radix) lit
            ("complexImagSign")) * v2, st2, ?_, hrad2.trans hrad1,
            fun h => hmono2 (hmono1 h), htrC st2 htrig2 hmono2, ?_⟩
          · unfold goParseComplex
            dsimp only
            rw [hgre]
            split
            next e heq => rw [hok1] at heq; cases heq
            next rv st1x heq =>
              rw [hok1] at heq
              injection heq with hp
              injection hp with hrv hst1x
              subst hrv
              subst hst1x
              rw [if_neg hnatB, if_pos hasiB, if_pos hgimne, hgim]
              split
              next e heq2 => rw [hok2] at heq2; cases heq2
              next iv st2x heq2 =>
                rw [hok2] at heq2
                injection heq2 with hp2
                injection hp2 with hiv hst2x
                subst hiv
                subst hst2x
                rfl
          · intro h
            exact absurd h hnatB
    · have hnatB : ¬ (lit.data.contains '@' = true) := by
        intro h
        exact hnat (contains_iff.mp h)
      have hnoiB : ¬ (lit.data.contains 'i' = true) := by
        intro h
        exact hnoi (contains_iff.mp h)
      right
      refine ⟨re1, 0, st1, ?_, hrad1, hmono1, ?_, ?_⟩
      · unfold goParseComplex
        dsimp only
        rw [hgre]
        split
        next e heq => rw [hok1] at heq; cases heq
        next rv st1x heq =>
          rw [hok1] at heq
          injection heq with hp
          injection hp with hrv hst1x
          subst hrv
          subst hst1x
          rw [if_neg hnatB, if_neg hnoiB]
      · intro htrig
        apply htrig1
        rcases htrig with h | h | ⟨h10, h⟩
        · left
          rw [contains_iff] at h ⊢
          rw [← hld]
          exact h
        · right
          left
          rw [contains_iff] at h ⊢
          rw [← hld]
          exact h
        · right
          right
          refine ⟨h10, ?_⟩
          rw [show (String.mk re).data = re from rfl, ← hld]
          exact h
      · intro h
        exact absurd h hnatB

end Scheme

namespace Scheme

set_option maxHeartbeats 1000000

theorem contains_false {l : List Char} {c : Char} (h : ¬ c ∈ l) :
    l.contains c = false := by
  cases hc : l.contains c with
  | false => rfl
  | true => exact absurd (contains_iff.mp hc) h

/-- The radix marker of a non-decimal prefix occurs in the prefix. -/
theorem prefix_radix_marker {b : Nat} (hb : b = 2 ∨ b = 8 ∨ b = 16)
    {l : List Char} (h : Deriv (prefixPat b) l) :
    (if b = 2 then 'b' else if b = 8 then 'o' else 'x') ∈ l := by
  rw [prefixPat] at h
  have hmark : ∃ m e, (l = m ++ e ∨ l = e ++ m) ∧ Deriv (radixMarkPat b) m := by
    rcases deriv_alt_iff.mp h with h1 | h1
    · obtain ⟨m, e, he, hm, _⟩ := deriv_seq_inv h1
      exact ⟨m, e, Or.inl he, hm⟩
    · obtain ⟨e, m, he, _, hm⟩ := deriv_seq_inv h1
      exact ⟨m, e, Or.inr he, hm⟩
  obtain ⟨m, e, hle, hm⟩ := hmark
  have hmm : (if b = 2 then 'b' else if b = 8 then 'o' else 'x') ∈ m := by
    rcases hb with rfl | rfl | rfl
    · rw [radixMarkPat] at hm
      obtain ⟨m1, m2, hme, h1, h2⟩ := deriv_seq_inv hm
      obtain ⟨c2, hc2, hq2⟩ := deriv_cls_inv h2
      have : c2 = 'b' := by simpa [chr] using hq2
      subst this
      rw [if_pos rfl, hme, hc2]
      simp
    · rw [radixMarkPat] at hm
      obtain ⟨m1, m2, hme, h1, h2⟩ := deriv_seq_inv hm
      obtain ⟨c2, hc2, hq2⟩ := deriv_cls_inv h2
      have : c2 = 'o' := by simpa [chr] using hq2
      subst this
      rw [if_neg (by omega), if_pos rfl, hme, hc2]
      simp
    · rw [radixMarkPat] at hm
      obtain ⟨m1, m2, hme, h1, h2⟩ := deriv_seq_inv hm
      obtain ⟨c2, hc2, hq2⟩ := deriv_cls_inv h2
      have : c2 = 'x' := by simpa [chr] using hq2
      subst this
      rw [if_neg (by omega), if_neg (by omega), hme, hc2]
      simp
  rcases hle with rfl | rfl
  · exact List.mem_append_left _ hmm
  · exact List.mem_append_right _ hmm

/-- `parsePrefix` recovers the radix of the grammar alternative that
matched, and sets inexactness exactly on an `i` flag. -/
theorem parsePrefix_radix {b : Nat} (hb : b = 2 ∨ b = 8 ∨ b = 10 ∨ b = 16)
    {pre : List Char} (h : Deriv (prefixPat b) pre) (st : NSt) :
    parsePrefixPart st (String.mk pre) =
      { radix := b, inexact := st.inexact || pre.contains 'i' } := by
  unfold parsePrefixPart
  dsimp only
  have habs : ∀ c : Char, patChars (prefixPat b) c = false → ¬ c ∈ pre := by
    intro c hc hm
    have := deriv_chars h c hm
    rw [hc] at this
    cases this
  rcases hb with rfl | rfl | rfl | rfl
  · have hbm : pre.contains 'b' = true := by
      rw [contains_iff]
      have := prefix_radix_marker (Or.inl rfl) h
      rw [if_pos rfl] at this
      exact this
    rw [if_pos hbm]
  · have hnb : ¬ (pre.contains 'b' = true) := by
      rw [contains_false (habs 'b' (by decide))]
      simp
    have hom : pre.contains 'o' = true := by
      rw [contains_iff]
      have := prefix_radix_marker (Or.inr (Or.inl rfl)) h
      rw [if_neg (by omega), if_pos rfl] at this
      exact this
    rw [if_neg hnb, if_pos hom]
  · have hnb : ¬ (pre.contains 'b' = true) := by
      rw [contains_false (habs 'b' (by decide))]
      simp
    have hno : ¬ (pre.contains 'o' = true) := by
      rw [contains_false (habs 'o' (by decide))]
      simp
    have hnx : ¬ (pre.contains 'x' = true) := by
      rw [contains_false (habs 'x' (by decide))]
      simp
    rw [if_neg hnb, if_neg hno, if_neg hnx]
  · have hnb : ¬ (pre.contains 'b' = true) := by
      rw [contains_false (habs 'b' (by decide))]
      simp
    have hno : ¬ (pre.contains 'o' = true) := by
      rw [contains_false (habs 'o' (by decide))]
      simp
    have hxm : pre.contains 'x' = true := by
      rw [contains_iff]
      have := prefix_radix_marker (Or.inr (Or.inr rfl)) h
      rw [if_neg (by omega), if_neg (by omega)] at this
      exact this
    rw [if_neg hnb, if_neg hno, if_pos hxm]

/-- Prefixes never contain a decimal point. -/
theorem prefix_no_dot {b : Nat} (hb : b = 2 ∨ b = 8 ∨ b = 10 ∨ b = 16)
    {l : List Char} (h : Deriv (prefixPat b) l) : ¬ '.' ∈ l := by
  intro hm
  have hc := deriv_chars h '.' hm
  rcases hb with rfl | rfl | rfl | rfl <;> exact absurd hc (by decide)

end Scheme

namespace Scheme

set_option maxHeartbeats 1600000

/-- A derivable pattern has full-match captures. -/
theorem deriv_fullCaps_isSome {a : Pat} {s : List Char} (h : Deriv a s) :
    ∃ caps, fullCaps a s = some caps := by
  obtain ⟨e, hmem, he⟩ := deriv_ex_full h
  unfold fullCaps
  have hsome : (List.find? (fun r => decide (r.1 = [])) (run a s)).isSome :=
    List.find?_isSome.mpr ⟨e, hmem, by simp [he]⟩
  obtain ⟨r, hr⟩ := Option.isSome_iff_exists.mp hsome
  rw [hr]
  exact ⟨r.2, rfl⟩

/-- The submatch map of a full `numberR` match: the `prefix` and
`complex` groups split the literal, and each satisfies its subgrammar. -/
theorem numberPat_caps {b : Nat} (hb : b = 2 ∨ b = 8 ∨ b = 10 ∨ b = 16)
    {sd : List Char} {caps : Caps}
    (hfc : fullCaps (numberPat b) sd = some caps) :
    ∃ pre cpx, sd = pre ++ cpx ∧ Deriv (prefixPat b) pre ∧
      Deriv (complexPat b) cpx ∧
      lookupVal caps ("prefix") = String.mk pre ∧
      lookupVal caps ("complex") = String.mk cpx := by
  have hdc := fullCaps_derivC hfc
  rw [numberPat] at hdc
  obtain ⟨l1, l2, c1, c2, hsd, hcc, hd1, hd2⟩ := derivC_seq_inv hdc
  obtain ⟨c1a, hc1, hd1a⟩ := derivC_group_inv hd1
  obtain ⟨c2a, hc2, hd2a⟩ := derivC_group_inv hd2
  have hpn : patNames (prefixPat b) = [] := by
    rcases hb with rfl | rfl | rfl | rfl <;> rfl
  have hc1e : c1a = [] := derivC_groupless hpn hd1a
  subst hc1e
  have hcne : ∀ kv : String × String, kv ∈ c2a →
      kv.1 ≠ ("prefix") ∧ kv.1 ≠ ("complex") := by
    intro kv hkv
    have hnm := derivC_names hd2a kv hkv
    rcases hb with rfl | rfl | rfl | rfl
    · exact (by decide :
        ∀ n ∈ patNames (complexPat 2), n ≠ ("prefix") ∧ n ≠ ("complex")) kv.1 hnm
    · exact (by decide :
        ∀ n ∈ patNames (complexPat 8), n ≠ ("prefix") ∧ n ≠ ("complex")) kv.1 hnm
    · exact (by decide :
        ∀ n ∈ patNames (complexPat 10), n ≠ ("prefix") ∧ n ≠ ("complex")) kv.1 hnm
    · exact (by decide :
        ∀ n ∈ patNames (complexPat 16), n ≠ ("prefix") ∧ n ≠ ("complex")) kv.1 hnm
  subst hc1 hc2 hcc
  refine ⟨l1, l2, hsd, hd1a.toDeriv, hd2a.toDeriv, ?_, ?_⟩
  · refine lookupVal_last ⟨[], (("complex"), String.mk l2) :: c2a, by simp, ?_, ?_⟩
    · intro kv hkv
      simp at hkv
    · intro kv hkv
      rcases List.mem_cons.mp hkv with hkv | hkv
      · rw [hkv]
        exact (by decide : (("complex") : String) ≠ ("prefix"))
      · exact (hcne kv hkv).1
  · refine lookupVal_last ⟨[(("prefix"), String.mk l1)], c2a, by simp, ?_, ?_⟩
    · intro kv hkv
      rcases List.mem_cons.mp hkv with hkv | hkv
      · rw [hkv]
        exact (by decide : (("prefix") : String) ≠ ("complex"))
      · simp at hkv
    · intro kv hkv
      exact (hcne kv hkv).2

/-- Decomposition of a validated literal: leftmost-first alternation
over the four radices yields the radix of the first full match, and the
`prefix`/`complex` groups split the literal accordingly. -/
theorem numberAll_caps {s : String} (h : IsNumber s = true) :
    ∃ b, (b = 2 ∨ b = 8 ∨ b = 10 ∨ b = 16) ∧
    ∃ pre cpx, s.data = pre ++ cpx ∧ Deriv (prefixPat b) pre ∧
      Deriv (complexPat b) cpx ∧
      groupVal numberAll s ("prefix") = String.mk pre ∧
      groupVal numberAll s ("complex") = String.mk cpx := by
  have hds : Deriv numberAll s.data := (matchesB_iff_deriv numberAll s.data).mp h
  have hna : numberAll =
      .alt (numberPat 2) (.alt (numberPat 8) (.alt (numberPat 10) (numberPat 16))) := rfl
  rw [hna] at hds
  by_cases h2 : Deriv (numberPat 2) s.data
  · have hfeq : fullCaps numberAll s.data = fullCaps (numberPat 2) s.data := by
      rw [hna]
      exact fullCaps_alt_left h2
    obtain ⟨caps, hfc⟩ := deriv_fullCaps_isSome h2
    obtain ⟨pre, cpx, hsp, hpd, hcd, hlp, hlc⟩ := numberPat_caps (Or.inl rfl) hfc
    refine ⟨2, Or.inl rfl, pre, cpx, hsp, hpd, hcd, ?_, ?_⟩
    · unfold groupVal
      rw [hfeq, hfc]
      exact hlp
    · unfold groupVal
      rw [hfeq, hfc]
      exact hlc
  · by_cases h8 : Deriv (numberPat 8) s.data
    · have hfeq : fullCaps numberAll s.data = fullCaps (numberPat 8) s.data := by
        rw [hna, fullCaps_alt_right h2]
        exact fullCaps_alt_left h8
      obtain ⟨caps, hfc⟩ := deriv_fullCaps_isSome h8
      obtain ⟨pre, cpx, hsp, hpd, hcd, hlp, hlc⟩ :=
        numberPat_caps (Or.inr (Or.inl rfl)) hfc
      refine ⟨8, Or.inr (Or.inl rfl), pre, cpx, hsp, hpd, hcd, ?_, ?_⟩
      · unfold groupVal
        rw [hfeq, hfc]
        exact hlp
      · unfold groupVal
        rw [hfeq, hfc]
        exact hlc
    · by_cases h10 : Deriv (numberPat 10) s.data
      · have hfeq : fullCaps numberAll s.data = fullCaps (numberPat 10) s.data := by
          rw [hna, fullCaps_alt_right h2, fullCaps_alt_right h8]
          exact fullCaps_alt_left h10
        obtain ⟨caps, hfc⟩ := deriv_fullCaps_isSome h10
        obtain ⟨pre, cpx, hsp, hpd, hcd, hlp, hlc⟩ :=
          numberPat_caps (Or.inr (Or.inr (Or.inl rfl))) hfc
        refine ⟨10, Or.inr (Or.inr (Or.inl rfl)), pre, cpx, hsp, hpd, hcd, ?_, ?_⟩
        · unfold groupVal
          rw [hfeq, hfc]
          exact hlp
        · unfold groupVal
          rw [hfeq, hfc]
          exact hlc
      · have h16 : Deriv (numberPat 16) s.data := by
          rcases deriv_alt_iff.mp hds with hh | hds8
          · exact absurd hh h2
          rcases deriv_alt_iff.mp hds8 with hh | hds10
          · exact absurd hh h8
          rcases deriv_alt_iff.mp hds10 with hh | hh
          · exact absurd hh h10
          exact hh
        have hfeq : fullCaps numberAll s.data = fullCaps (numberPat 16) s.data := by
          rw [hna, fullCaps_alt_right h2, fullCaps_alt_right h8,
            fullCaps_alt_right h10]
        obtain ⟨caps, hfc⟩ := deriv_fullCaps_isSome h16
        obtain ⟨pre, cpx, hsp, hpd, hcd, hlp, hlc⟩ :=
          numberPat_caps (Or.inr (Or.inr (Or.inr rfl))) hfc
        refine ⟨16, Or.inr (Or.inr (Or.inr rfl)), pre, cpx, hsp, hpd, hcd, ?_, ?_⟩
        · unfold groupVal
          rw [hfeq, hfc]
          exact hlp
        · unfold groupVal
          rw [hfeq, hfc]
          exact hlc

end Scheme

namespace Scheme

set_option maxHeartbeats 1600000

/-- End-to-end behaviour of `Parse` on a validated literal: conversion
failures can only be range overflows, and the result is inexact under
each of the grammar-level inexactness triggers. -/
theorem ParseLiteral_spec (s : String) (h : IsNumber s = true) :
    (∀ e, ParseLiteral s = .error e → e = .intRange ∨ e = .floatRange) ∧
    (∀ n, ParseLiteral s = .ok n →
      ((groupVal numberAll s ("prefix")).data.contains 'i' = true ∨
        (groupVal numberAll s ("complex")).data.contains '#' = true ∨
        s.data.contains '.' = true ∨
        (n.radixVal = 10 ∧
          (groupVal numberAll s ("complex")).data.any isMarkerCh = true) ∨
        ((groupVal numberAll s ("complex")).data.contains '@' = true ∧
          ∃ ang, polarAngleVal s = some ang ∧ sinEps < absQ (goSin ang))) →
      n.inexact = true) := by
  obtain ⟨b, hb, pre, cpx, hsp, hpd, hcd, hgp, hgc⟩ := numberAll_caps h
  have hclit : complexLit s = String.mk cpx := by
    unfold complexLit
    exact hgc
  have hps : prefixState s = ({ radix := b, inexact := pre.contains 'i' } : NSt) := by
    unfold prefixState
    rw [hgp, parsePrefix_radix hb hpd]
    dsimp only
    rw [Bool.false_or]
  have hcd2 : Deriv (complexPat b) (String.mk cpx).data := hcd
  have hstr : ({ radix := b, inexact := pre.contains 'i' } : NSt).radix = b := rfl
  have hspec := @goParseComplex_spec
    { radix := b, inexact := pre.contains 'i' } (String.mk cpx) b hb hstr hcd2
  constructor
  · intro e he
    unfold ParseLiteral Parse NewFromLiteral at he
    dsimp only at he
    rw [hgp, parsePrefix_radix hb hpd, hgc] at he
    dsimp only at he
    simp only [Bool.false_or] at he
    split at he
    next e1 heq =>
      injection he with he1
      subst he1
      rcases hspec with herr | ⟨a1, b1, st3, hok, hrest⟩
      · rcases herr with h1 | h1
        · rw [heq] at h1
          injection h1 with h2
          exact Or.inl h2
        · rw [heq] at h1
          injection h1 with h2
          exact Or.inr h2
      · rw [heq] at hok
        exact absurd hok (by simp)
    next re im st1 heq =>
      exact absurd he (by simp)
  · intro n hn hcond
    unfold ParseLiteral Parse NewFromLiteral at hn
    dsimp only at hn
    rw [hgp, parsePrefix_radix hb hpd, hgc] at hn
    dsimp only at hn
    simp only [Bool.false_or] at hn
    split at hn
    next e1 heq =>
      exact absurd hn (by simp)
    next re im st1 heq =>
      injection hn with hn1
      subst hn1
      rcases hspec with herr | ⟨a1, b1, st3, hok, hrad, hmono, htrig, hpolar⟩
      · rcases herr with h1 | h1 <;> rw [heq] at h1 <;> exact absurd h1 (by simp)
      · rw [heq] at hok
        have hok2 : re = a1 ∧ im = b1 ∧ st1 = st3 := by simpa using hok
        obtain ⟨h1, h2, h3⟩ := hok2
        subst h1
        subst h2
        subst h3
        show st1.inexact = true
        rcases hcond with hc | hc | hc | ⟨hc10, hcm⟩ | ⟨hcat, ang, hpav, hsin⟩
        · rw [hgp] at hc
          exact hmono hc
        · rw [hgc] at hc
          exact htrig (Or.inl hc)
        · have hmem : ('.') ∈ pre ++ cpx := by
            rw [← hsp]
            exact contains_iff.mp hc
          rcases List.mem_append.mp hmem with hm | hm
          · exact absurd hm (prefix_no_dot hb hpd)
          · exact htrig (Or.inr (Or.inl (contains_iff.mpr hm)))
        · have hr1 : st1.radix = 10 := hc10
          have hr2 : st1.radix = b := hrad
          have hb10 : b = 10 := by
            rw [← hr2]
            exact hr1
          rw [hgc] at hcm
          exact htrig (Or.inr (Or.inr ⟨hb10, hcm⟩))
        · rw [hgc] at hcat
          obtain ⟨re1, stp1, ang0, stp2, eq1, eq2, hguard⟩ := hpolar hcat
          dsimp only at eq1 eq2
          have hpav2 : polarAngleVal s = some ang0 := by
            unfold polarAngleVal
            rw [hps, hclit]
            dsimp only
            split
            next heq2 =>
              rw [eq1] at heq2
              exact absurd heq2 (by simp)
            next x1 stq1 heq2 =>
              rw [eq1] at heq2
              have heq3 : re1 = x1 ∧ stp1 = stq1 := by simpa using heq2
              obtain ⟨hq1, hq2⟩ := heq3
              subst hq1
              subst hq2
              split
              next heq4 =>
                rw [eq2] at heq4
                exact absurd heq4 (by simp)
              next x2 stq2 heq4 =>
                rw [eq2] at heq4
                have heq5 : ang0 = x2 ∧ stp2 = stq2 := by simpa using heq4
                obtain ⟨hq3, hq4⟩ := heq5
                subst hq3
                rfl
          have hpeq : ang = ang0 := Option.some.inj (hpav.symm.trans hpav2)
          subst hpeq
          exact hguard hsin

end Scheme

namespace Scheme

set_option maxRecDepth 100000
set_option maxHeartbeats 2000000

/-- C2, as amended: for every literal accepted by the number grammar the
underlying conversions cannot report a syntax error — the only reachable
fatal branches in the integer and decimal handlers are the range
overflows of `strconv.ParseInt`/`strconv.ParseFloat` (and those are
reachable, see the counterexample `1e999`). -/
theorem claim2_no_syntax_error (s : String) (h : IsNumber s = true) :
    ∀ e, ParseLiteral s = .error e → e = .intRange ∨ e = .floatRange :=
  (ParseLiteral_spec s h).1

/-- Witness for the amended C2 at the literal `1e999`: it matches the
grammar and its conversion failure is a range error. -/
theorem claim2_witness :
    IsNumber ("1e999") = true ∧
      (ConvErr.floatRange = .intRange ∨ ConvErr.floatRange = .floatRange) :=
  ⟨by rfl,
    claim2_no_syntax_error ("1e999") (by rfl) .floatRange (by with_unfolding_all rfl)⟩

/-- C3: on a grammar-matched literal the parsed value is inexact
whenever the literal has a `#` digit placeholder (a `#` in the complex
part), a decimal dot, an exponent marker in a radix-10 complex part
(where `e s f d l` act as suffix markers rather than digits or prefix
letters), the exactness flag `#i` (an `i` in the prefix part), or is a
polar form whose angle, as `parseComplex` recomputes it, has
`|sin angle|` above the `1e-52` guard. -/
theorem claim3_inexact_triggers (s : String) (n : GoNumber)
    (hv : IsNumber s = true) (hp : ParseLiteral s = .ok n)
    (hc : (groupVal numberAll s ("prefix")).data.contains 'i' = true ∨
      (groupVal numberAll s ("complex")).data.contains '#' = true ∨
      s.data.contains '.' = true ∨
      (n.radixVal = 10 ∧
        (groupVal numberAll s ("complex")).data.any isMarkerCh = true) ∨
      ((groupVal numberAll s ("complex")).data.contains '@' = true ∧
        ∃ ang, polarAngleVal s = some ang ∧ sinEps < absQ (goSin ang))) :
    n.inexact = true :=
  (ParseLiteral_spec s hv).2 n hp hc

/-- Witness for C3 at the literal `1.5`: it contains a dot and parses to
an inexact value. -/
theorem claim3_witness :
    IsNumber ("1.5") = true ∧
      ParseLiteral ("1.5") = .ok { literal := ("1.5"), re := 3/2, im := 0, inexact := true, isNumber := true, radixVal := 10 } ∧
      ({ literal := ("1.5"), re := 3/2, im := 0, inexact := true, isNumber := true, radixVal := 10 } : GoNumber).inexact = true :=
  ⟨by rfl, by with_unfolding_all rfl,
    claim3_inexact_triggers ("1.5") { literal := ("1.5"), re := 3/2, im := 0, inexact := true, isNumber := true, radixVal := 10 }
      (by rfl) (by with_unfolding_all rfl) (Or.inr (Or.inr (Or.inl (by rfl))))⟩

end Scheme
